import Mathlib

/-!
Verification development for the memstore in-memory database
(`src/database.ts` and its serialization codec `Obj2Obj`).

The TypeScript source is shallowly embedded:

* JavaScript values are `JSVal`; composite values (objects, arrays, Maps,
  Sets, Dates) live in an explicit heap keyed by object id (`oid`), so that
  reference identity, shared substructure and cycles are representable.
* The mutation-observer proxies of `Database._wrap` are represented by
  `Handle`s carrying the identity of the wrapped object plus the number of
  proxy layers (`level`); the `_wrapped` cache makes wrapping deterministic,
  so one extra wrap is exactly `level + 1`.  JavaScript `Set`/`Map`
  membership of records compares proxies by reference, which is `Handle`
  equality here.
* JavaScript `Map`s and plain objects are insertion-ordered association
  lists (`alget`/`alset`/`aldel` mirror `get`/`set`/`delete`).
* `BigInt` record ids are `Int`.  Numbers are modelled as `Int` (every
  number appearing in the claims is integral; float-specific behaviour is
  outside the model).
-/

set_option linter.unusedVariables false
set_option linter.unreachableTactic false
set_option linter.unnecessarySeqFocus false
set_option linter.unusedTactic false

/-- A reference to a heap object together with the number of mutation-observer
proxy layers wrapped around it.  `level = 0` is the raw object; wrapping the
same object again always yields the same proxy (the `_wrapped` cache), and
wrapping a proxy yields a distinct second-level proxy. -/
structure Handle where
  level : Nat
  oid : Nat
deriving DecidableEq, Repr

/-- JavaScript values as stored in fields and containers: primitives inline,
composites by reference. -/
inductive JSVal where
  | undef
  | null
  | bool (b : Bool)
  | num (n : Int)
  | str (s : String)
  | bigint (i : Int)
  | sym (sid : Nat)
  | ref (h : Handle)
deriving DecidableEq, Repr

/-- Heap objects.  A record is an `obj`; its `DataRecord.__id` symbol
property (a `BigInt` in the source) is kept in the separate `uid` component
because it is the only symbol-keyed property the store uses. -/
inductive HObj where
  | obj (uid : Option Int) (fields : List (String × JSVal))
  | arr (elems : List JSVal)
  | hmap (entries : List (JSVal × JSVal))
  | hset (elems : List JSVal)
  | date (iso : String)
deriving DecidableEq, Repr

/-- Association-list lookup: the JavaScript `Map.get` / property read. -/
def alget {α β : Type} [DecidableEq α] : List (α × β) → α → Option β
  | [], _ => none
  | p :: ps, k => if p.1 = k then some p.2 else alget ps k

/-- Association-list update: JavaScript `Map.set` / property assignment keeps
the position of an existing key and appends a fresh one. -/
def alset {α β : Type} [DecidableEq α] : List (α × β) → α → β → List (α × β)
  | [], k, v => [(k, v)]
  | p :: ps, k, v => if p.1 = k then (k, v) :: ps else p :: alset ps k v

/-- Association-list removal: JavaScript `Map.delete` / property deletion. -/
def aldel {α β : Type} [DecidableEq α] : List (α × β) → α → List (α × β)
  | [], _ => []
  | p :: ps, k => if p.1 = k then ps else p :: aldel ps k

/-- JavaScript `Set.add`: append the element if it is not already present. -/
def bucketAdd (b : List Handle) (h : Handle) : List Handle :=
  if h ∈ b then b else b ++ [h]

/-- JavaScript `Set.add` for generic element lists. -/
def jsSetAdd (b : List JSVal) (v : JSVal) : List JSVal :=
  if v ∈ b then b else b ++ [v]

/-- One proxy layer around a handle (`Database._wrap` on a composite). -/
def wrapH (h : Handle) : Handle := ⟨h.level + 1, h.oid⟩

/-- The target a proxy operates on (one layer down). -/
def unwrapH (h : Handle) : Handle := ⟨h.level - 1, h.oid⟩

/-- Reading a value through a proxy wraps composite results and leaves
primitives alone (`_wrap` returns non-objects unchanged). -/
def wrapVal : JSVal → JSVal
  | .ref h => .ref (wrapH h)
  | v => v

/-- Iterated `wrapVal`: a read through an `n`-layer proxy. -/
def wrapValN : Nat → JSVal → JSVal
  | 0, v => v
  | n + 1, v => wrapVal (wrapValN n v)

/-- Property keys reaching the proxy traps: ordinary string keys, or the
`UniqueID` symbol used for record ids. -/
inductive FieldKey where
  | s (k : String)
  | uidSym
deriving DecidableEq, Repr

/-- The change events of `DataRecordUpdateEvent` in `database.ts`.  Each
carries the wrapped record, the attributed column and the wrapped mutated
object, exactly as the proxy traps construct them.  `mSplice.deletedValues`
stands for the fresh wrapped array of deleted items; reading its elements
back (as rollback does via spread) wraps each one, which is applied at the
point of use. -/
inductive ChangeEvent where
  | added (tableName : String) (record : Handle)
  | removed (tableName : String) (record : Handle)
  | evSet (tableName : String) (record : Handle) (colName : FieldKey) (object : Handle)
      (key : FieldKey) (oldValue newValue : JSVal)
  | evDelete (tableName : String) (record : Handle) (colName : FieldKey) (object : Handle)
      (key : FieldKey) (oldValue : JSVal)
  | mClear (tableName : String) (record : Handle) (colName : String) (object : Handle)
  | mDelete (tableName : String) (record : Handle) (colName : String) (object : Handle)
      (oldValue : JSVal) (arg : JSVal)
  | mAdd (tableName : String) (record : Handle) (colName : String) (object : Handle)
      (arg : JSVal)
  | mSet (tableName : String) (record : Handle) (colName : String) (object : Handle)
      (oldValue : JSVal) (k : JSVal) (v : JSVal)
  | mPush (tableName : String) (record : Handle) (colName : String) (object : Handle)
      (args : List JSVal)
  | mUnshift (tableName : String) (record : Handle) (colName : String) (object : Handle)
      (args : List JSVal)
  | mPop (tableName : String) (record : Handle) (colName : String) (object : Handle)
      (deletedValue : JSVal)
  | mShift (tableName : String) (record : Handle) (colName : String) (object : Handle)
      (deletedValue : JSVal)
  | mSplice (tableName : String) (record : Handle) (colName : String) (object : Handle)
      (deletedValues : List JSVal) (args : List JSVal)
deriving DecidableEq, Repr

/-- One table of the `DataStore`: the master record map (uid to stored
record reference), the secondary indices (column to value-keyed buckets of
record references) and the auto-increment counter. -/
structure Table where
  records : List (Int × Handle)
  indices : List (String × List (JSVal × List Handle))
  lastUID : Option Int
deriving DecidableEq, Repr

/-- The `Database` state: tables, the object heap, and the transaction stack
(innermost frame first; the source keeps the innermost at the array end and
only ever pushes, pops and appends to it). -/
structure DB where
  tables : List (String × Table)
  heap : List (Nat × HObj)
  transactions : List (List ChangeEvent)
deriving DecidableEq, Repr

/-- Errors surfaced as thrown exceptions in the source. -/
inductive DBErr where
  | tableNotFound (t : String)
  | noActiveTransaction (msg : String)
  | invalidTarget (msg : String)
  | typeErr (msg : String)
deriving DecidableEq, Repr

def emptyDB : DB := ⟨[], [], []⟩

def DB.getTable (db : DB) (tn : String) : Option Table := alget db.tables tn

def DB.setTable (db : DB) (tn : String) (tbl : Table) : DB :=
  { db with tables := alset db.tables tn tbl }

def heapSet (db : DB) (oid : Nat) (o : HObj) : DB :=
  { db with heap := alset db.heap oid o }

/-- Raw field read on a stored object (`record[colName]` without proxies):
absent fields and non-object targets read as `undefined`. -/
def recField (db : DB) (oid : Nat) (c : String) : JSVal :=
  match alget db.heap oid with
  | some (.obj _ fs) => (alget fs c).getD .undef
  | _ => (.undef : JSVal)

/-- Raw read of the `UniqueID` symbol property. -/
def recUid (db : DB) (oid : Nat) : Option Int :=
  match alget db.heap oid with
  | some (.obj u _) => u
  | _ => none

/-- Reading `h[c]` through however many proxy layers `h` has. -/
def readThrough (db : DB) (h : Handle) (c : String) : JSVal :=
  wrapValN h.level (recField db h.oid c)

/-- Raw property read used by the set trap to capture `oldValue`. -/
def rawReadField (db : DB) (oid : Nat) (key : FieldKey) : JSVal :=
  match key with
  | .s k =>
    match alget db.heap oid with
    | some (.obj _ fs) => (alget fs k).getD .undef
    | some (.arr es) =>
      match k.toNat? with
      | some i => es.getD i .undef
      | none => .undef
    | _ => .undef
  | .uidSym =>
    match alget db.heap oid with
    | some (.obj (some n) _) => .bigint n
    | _ => (.undef : JSVal)

/-- Raw property write (`target[property] = v`).  Array index writes extend
the array with `undefined` holes when needed; property writes on `Map`, `Set`
and `Date` objects are not modelled (no claim reaches them). -/
def rawWriteField (db : DB) (oid : Nat) (key : FieldKey) (v : JSVal) : DB :=
  match alget db.heap oid with
  | some (.obj u fs) =>
    match key with
    | .s k => heapSet db oid (.obj u (alset fs k v))
    | .uidSym =>
      heapSet db oid (.obj (match v with | .bigint n => some n | _ => none) fs)
  | some (.arr es) =>
    match key with
    | .s k =>
      match k.toNat? with
      | some i =>
        if i < es.length then heapSet db oid (.arr (es.set i v))
        else heapSet db oid (.arr (es ++ List.replicate (i - es.length) .undef ++ [v]))
      | none => db
    | .uidSym => db
  | _ => db

/-- Raw property deletion (`delete target[property]`): removes an object
field; on arrays it leaves a hole, which reads back as `undefined` and keeps
the length, modelled by storing `undefined`. -/
def rawDeleteField (db : DB) (oid : Nat) (key : FieldKey) : DB :=
  match alget db.heap oid with
  | some (.obj u fs) =>
    match key with
    | .s k => heapSet db oid (.obj u (aldel fs k))
    | .uidSym => heapSet db oid (.obj none fs)
  | some (.arr es) =>
    match key with
    | .s k =>
      match k.toNat? with
      | some i => if i < es.length then heapSet db oid (.arr (es.set i .undef)) else db
      | none => db
    | .uidSym => db
  | _ => db

/-- Append an event to the innermost open transaction frame, if any (the
head of `onUpdateRecord`). -/
def pushEvent (db : DB) (ev : ChangeEvent) : DB :=
  { db with transactions :=
      match db.transactions with
      | [] => []
      | f :: rest => (f ++ [ev]) :: rest }

/-- The body of `Database.onUpdateRecord`: log the event into the innermost
open frame, then, for top level `set`/`delete` events on a record, maintain
the index of the assigned key (the source looks the index up by `event.key`
and compares `event.record === event.object` by reference). -/
def onUpdateRecord (db : DB) (ev : ChangeEvent) : DB :=
  let db := pushEvent db ev
  match ev with
  | .evSet tn record _ object key old new =>
    if record = object then
      match db.getTable tn with
      | none => db
      | some tbl =>
        match key with
        | .uidSym => db
        | .s k =>
          match alget tbl.indices k with
          | none => db
          | some idx =>
            let idx :=
              match alget idx old with
              | some oldSet => alset idx old (oldSet.erase record)
              | none => idx
            let idx := alset idx new (bucketAdd ((alget idx new).getD []) record)
            db.setTable tn { tbl with indices := alset tbl.indices k idx }
    else db
  | .evDelete tn record _ object key old =>
    if record = object then
      match db.getTable tn with
      | none => db
      | some tbl =>
        match key with
        | .uidSym => db
        | .s k =>
          match alget tbl.indices k with
          | none => db
          | some idx =>
            let idx :=
              match alget idx old with
              | some oldSet => alset idx old (oldSet.erase record)
              | none => idx
            let idx := alset idx .undef (bucketAdd ((alget idx .undef).getD []) record)
            db.setTable tn { tbl with indices := alset tbl.indices k idx }
    else db
  | _ => db

/-- The proxy `set` trap, invoked on the proxy `wrapH target` with closure
attribution `(tn, recordOid, colName)`: write the wrapped value into the raw
target, then dispatch the change event carrying the wrapped old and new
values.  (Targets that are themselves proxies would cascade one event per
layer in the source; the claims only exercise single-layer proxies.) -/
def trapSetField (db : DB) (tn : String) (recordOid : Nat) (colName : Option String)
    (target : Handle) (prop : FieldKey) (value : JSVal) : DB :=
  let curCol : FieldKey := match colName with | some c => .s c | none => prop
  let old := rawReadField db target.oid prop
  let db := rawWriteField db target.oid prop (wrapVal value)
  onUpdateRecord db
    (.evSet tn ⟨1, recordOid⟩ curCol (wrapH target) prop (wrapVal old) (wrapVal value))

/-- The proxy `deleteProperty` trap. -/
def trapDeleteField (db : DB) (tn : String) (recordOid : Nat) (colName : Option String)
    (target : Handle) (prop : FieldKey) : DB :=
  let curCol : FieldKey := match colName with | some c => .s c | none => prop
  let old := rawReadField db target.oid prop
  let db := rawDeleteField db target.oid prop
  onUpdateRecord db
    (.evDelete tn ⟨1, recordOid⟩ curCol (wrapH target) prop (wrapVal old))

/-- Intercepted `Map.set` on a wrapped Map: dispatch the event (capturing the
wrapped previous value first), then perform the mutation. -/
def trapMapSet (db : DB) (tn : String) (recordOid : Nat) (colName : Option String)
    (target : Handle) (k v : JSVal) : DB :=
  let curCol := colName.getD "set"
  let old :=
    match alget db.heap target.oid with
    | some (.hmap es) => (alget es k).getD .undef
    | _ => .undef
  let db := onUpdateRecord db
    (.mSet tn ⟨1, recordOid⟩ curCol (wrapH target) (wrapVal old) k v)
  match alget db.heap target.oid with
  | some (.hmap es) => heapSet db target.oid (.hmap (alset es k v))
  | _ => db

/-- Intercepted `Map.delete`. -/
def trapMapDelete (db : DB) (tn : String) (recordOid : Nat) (colName : Option String)
    (target : Handle) (k : JSVal) : DB :=
  let curCol := colName.getD "delete"
  let old :=
    match alget db.heap target.oid with
    | some (.hmap es) => (alget es k).getD .undef
    | _ => .undef
  let db := onUpdateRecord db
    (.mDelete tn ⟨1, recordOid⟩ curCol (wrapH target) (wrapVal old) k)
  match alget db.heap target.oid with
  | some (.hmap es) => heapSet db target.oid (.hmap (aldel es k))
  | _ => db

/-- Intercepted `Set.add` (`oldValue` is `undefined` for Sets). -/
def trapSetAdd (db : DB) (tn : String) (recordOid : Nat) (colName : Option String)
    (target : Handle) (v : JSVal) : DB :=
  let curCol := colName.getD "add"
  let db := onUpdateRecord db (.mAdd tn ⟨1, recordOid⟩ curCol (wrapH target) v)
  match alget db.heap target.oid with
  | some (.hset es) => heapSet db target.oid (.hset (jsSetAdd es v))
  | _ => db

/-- Intercepted `Set.delete`. -/
def trapSetDelete (db : DB) (tn : String) (recordOid : Nat) (colName : Option String)
    (target : Handle) (v : JSVal) : DB :=
  let curCol := colName.getD "delete"
  let db := onUpdateRecord db (.mDelete tn ⟨1, recordOid⟩ curCol (wrapH target) .undef v)
  match alget db.heap target.oid with
  | some (.hset es) => heapSet db target.oid (.hset (es.erase v))
  | _ => db

/-- Intercepted `clear` on a wrapped Map or Set: the event carries no prior
contents (`args: []`), then the container is emptied. -/
def trapClear (db : DB) (tn : String) (recordOid : Nat) (colName : Option String)
    (target : Handle) : DB :=
  let curCol := colName.getD "clear"
  let db := onUpdateRecord db (.mClear tn ⟨1, recordOid⟩ curCol (wrapH target))
  match alget db.heap target.oid with
  | some (.hmap _) => heapSet db target.oid (.hmap [])
  | some (.hset _) => heapSet db target.oid (.hset [])
  | _ => db

/-- Intercepted `Array.push` (mutation first, then the event). -/
def trapPush (db : DB) (tn : String) (recordOid : Nat) (colName : Option String)
    (target : Handle) (args : List JSVal) : DB :=
  let curCol := colName.getD "push"
  match alget db.heap target.oid with
  | some (.arr es) =>
    let db := heapSet db target.oid (.arr (es ++ args))
    onUpdateRecord db (.mPush tn ⟨1, recordOid⟩ curCol (wrapH target) args)
  | _ => db

/-- Intercepted `Array.unshift`. -/
def trapUnshift (db : DB) (tn : String) (recordOid : Nat) (colName : Option String)
    (target : Handle) (args : List JSVal) : DB :=
  let curCol := colName.getD "unshift"
  match alget db.heap target.oid with
  | some (.arr es) =>
    let db := heapSet db target.oid (.arr (args ++ es))
    onUpdateRecord db (.mUnshift tn ⟨1, recordOid⟩ curCol (wrapH target) args)
  | _ => db

/-- Intercepted `Array.pop`: the event carries the wrapped deleted value
(`undefined` when the array was empty). -/
def trapPop (db : DB) (tn : String) (recordOid : Nat) (colName : Option String)
    (target : Handle) : DB :=
  let curCol := colName.getD "pop"
  match alget db.heap target.oid with
  | some (.arr es) =>
    let deleted := es.getLastD .undef
    let db := heapSet db target.oid (.arr es.dropLast)
    onUpdateRecord db (.mPop tn ⟨1, recordOid⟩ curCol (wrapH target) (wrapVal deleted))
  | _ => db

/-- Intercepted `Array.shift`. -/
def trapShift (db : DB) (tn : String) (recordOid : Nat) (colName : Option String)
    (target : Handle) : DB :=
  let curCol := colName.getD "shift"
  match alget db.heap target.oid with
  | some (.arr es) =>
    let deleted := es.headD .undef
    let db := heapSet db target.oid (.arr es.tail)
    onUpdateRecord db (.mShift tn ⟨1, recordOid⟩ curCol (wrapH target) (wrapVal deleted))
  | _ => db

/-- `ToInteger` coercion as JavaScript `splice` applies it to its numeric
arguments (`undefined` becomes 0; strings are outside the model). -/
def jsToInt : JSVal → Int
  | .num n => n
  | .bool true => 1
  | _ => 0

/-- JavaScript `Array.splice` semantics: clamp the start index, clamp the
deletion count, remove and insert.  Returns the deleted elements and the
resulting array. -/
def jsSplice (es : List JSVal) (args : List JSVal) : List JSVal × List JSVal :=
  match args with
  | [] => ([], es)
  | s :: rest =>
    let len : Int := es.length
    let n := jsToInt s
    let start : Nat := (if n < 0 then max (len + n) 0 else min n len).toNat
    let delCount : Nat :=
      match rest with
      | [] => es.length - start
      | d :: _ => (min (max (jsToInt d) 0) (len - (start : Int))).toNat
    let items := rest.drop 1
    ((es.drop start).take delCount,
     es.take start ++ items ++ es.drop (start + delCount))

/-- Intercepted `Array.splice`. -/
def trapSplice (db : DB) (tn : String) (recordOid : Nat) (colName : Option String)
    (target : Handle) (args : List JSVal) : DB :=
  let curCol := colName.getD "splice"
  match alget db.heap target.oid with
  | some (.arr es) =>
    let r := jsSplice es args
    let db := heapSet db target.oid (.arr r.2)
    onUpdateRecord db (.mSplice tn ⟨1, recordOid⟩ curCol (wrapH target) r.1 args)
  | _ => db

/-! ## Store operations (`Database` methods) -/

def tableExists (db : DB) (tn : String) : Bool := (db.getTable tn).isSome

def indexExists (db : DB) (tn : String) (c : String) : Bool :=
  match db.getTable tn with
  | none => false
  | some tbl => (alget tbl.indices c).isSome

/-- `Database.getNextUID`: `(lastUID || 0n) + 1n`. -/
def getNextUID (tbl : Table) : Int :=
  (match tbl.lastUID with
   | none => 0
   | some u => if u = 0 then 0 else u) + 1

/-- `Database.addIndex`: no-op (error logged) when the table is missing or
the index already exists; otherwise build the buckets by scanning the raw
stored records, skipping `undefined` values. -/
def addIndex (db : DB) (tn : String) (c : String) : DB :=
  match db.getTable tn with
  | none => db
  | some tbl =>
    if (alget tbl.indices c).isSome then db
    else
      let idxMap := tbl.records.foldl
        (fun m rp =>
          let v := recField db rp.2.oid c
          if v = .undef then m
          else alset m v (bucketAdd ((alget m v).getD []) rp.2)) []
      db.setTable tn { tbl with indices := alset tbl.indices c idxMap }

/-- `Database.removeIndex`. -/
def removeIndex (db : DB) (tn : String) (c : String) : DB :=
  match db.getTable tn with
  | none => db
  | some tbl =>
    if (alget tbl.indices c).isNone then db
    else db.setTable tn { tbl with indices := aldel tbl.indices c }

/-- `Database.createTable`: create the table if absent, then add each listed
index. -/
def createTable (db : DB) (tn : String) (indexKeys : List String) : DB :=
  let db :=
    if (db.getTable tn).isSome then db
    else db.setTable tn ⟨[], [], none⟩
  indexKeys.foldl (fun db k => addIndex db tn k) db

/-- `Database.deleteTable`. -/
def deleteTable (db : DB) (tn : String) : DB :=
  match db.getTable tn with
  | none => db
  | some _ => { db with tables := aldel db.tables tn }

/-- Reading `record[UniqueID]` through however many proxy layers the handle
has (a `BigInt` is unchanged by wrapping). -/
def readUidThrough (db : DB) (h : Handle) : Option Int := recUid db h.oid

/-- `Database.addRecord`: throws `TableNotFound` if the table is absent;
otherwise reserves `lastUID + 1`, writes it onto the passed record object
itself, inserts that same object into the record map, populates every
existing index whose column reads as defined through the returned handle,
dispatches the `added` event and returns the (optionally wrapped) handle. -/
def addRecord (db : DB) (tn : String) (h : Handle) (wrapped : Bool) :
    Except DBErr (DB × Handle) :=
  match db.getTable tn with
  | none => .error (.tableNotFound tn)
  | some tbl =>
    let uid := getNextUID tbl
    let db := db.setTable tn { tbl with lastUID := some uid }
    let db :=
      if h.level = 0 then rawWriteField db h.oid .uidSym (.bigint uid)
      else trapSetField db tn h.oid none (unwrapH h) .uidSym (.bigint uid)
    match db.getTable tn with
    | none => .error (.tableNotFound tn)
    | some tbl =>
      let wr := if wrapped then wrapH h else h
      let newIndices := tbl.indices.map
        (fun ip =>
          let v := readThrough db wr ip.1
          if v = .undef then ip
          else (ip.1, alset ip.2 v (bucketAdd ((alget ip.2 v).getD []) wr)))
      let tbl := { tbl with records := alset tbl.records uid h, indices := newIndices }
      let db := db.setTable tn tbl
      let db := onUpdateRecord db (.added tn wr)
      .ok (db, wr)

/-- `Database.setRecord`: like `addRecord` at an explicit identifier; the
counter only advances when it is unset, zero (falsy) or below the given id. -/
def setRecord (db : DB) (tn : String) (h : Handle) (uid : Int) (wrapped : Bool) :
    Except DBErr (DB × Handle) :=
  match db.getTable tn with
  | none => .error (.tableNotFound tn)
  | some tbl =>
    let advance :=
      match tbl.lastUID with
      | none => true
      | some l => l = 0 ∨ l < uid
    let db := db.setTable tn { tbl with lastUID := if advance then some uid else tbl.lastUID }
    let db :=
      if h.level = 0 then rawWriteField db h.oid .uidSym (.bigint uid)
      else trapSetField db tn h.oid none (unwrapH h) .uidSym (.bigint uid)
    match db.getTable tn with
    | none => .error (.tableNotFound tn)
    | some tbl =>
      let wr := if wrapped then wrapH h else h
      let newIndices := tbl.indices.map
        (fun ip =>
          let v := readThrough db wr ip.1
          if v = .undef then ip
          else (ip.1, alset ip.2 v (bucketAdd ((alget ip.2 v).getD []) wr)))
      let tbl := { tbl with records := alset tbl.records uid h, indices := newIndices }
      let db := db.setTable tn tbl
      let db := onUpdateRecord db (.added tn wr)
      .ok (db, wr)

/-- `Database.removeRecord`: a reported no-op when the table is missing, the
record carries no (or a falsy) id, or the id is not in the record map;
otherwise delete from the map, delete the passed handle from each bucket
keyed by a defined column value, and dispatch the `removed` event. -/
def removeRecord (db : DB) (tn : String) (h : Handle) : DB :=
  match db.getTable tn with
  | none => db
  | some tbl =>
    match readUidThrough db h with
    | none => db
    | some uid =>
      if uid = 0 then db
      else if (alget tbl.records uid).isNone then db
      else
        let newIndices := tbl.indices.map
          (fun ip =>
            let v := readThrough db h ip.1
            if v ≠ .undef ∧ (alget ip.2 v).isSome then
              (ip.1, alset ip.2 v (((alget ip.2 v).getD []).erase h))
            else ip)
        let tbl := { tbl with records := aldel tbl.records uid, indices := newIndices }
        let db := db.setTable tn tbl
        onUpdateRecord db (.removed tn h)

/-- `Database.getRecord`. -/
def getRecord (db : DB) (tn : String) (id : Int) (wrapped : Bool) : Option Handle :=
  match db.getTable tn with
  | none => none
  | some tbl =>
    match alget tbl.records id with
    | none => none
    | some h => some (if wrapped then wrapH h else h)

/-- `Database.getAllRecords` performs no table-existence check: on a missing
table the property access `this._data[tableName].records` throws a
`TypeError`. -/
def getAllRecords (db : DB) (tn : String) : Except DBErr (List Handle) :=
  match db.getTable tn with
  | none => .error (.typeErr "Cannot read properties of undefined (reading records)")
  | some tbl => .ok (tbl.records.map (·.2))

/-- `Database.getRecordsByColumn`: empty (error logged) on a missing table;
bucket lookup when an index on the column exists, otherwise a linear scan
with a strict-equality filter over the raw records. -/
def getRecordsByColumn (db : DB) (tn : String) (c : String) (v : JSVal)
    (wrapped : Bool) : List Handle :=
  match db.getTable tn with
  | none => []
  | some tbl =>
    let records :=
      match alget tbl.indices c with
      | some idx => (alget idx v).getD []
      | none => (tbl.records.map (·.2)).filter (fun h => recField db h.oid c = v)
    if wrapped then records.map wrapH else records

/-! ## Transactions -/

def beginTransaction (db : DB) : DB :=
  { db with transactions := [] :: db.transactions }

def commitTransaction (db : DB) : Option DBErr × DB :=
  match db.transactions with
  | [] => (some (.noActiveTransaction "No transaction to commit."), db)
  | _ :: rest => (none, { db with transactions := rest })

/-- The closure `colName` of the proxy a logged event's `object` refers to:
`undefined` for the record proxy itself, the attributed column for nested
proxies (metadata only; no downstream path reads it). -/
def closureCol (record object : Handle) (col : FieldKey) : Option String :=
  if object = record then none
  else match col with | .s c => some c | .uidSym => none

/-- Replay one logged change in inverse, as `rollbackTransaction` does.  The
inverse mutations go through the same wrapped objects, hence through the same
proxy traps (re-dispatching events and index maintenance).  Exceptions are
returned together with the state mutated so far. -/
def replayChange (db : DB) (ch : ChangeEvent) : Option DBErr × DB :=
  match ch with
  | .added tn record => (none, removeRecord db tn record)
  | .removed tn record =>
    match addRecord db tn record false with
    | .error e => (some e, db)
    | .ok r => (none, r.1)
  | .evSet tn record col object key old _ =>
    (none, trapSetField db tn record.oid (closureCol record object col) (unwrapH object) key old)
  | .evDelete tn record col object key old =>
    (none, trapSetField db tn record.oid (closureCol record object col) (unwrapH object) key old)
  | .mAdd tn record col object arg =>
    (none, trapSetDelete db tn record.oid (some col) (unwrapH object) arg)
  | .mDelete tn record col object old arg =>
    match alget db.heap object.oid with
    | some (.hmap _) =>
      (none, trapMapSet db tn record.oid (some col) (unwrapH object) arg old)
    | some (.hset _) =>
      (none, trapSetAdd db tn record.oid (some col) (unwrapH object) arg)
    | _ => (some (.typeErr "object.add is not a function"), db)
  | .mSet tn record col object _ k v =>
    match alget db.heap object.oid with
    | some (.hmap es) =>
      if (alget es k).isSome then
        (none, trapMapSet db tn record.oid (some col) (unwrapH object) k v)
      else
        (none, trapMapDelete db tn record.oid (some col) (unwrapH object) k)
    | _ => (some (.typeErr "object.has is not a function"), db)
  | .mClear _ _ _ _ => (none, db)
  | .mPop tn record col object deleted =>
    match alget db.heap object.oid with
    | some (.arr _) =>
      (none, trapPush db tn record.oid (some col) (unwrapH object) [deleted])
    | _ => (some (.invalidTarget "Invalid object type for pop method."), db)
  | .mShift tn record col object deleted =>
    match alget db.heap object.oid with
    | some (.arr _) =>
      (none, trapUnshift db tn record.oid (some col) (unwrapH object) [deleted])
    | _ => (some (.invalidTarget "Invalid object type for shift method."), db)
  | .mPush tn record col object _ =>
    match alget db.heap object.oid with
    | some (.arr es) =>
      if es.length > 0 then (none, trapPop db tn record.oid (some col) (unwrapH object))
      else (none, db)
    | _ => (some (.invalidTarget "Invalid object type for pop method."), db)
  | .mUnshift tn record col object _ =>
    match alget db.heap object.oid with
    | some (.arr es) =>
      if es.length > 0 then (none, trapShift db tn record.oid (some col) (unwrapH object))
      else (none, db)
    | _ => (some (.invalidTarget "Invalid object type for shift method."), db)
  | .mSplice tn record col object removed args =>
    match alget db.heap object.oid with
    | some (.arr _) =>
      let start := args.headD .undef
      let insCount : Int := max 0 ((args.length : Int) - 2)
      let db := trapSplice db tn record.oid (some col) (unwrapH object)
        [start, .num insCount]
      let db := trapSplice db tn record.oid (some col) (unwrapH object)
        ([start, .num 0] ++ removed.map wrapVal)
      (none, db)
    | _ => (some (.invalidTarget "Invalid object type for splice method."), db)

/-- Replay a list of changes until the first thrown error. -/
def replayAll (db : DB) : List ChangeEvent → Option DBErr × DB
  | [] => (none, db)
  | c :: cs =>
    match replayChange db c with
    | (some e, db) => (some e, db)
    | (none, db) => replayAll db cs

/-- `Database.rollbackTransaction`: throw `NoActiveTransaction` with no
frame open; otherwise pop the innermost frame and replay its events in
reverse order. -/
def rollbackTransaction (db : DB) : Option DBErr × DB :=
  match db.transactions with
  | [] => (some (.noActiveTransaction "No transaction to rollback."), db)
  | frame :: rest => replayAll { db with transactions := rest } frame.reverse

/-! ## The `Obj2Obj` codec

The wire form mirrors `EncodedObj`.  `wbigint` carries the integer itself:
the source stores `obj.toString()` and decodes with `BigInt(val)`, which are
mutually inverse on decimal numerals, so the numeral is kept as an `Int`.
`wdate` likewise keeps the `toISOString` text. -/

inductive Wire where
  | wstr (s : String)
  | wnum (n : Int)
  | wbool (b : Bool)
  | wundef
  | wdate (iso : String) (ref : Nat)
  | warr (val : List Wire) (ref : Nat)
  | wmap (val : List (Wire × Wire)) (ref : Nat)
  | wset (val : List Wire) (ref : Nat)
  | wobj (val : List (Wire × Wire)) (ref : Nat)
  | wref (id : Nat)
  | wsym (name : Option String)
  | wbigint (i : Int)
  | wnull

/-- The symbol id reserved for `DataRecord.__id` (`UniqueID`); the store
serializes with the symbol table mapping the name `__id` to it. -/
def uidSid : Nat := 0

/-- Encoder state: the reference map and the symbol table.  The source's
`refs : Map<any, number>` always maps the i-th registered object to `i`
(`ref := refs.size` on registration), so it is represented by the list of
registered object ids in registration order: `has` is membership, `get` is
the index, `set` is an append. -/
structure EncSt where
  refs : List Nat
  syms : List (String × Nat)
deriving DecidableEq, Repr

/-- The `typeof obj === "symbol"` branch of `Encode`: return the first
matching name in the symbol table, or register a fresh `__unkN` placeholder
(`N` counts the entries seen). -/
def encSym (syms : List (String × Nat)) (sid : Nat) : Wire × List (String × Nat) :=
  match syms.find? (fun p => p.2 = sid) with
  | some p => (.wsym (some p.1), syms)
  | none =>
    let name := "__unk" ++ toString syms.length
    (.wsym (some name), syms ++ [(name, sid)])

mutual
/-- `Obj2Obj.Encode` over the heap `H` with blocklist `blk`.  Fuel is
consumed only when descending into a newly registered container, so any
fuel exceeding the deepest chain of distinct containers (at most the heap
size) suffices; `none` means fuel ran out or a reference was dangling. -/
def encodeV (H : List (Nat × HObj)) (blk : List JSVal) :
    Nat → JSVal → EncSt → Option (Wire × EncSt)
  | _, .undef, st => some (.wundef, st)
  | _, .bool b, st => some (.wbool b, st)
  | _, .num n, st => some (.wnum n, st)
  | _, .str s, st => some (.wstr s, st)
  | _, .bigint i, st => some (.wbigint i, st)
  | _, .sym sid, st =>
    let r := encSym st.syms sid
    some (r.1, { st with syms := r.2 })
  | _, .null, st =>
    if JSVal.null ∈ blk then some (.wundef, st) else some (.wnull, st)
  | f, .ref h, st =>
    if JSVal.ref h ∈ blk then some (.wundef, st)
    else if h.oid ∈ st.refs then some (.wref (st.refs.indexOf h.oid), st)
    else
      let r := st.refs.length
      let st1 := { st with refs := st.refs ++ [h.oid] }
      match alget H h.oid with
      | none => none
      | some (.date iso) => some (.wdate iso r, st1)
      | some (.arr es) =>
        match f with
        | 0 => none
        | f + 1 => (encodeL H blk f es st1).map (fun p => (.warr p.1 r, p.2))
      | some (.hset es) =>
        match f with
        | 0 => none
        | f + 1 => (encodeL H blk f es st1).map (fun p => (.wset p.1 r, p.2))
      | some (.hmap es) =>
        match f with
        | 0 => none
        | f + 1 => (encodeP H blk f es st1).map (fun p => (.wmap p.1 r, p.2))
      | some (.obj uid fs) =>
        match f with
        | 0 => none
        | f + 1 =>
          let pairs := fs.map (fun p => (JSVal.str p.1, p.2)) ++
            (match uid with
             | some u => [(JSVal.sym uidSid, JSVal.bigint u)]
             | none => [])
          (encodeP H blk f pairs st1).map (fun p => (.wobj p.1 r, p.2))
termination_by f v st => (f, 0, 0)

/-- Elementwise encoding of array and Set contents. -/
def encodeL (H : List (Nat × HObj)) (blk : List JSVal) :
    Nat → List JSVal → EncSt → Option (List Wire × EncSt)
  | _, [], st => some ([], st)
  | f, v :: vs, st =>
    match encodeV H blk f v st with
    | none => none
    | some (w, st1) =>
      match encodeL H blk f vs st1 with
      | none => none
      | some (ws, st2) => some (w :: ws, st2)
termination_by f l st => (f, 1, l.length)

/-- Pairwise encoding of Map entries and object properties (key first). -/
def encodeP (H : List (Nat × HObj)) (blk : List JSVal) :
    Nat → List (JSVal × JSVal) → EncSt → Option (List (Wire × Wire) × EncSt)
  | _, [], st => some ([], st)
  | f, p :: ps, st =>
    match encodeV H blk f p.1 st with
    | none => none
    | some (wk, st1) =>
      match encodeV H blk f p.2 st1 with
      | none => none
      | some (wv, st2) =>
        match encodeP H blk f ps st2 with
        | none => none
        | some (ws, st3) => some ((wk, wv) :: ws, st3)
termination_by f l st => (f, 1, l.length)
end

/-- Decoder state: the heap being built (objects are allocated with
placeholder contents the moment they are registered, then filled once their
children are decoded — children never read a parent's contents, only its
identity), the wire-ref map, and the symbol table with a fresh-symbol
supply. -/
structure DecSt where
  heap : List (Nat × HObj)
  nextOid : Nat
  refs : List (Nat × JSVal)
  syms : List (String × Nat)
  nextSym : Nat
deriving DecidableEq, Repr

def initDecSt : DecSt := ⟨[], 0, [], [], 0⟩

def decHeapSet (st : DecSt) (oid : Nat) (o : HObj) : DecSt :=
  { st with heap := alset st.heap oid o }

/-- Allocate a fresh object registered under wire reference id `ref`
(`refs.set(obj.ref, out)` the moment the container is created). -/
def decAlloc (st : DecSt) (o : HObj) (ref : Nat) : Nat × DecSt :=
  let oid := st.nextOid
  (oid,
    { heap := st.heap ++ [(oid, o)]
      nextOid := oid + 1
      refs := alset st.refs ref (.ref ⟨0, oid⟩)
      syms := st.syms
      nextSym := st.nextSym })

/-- One `out[key] = val` assignment of the decoder's object loop.  The
encoder emits only string and symbol keys; the only symbol-keyed property in
the model is the record id (other key kinds would be string-coerced by
JavaScript and are unreachable from the encoder). -/
def objAssign (acc : Option Int × List (String × JSVal)) (p : JSVal × JSVal) :
    Option Int × List (String × JSVal) :=
  match p.1 with
  | .str s => (acc.1, alset acc.2 s p.2)
  | .sym sid =>
    if sid = uidSid then
      match p.2 with
      | .bigint n => (some n, acc.2)
      | _ => (none, acc.2)
    else acc
  | _ => acc

mutual
/-- `Obj2Obj.Decode`.  A `ref` node looks its id up in the map and yields
`undefined` when absent: the source's `refs.get(obj.val)!` is only a type
assertion, so a missing id produces `undefined` at run time rather than an
error. -/
def decodeV : Nat → Wire → DecSt → Option (JSVal × DecSt)
  | _, .wstr s, st => some (.str s, st)
  | _, .wnum n, st => some (.num n, st)
  | _, .wbool b, st => some (.bool b, st)
  | _, .wundef, st => some (.undef, st)
  | _, .wnull, st => some (.null, st)
  | _, .wbigint i, st => some (.bigint i, st)
  | _, .wref id, st => some ((alget st.refs id).getD .undef, st)
  | _, .wsym (some name), st =>
    (match alget st.syms name with
     | some sid => some (.sym sid, st)
     | none =>
       some (.sym st.nextSym,
         { st with syms := st.syms ++ [(name, st.nextSym)], nextSym := st.nextSym + 1 }))
  | _, .wsym none, st => some (.sym st.nextSym, { st with nextSym := st.nextSym + 1 })
  | _, .wdate iso ref, st =>
    let a := decAlloc st (.date iso) ref
    some (.ref ⟨0, a.1⟩, a.2)
  | f, .warr ws ref, st =>
    (match f with
     | 0 => none
     | f + 1 =>
       let a := decAlloc st (.arr []) ref
       match decodeL f ws a.2 with
       | none => none
       | some (vs, st2) => some (.ref ⟨0, a.1⟩, decHeapSet st2 a.1 (.arr vs)))
  | f, .wset ws ref, st =>
    (match f with
     | 0 => none
     | f + 1 =>
       let a := decAlloc st (.hset []) ref
       match decodeL f ws a.2 with
       | none => none
       | some (vs, st2) =>
         some (.ref ⟨0, a.1⟩, decHeapSet st2 a.1 (.hset (vs.foldl jsSetAdd []))))
  | f, .wmap ws ref, st =>
    (match f with
     | 0 => none
     | f + 1 =>
       let a := decAlloc st (.hmap []) ref
       match decodeP f ws a.2 with
       | none => none
       | some (vs, st2) =>
         some (.ref ⟨0, a.1⟩,
           decHeapSet st2 a.1 (.hmap (vs.foldl (fun es p => alset es p.1 p.2) []))))
  | f, .wobj ws ref, st =>
    (match f with
     | 0 => none
     | f + 1 =>
       let a := decAlloc st (.obj none []) ref
       match decodeP f ws a.2 with
       | none => none
       | some (vs, st2) =>
         let r := vs.foldl objAssign (none, [])
         some (.ref ⟨0, a.1⟩, decHeapSet st2 a.1 (.obj r.1 r.2)))
termination_by f w st => (f, 0, 0)

/-- Elementwise decoding of array and Set contents. -/
def decodeL : Nat → List Wire → DecSt → Option (List JSVal × DecSt)
  | _, [], st => some ([], st)
  | f, w :: ws, st =>
    match decodeV f w st with
    | none => none
    | some (v, st1) =>
      match decodeL f ws st1 with
      | none => none
      | some (vs, st2) => some (v :: vs, st2)
termination_by f l st => (f, 1, l.length)

/-- Pairwise decoding of Map entries and object properties (key first). -/
def decodeP : Nat → List (Wire × Wire) → DecSt → Option (List (JSVal × JSVal) × DecSt)
  | _, [], st => some ([], st)
  | f, p :: ps, st =>
    match decodeV f p.1 st with
    | none => none
    | some (k, st1) =>
      match decodeV f p.2 st1 with
      | none => none
      | some (v, st2) =>
        match decodeP f ps st2 with
        | none => none
        | some (vs, st3) => some ((k, v) :: vs, st3)
termination_by f l st => (f, 1, l.length)
end

/-! ## Basic association-list lemmas -/

theorem alget_alset_self {α β : Type} [DecidableEq α] (l : List (α × β)) (k : α) (v : β) :
    alget (alset l k v) k = some v := by
  induction l with
  | nil => simp [alget, alset]
  | cons p ps ih =>
    by_cases h : p.1 = k
    · simp [alset, alget, h]
    · simp [alset, alget, h, ih]

theorem alget_alset_ne {α β : Type} [DecidableEq α] (l : List (α × β)) (k k' : α) (v : β)
    (h : k' ≠ k) : alget (alset l k v) k' = alget l k' := by
  induction l with
  | nil => simp [alget, alset, Ne.symm h]
  | cons p ps ih =>
    by_cases hp : p.1 = k
    · simp [alset, alget, hp, Ne.symm h]
    · by_cases hp2 : p.1 = k'
      · simp [alset, alget, hp, hp2, h]
      · simp [alset, alget, hp, hp2, ih]

theorem mem_keys_of_alget {α β : Type} [DecidableEq α] {l : List (α × β)} {k : α} {b : β}
    (h : alget l k = some b) : k ∈ l.map Prod.fst := by
  induction l with
  | nil => simp [alget] at h
  | cons p ps ih =>
    by_cases hp : p.1 = k
    · simp [hp.symm]
    · simp [alget, hp] at h
      simp [ih h]

theorem alget_eq_none_of_not_mem {α β : Type} [DecidableEq α] {l : List (α × β)} {k : α}
    (h : k ∉ l.map Prod.fst) : alget l k = none := by
  cases hq : alget l k with
  | none => rfl
  | some b => exact absurd (mem_keys_of_alget hq) h

theorem alget_aldel_self {α β : Type} [DecidableEq α] (l : List (α × β)) (k : α)
    (hnd : (l.map Prod.fst).Nodup) : alget (aldel l k) k = none := by
  induction l with
  | nil => simp [alget, aldel]
  | cons p ps ih =>
    simp only [List.map_cons, List.nodup_cons] at hnd
    by_cases h : p.1 = k
    · subst h
      simpa [aldel] using alget_eq_none_of_not_mem hnd.1
    · simp [aldel, alget, h, ih hnd.2]

theorem alget_aldel_ne {α β : Type} [DecidableEq α] (l : List (α × β)) (k k' : α)
    (h : k' ≠ k) : alget (aldel l k) k' = alget l k' := by
  induction l with
  | nil => simp [aldel]
  | cons p ps ih =>
    by_cases hp : p.1 = k
    · simp [aldel, alget, hp, Ne.symm h]
    · by_cases hp2 : p.1 = k'
      · simp [aldel, alget, hp, hp2, h]
      · simp [aldel, alget, hp, hp2, ih]

theorem mem_of_alget {α β : Type} [DecidableEq α] {l : List (α × β)} {k : α} {b : β}
    (h : alget l k = some b) : (k, b) ∈ l := by
  induction l with
  | nil => simp [alget] at h
  | cons p ps ih =>
    by_cases hp : p.1 = k
    · simp [alget, hp] at h
      cases p
      subst hp
      subst h
      exact List.mem_cons_self _ _
    · simp [alget, hp] at h
      exact List.mem_cons_of_mem _ (ih h)

theorem keys_alset {α β : Type} [DecidableEq α] (l : List (α × β)) (k : α) (v : β) :
    (alset l k v).map Prod.fst = if k ∈ l.map Prod.fst then l.map Prod.fst
      else l.map Prod.fst ++ [k] := by
  induction l with
  | nil => simp [alset]
  | cons p ps ih =>
    by_cases hp : p.1 = k
    · simp [alset, hp]
    · by_cases hk : k ∈ ps.map Prod.fst
      · simp [alset, hp, hk, ih, Ne.symm hp]
      · simp [alset, hp, hk, ih, Ne.symm hp]

/-! ## Concrete scenarios -/

/-- Extract the database from a successful store call (scenario plumbing). -/
def okDB (r : Except DBErr (DB × Handle)) (dfl : DB) : DB :=
  match r with
  | .ok p => p.1
  | .error _ => dfl

/-- C1 scenario: a record whose field `s` holds the Set with the single
element `a` (object 1), owned by the record object 0. -/
def c1Start : DB :=
  ⟨[], [(0, .obj none [("s", .ref ⟨0, 1⟩)]), (1, .hset [.str "a"])], []⟩

/-- C1 scenario: table created and the record added; this is the state
immediately before `beginTransaction`. -/
def c1Pre : DB := okDB (addRecord (createTable c1Start "t" []) "t" ⟨0, 0⟩ true) emptyDB

/-- C1 scenario: inside the transaction, `record.s.clear()` through the
observer (the set proxy reached by reading `s` off the record proxy has the
closure attribution table `t`, record object 0, column `s`). -/
def c1Mut : DB := trapClear (beginTransaction c1Pre) "t" 0 (some "s") ⟨0, 1⟩

/-- C1 scenario: the rollback result. -/
def c1Rolled : Option DBErr × DB := rollbackTransaction c1Mut

/-- Claim C1 (code bug): a Set cleared through the Mutation Observer inside
a transaction is NOT restored by `rollbackTransaction`: the `method.clear`
event captures no prior contents (`args: []`) and the rollback case for it
is an empty branch under the comment `Restore the previous values.`, so the
container stays empty while the state before `beginTransaction` had one
element.  (The `method.set` inverse is also wrong: it writes `args[1]`, the
new value, instead of the captured `oldValue`.) -/
theorem clear_rollback_leaves_container_cleared :
    alget c1Pre.heap 1 = some (.hset [.str "a"]) ∧
    alget c1Mut.heap 1 = some (.hset []) ∧
    c1Mut.transactions = [[.mClear "t" ⟨1, 0⟩ "s" ⟨1, 1⟩]] ∧
    c1Rolled.1 = none ∧
    alget c1Rolled.2.heap 1 = some (.hset []) := by
  exact ⟨rfl, rfl, rfl, rfl, rfl⟩

/-- C4 scenario: an empty record object 0, added to table `t` (receiving
identifier 1), then removed inside a transaction. -/
def c4Pre : DB :=
  okDB (addRecord (createTable ⟨[], [(0, .obj none [])], []⟩ "t" []) "t" ⟨0, 0⟩ true) emptyDB

/-- C4 scenario: `removeRecord` of the observed record inside a transaction. -/
def c4Mut : DB := removeRecord (beginTransaction c4Pre) "t" ⟨1, 0⟩

/-- C4 scenario: the rollback result. -/
def c4Rolled : Option DBErr × DB := rollbackTransaction c4Mut

/-- Claim C4 (code bug): rolling back a `removed` event calls
`addRecord(tableName, record, false)`, which unconditionally reserves a
fresh identifier (`record[UniqueID] = reserveNextUID(tableName)`).  The
record that held identifier 1 before the transaction comes back under
identifier 2: its id field is overwritten, the record map keys it under 2,
and `getRecord` at the original identifier finds nothing. -/
theorem rollback_of_remove_reassigns_uid :
    recUid c4Pre 0 = some 1 ∧
    getRecord c4Pre "t" 1 false = some ⟨0, 0⟩ ∧
    c4Rolled.1 = none ∧
    recUid c4Rolled.2 0 = some 2 ∧
    getRecord c4Rolled.2 "t" 1 true = none ∧
    getRecord c4Rolled.2 "t" 2 false = some ⟨1, 0⟩ ∧
    (c4Rolled.2.getTable "t").map Table.lastUID = some (some 2) := by
  exact ⟨rfl, rfl, rfl, rfl, rfl, rfl, rfl⟩

/-- C6 counterexample: decoding a reference node whose id is absent from the
reference map does not fail — it returns normally with a value (`undefined`),
because `refs.get(obj.val)!` is only a compile-time non-null assertion. -/
theorem decode_missing_ref_returns_value_concrete :
    decodeV 1 (.wref 0) initDecSt = some (.undef, initDecSt) := by
  simp [decodeV, initDecSt, alget]

/-- Claim C6 (amended): for every reference node whose id is not present in
the id-to-value map built so far, `Decode` returns `undefined` (the result
of the missing `Map` lookup) and leaves the decoder state unchanged, rather
than raising a `DecodeReferenceMissing` error. -/
theorem decode_missing_ref_yields_undefined (f : Nat) (id : Nat) (st : DecSt)
    (h : alget st.refs id = none) :
    decodeV f (.wref id) st = some (.undef, st) := by
  cases f <;> simp [decodeV, h]

/-- Witness for the amended C6 theorem at a concrete input. -/
theorem decode_missing_ref_yields_undefined_witness :
    alget initDecSt.refs 5 = none ∧ decodeV 3 (.wref 5) initDecSt = some (.undef, initDecSt) :=
  ⟨rfl, decode_missing_ref_yields_undefined 3 5 initDecSt rfl⟩

/-! ## Frame lemmas: which state components each operation leaves alone -/

theorem tables_heapSet (db : DB) (oid : Nat) (o : HObj) :
    (heapSet db oid o).tables = db.tables := rfl

theorem transactions_heapSet (db : DB) (oid : Nat) (o : HObj) :
    (heapSet db oid o).transactions = db.transactions := rfl

theorem heap_setTable (db : DB) (tn : String) (tbl : Table) :
    (DB.setTable db tn tbl).heap = db.heap := rfl

theorem transactions_setTable (db : DB) (tn : String) (tbl : Table) :
    (DB.setTable db tn tbl).transactions = db.transactions := rfl

theorem tables_pushEvent (db : DB) (ev : ChangeEvent) :
    (pushEvent db ev).tables = db.tables := rfl

theorem heap_pushEvent (db : DB) (ev : ChangeEvent) :
    (pushEvent db ev).heap = db.heap := rfl

theorem transactions_length_pushEvent (db : DB) (ev : ChangeEvent) :
    (pushEvent db ev).transactions.length = db.transactions.length := by
  cases h : db.transactions <;> simp [pushEvent, h]

theorem tables_rawWriteField (db : DB) (oid : Nat) (k : FieldKey) (v : JSVal) :
    (rawWriteField db oid k v).tables = db.tables := by
  unfold rawWriteField
  repeat' split
  all_goals rfl

theorem transactions_rawWriteField (db : DB) (oid : Nat) (k : FieldKey) (v : JSVal) :
    (rawWriteField db oid k v).transactions = db.transactions := by
  unfold rawWriteField
  repeat' split
  all_goals rfl

theorem tables_rawDeleteField (db : DB) (oid : Nat) (k : FieldKey) :
    (rawDeleteField db oid k).tables = db.tables := by
  unfold rawDeleteField
  repeat' split
  all_goals rfl

theorem heap_onUpdateRecord (db : DB) (ev : ChangeEvent) :
    (onUpdateRecord db ev).heap = db.heap := by
  unfold onUpdateRecord
  cases ev <;> dsimp only <;> repeat' split
  all_goals simp [DB.setTable, pushEvent]

theorem transactions_length_onUpdateRecord (db : DB) (ev : ChangeEvent) :
    (onUpdateRecord db ev).transactions.length = db.transactions.length := by
  unfold onUpdateRecord
  cases ev <;> dsimp only <;> repeat' split
  all_goals simp [DB.setTable, transactions_length_pushEvent]

theorem tables_onUpdateRecord_added (db : DB) (tn : String) (r : Handle) :
    (onUpdateRecord db (.added tn r)).tables = db.tables := rfl

theorem tables_onUpdateRecord_removed (db : DB) (tn : String) (r : Handle) :
    (onUpdateRecord db (.removed tn r)).tables = db.tables := rfl

theorem getTable_rawWriteField (db : DB) (oid : Nat) (k : FieldKey) (v : JSVal) (tn : String) :
    (rawWriteField db oid k v).getTable tn = db.getTable tn := by
  unfold DB.getTable
  rw [tables_rawWriteField]

theorem getTable_setTable_self (db : DB) (tn : String) (tbl : Table) :
    (db.setTable tn tbl).getTable tn = some tbl := by
  unfold DB.getTable DB.setTable
  exact alget_alset_self _ _ _

theorem getTable_setTable_ne (db : DB) (tn tn' : String) (tbl : Table) (h : tn' ≠ tn) :
    (db.setTable tn tbl).getTable tn' = db.getTable tn' := by
  unfold DB.getTable DB.setTable
  exact alget_alset_ne _ _ _ _ h

theorem recField_eq_of_heap_eq {db db' : DB} (h : db.heap = db'.heap) (oid : Nat) (c : String) :
    recField db oid c = recField db' oid c := by
  unfold recField
  rw [h]

theorem recUid_eq_of_heap_eq {db db' : DB} (h : db.heap = db'.heap) (oid : Nat) :
    recUid db oid = recUid db' oid := by
  unfold recUid
  rw [h]

theorem recField_rawWriteField_uidSym (db : DB) (oid oid' : Nat) (v : JSVal) (c : String) :
    recField (rawWriteField db oid .uidSym v) oid' c = recField db oid' c := by
  unfold rawWriteField
  cases halget : alget db.heap oid with
  | none => rfl
  | some o =>
    cases o with
    | obj u fs =>
      by_cases h : oid' = oid
      · subst h
        simp [recField, heapSet, alget_alset_self, halget]
      · simp [recField, heapSet, alget_alset_ne _ _ _ _ h]
    | arr es => rfl
    | hmap es => rfl
    | hset es => rfl
    | date iso => rfl

theorem recUid_rawWriteField_uidSym_bigint (db : DB) (oid : Nat) (n : Int)
    (hobj : ∃ u fs, alget db.heap oid = some (.obj u fs)) :
    recUid (rawWriteField db oid .uidSym (.bigint n)) oid = some n := by
  obtain ⟨u, fs, h⟩ := hobj
  unfold rawWriteField
  simp [h, recUid, heapSet, alget_alset_self]

theorem mem_bucketAdd_self (b : List Handle) (h : Handle) : h ∈ bucketAdd b h := by
  unfold bucketAdd
  split
  · assumption
  · simp

theorem alget_map_of_fst_eq {α β : Type} [DecidableEq α] (l : List (α × β)) (f : α × β → α × β)
    (hf : ∀ p, (f p).1 = p.1) (k : α) :
    alget (l.map f) k = (alget l k).map (fun b => (f (k, b)).2) := by
  induction l with
  | nil => simp [alget]
  | cons p ps ih =>
    by_cases hp : p.1 = k
    · obtain ⟨a, b⟩ := p
      simp only at hp
      subst hp
      simp [alget, hf (a, b)]
    · simp [alget, hf p, hp, ih]

/-- The current bucket for value `v` of the index on column `c` (empty when
absent), used to state index-membership facts. -/
def bucketOf (db : DB) (tn c : String) (v : JSVal) : List Handle :=
  match db.getTable tn with
  | none => []
  | some tbl =>
    match alget tbl.indices c with
    | none => []
    | some idx => (alget idx v).getD []

/-- Claim C7 (code bug): every lookup or removal operation called with an
unknown table name is a silent no-op that returns normally — except
`getAllRecords`, which performs no existence check and throws a `TypeError`
by reading `.records` of `undefined`.  The other six operations comply with
the claim. -/
theorem unknown_table_ops_spec (db : DB) (tn c : String) (id : Int) (h : Handle)
    (v : JSVal) (w : Bool) (hmiss : db.getTable tn = none) :
    tableExists db tn = false ∧
    getRecord db tn id w = none ∧
    getRecordsByColumn db tn c v w = [] ∧
    removeRecord db tn h = db ∧
    deleteTable db tn = db ∧
    addIndex db tn c = db ∧
    removeIndex db tn c = db ∧
    getAllRecords db tn =
      .error (.typeErr "Cannot read properties of undefined (reading records)") := by
  refine ⟨?_, ?_, ?_, ?_, ?_, ?_, ?_, ?_⟩
  · simp [tableExists, hmiss]
  · simp [getRecord, hmiss]
  · simp [getRecordsByColumn, hmiss]
  · simp [removeRecord, hmiss]
  · simp [deleteTable, hmiss]
  · simp [addIndex, hmiss]
  · simp [removeIndex, hmiss]
  · simp [getAllRecords, hmiss]

/-- Witness for C7 at a concrete input: a fresh store with no tables. -/
theorem unknown_table_ops_spec_witness :
    emptyDB.getTable "users" = none ∧
    (tableExists emptyDB "users" = false ∧
     getRecord emptyDB "users" 1 true = none ∧
     getRecordsByColumn emptyDB "users" "email" (.str "a") true = [] ∧
     removeRecord emptyDB "users" ⟨0, 0⟩ = emptyDB ∧
     deleteTable emptyDB "users" = emptyDB ∧
     addIndex emptyDB "users" "email" = emptyDB ∧
     removeIndex emptyDB "users" "email" = emptyDB ∧
     getAllRecords emptyDB "users" =
       .error (.typeErr "Cannot read properties of undefined (reading records)")) :=
  ⟨rfl, unknown_table_ops_spec emptyDB "users" "email" 1 ⟨0, 0⟩ (.str "a") true rfl⟩

/-- Evaluation of a successful `addRecord` on an unwrapped record object. -/
theorem addRecord_eq_of_some (db : DB) (tn : String) (hh : Handle) (w : Bool) (tbl : Table)
    (htbl : db.getTable tn = some tbl) (hlvl : hh.level = 0) :
    addRecord db tn hh w =
      (let uid := getNextUID tbl
       let db1 := rawWriteField (db.setTable tn { tbl with lastUID := some uid })
         hh.oid .uidSym (.bigint uid)
       let wr := if w then wrapH hh else hh
       let newIndices := tbl.indices.map (fun ip =>
          let v := readThrough db1 wr ip.1
          if v = .undef then ip
          else (ip.1, alset ip.2 v (bucketAdd ((alget ip.2 v).getD []) wr)))
       let tbl2 : Table := ⟨alset tbl.records uid hh, newIndices, some uid⟩
       .ok (onUpdateRecord (db1.setTable tn tbl2) (.added tn wr), wr)) := by
  unfold addRecord
  rw [htbl]
  simp only [hlvl, if_true, getTable_rawWriteField, getTable_setTable_self]

theorem getTable_onUpdateRecord_added (db : DB) (tn tn' : String) (r : Handle) :
    (onUpdateRecord db (.added tn r)).getTable tn' = db.getTable tn' := by
  unfold DB.getTable
  rw [tables_onUpdateRecord_added]

/-- Evaluation of a successful `setRecord` on an unwrapped record object. -/
theorem setRecord_eq_of_some (db : DB) (tn : String) (hh : Handle) (uid : Int) (w : Bool)
    (tbl : Table) (htbl : db.getTable tn = some tbl) (hlvl : hh.level = 0) :
    setRecord db tn hh uid w =
      (let advance :=
         match tbl.lastUID with
         | none => true
         | some l => decide (l = 0 ∨ l < uid)
       let newLast := if advance then some uid else tbl.lastUID
       let db1 := rawWriteField (db.setTable tn { tbl with lastUID := newLast })
         hh.oid .uidSym (.bigint uid)
       let wr := if w then wrapH hh else hh
       let newIndices := tbl.indices.map (fun ip =>
          let v := readThrough db1 wr ip.1
          if v = .undef then ip
          else (ip.1, alset ip.2 v (bucketAdd ((alget ip.2 v).getD []) wr)))
       let tbl2 : Table := ⟨alset tbl.records uid hh, newIndices, newLast⟩
       .ok (onUpdateRecord (db1.setTable tn tbl2) (.added tn wr), wr)) := by
  unfold setRecord
  rw [htbl]
  simp only [hlvl, if_true, getTable_rawWriteField, getTable_setTable_self]

theorem heap_after_added (dbX : DB) (tn : String) (tbl2 : Table) (r : Handle) :
    (onUpdateRecord (dbX.setTable tn tbl2) (.added tn r)).heap = dbX.heap := by
  rw [heap_onUpdateRecord]
  rfl

/-- Lookup in the per-column index list after the `addRecord`/`setRecord`
index-population loop. -/
theorem alget_indexUpdate (idxs : List (String × List (JSVal × List Handle)))
    (rd : String → JSVal) (wr : Handle) (cc : String) :
    alget (idxs.map (fun ip =>
      if rd ip.1 = .undef then ip
      else (ip.1, alset ip.2 (rd ip.1) (bucketAdd ((alget ip.2 (rd ip.1)).getD []) wr)))) cc
    = (alget idxs cc).map (fun b =>
        if rd cc = .undef then b
        else alset b (rd cc) (bucketAdd ((alget b (rd cc)).getD []) wr)) := by
  have hf : ∀ p : String × List (JSVal × List Handle),
      ((fun ip => if rd ip.1 = JSVal.undef then ip
        else (ip.1, alset ip.2 (rd ip.1) (bucketAdd ((alget ip.2 (rd ip.1)).getD []) wr))) p).1
        = p.1 := by
    intro p
    dsimp only
    split <;> rfl
  rw [alget_map_of_fst_eq _ _ hf cc]
  rcases alget idxs cc with _ | b
  · simp
  · simp only [Option.map_some]
    congr 1
    split <;> rfl

/-- Claim C8: `addRecord` throws `TableNotFound` on a missing table; on an
existing table it assigns `lastUID + 1` (1 when no identifier was ever
assigned), writes it onto the record, keys the record map by it, advances
the counter, adds the record to every existing index whose column is
defined, and returns the wrapped handle.  (`hh.level = 0` says the caller
passes the raw record object, as the public API does.) -/
theorem addRecord_spec (db : DB) (tn : String) (hh : Handle) (tbl : Table)
    (hobj : ∃ u fs, alget db.heap hh.oid = some (.obj u fs))
    (hlvl : hh.level = 0) :
    (db.getTable tn = none → addRecord db tn hh true = .error (.tableNotFound tn)) ∧
    (db.getTable tn = some tbl →
      ∃ db', addRecord db tn hh true = .ok (db', wrapH hh) ∧
        recUid db' hh.oid = some (getNextUID tbl) ∧
        getRecord db' tn (getNextUID tbl) false = some hh ∧
        (db'.getTable tn).map Table.lastUID = some (some (getNextUID tbl)) ∧
        (tbl.lastUID = none → getNextUID tbl = 1) ∧
        (∀ u, tbl.lastUID = some u → u ≠ 0 → getNextUID tbl = u + 1) ∧
        (∀ cc, indexExists db tn cc = true →
          wrapVal (recField db hh.oid cc) ≠ .undef →
          wrapH hh ∈ bucketOf db' tn cc (wrapVal (recField db hh.oid cc)))) := by
  constructor
  · intro hmiss
    unfold addRecord
    rw [hmiss]
  · intro htbl
    rw [addRecord_eq_of_some db tn hh true tbl htbl hlvl]
    dsimp only
    refine ⟨_, rfl, ?_, ?_, ?_, ?_, ?_, ?_⟩
    · rw [recUid_eq_of_heap_eq (heap_after_added _ _ _ _)]
      exact recUid_rawWriteField_uidSym_bigint _ _ _ hobj
    · unfold getRecord
      rw [getTable_onUpdateRecord_added, getTable_setTable_self]
      simp [alget_alset_self]
    · rw [getTable_onUpdateRecord_added, getTable_setTable_self]
      rfl
    · intro hnone
      simp [getNextUID, hnone]
    · intro u hu hu0
      simp [getNextUID, hu, hu0]
    · intro cc hidx hne
      unfold indexExists at hidx
      rw [htbl] at hidx
      cases hq : alget tbl.indices cc with
      | none => simp [hq] at hidx
      | some idx =>
        unfold bucketOf
        rw [getTable_onUpdateRecord_added, getTable_setTable_self]
        dsimp only
        rw [alget_indexUpdate, hq]
        have hread : readThrough (rawWriteField (db.setTable tn
            { tbl with lastUID := some (getNextUID tbl) }) hh.oid .uidSym
            (.bigint (getNextUID tbl))) (wrapH hh) cc
            = wrapVal (recField db hh.oid cc) := by
          unfold readThrough wrapH
          dsimp only
          rw [hlvl]
          rw [recField_rawWriteField_uidSym]
          rfl
        simp only [if_true]
        rw [hread]
        simp only [if_neg hne, Option.map_some]
        simp [alget_alset_self, mem_bucketAdd_self]

/-- C8 witness scenario: table `t` with an index on `c` and a fresh record
object `{c: 5}` at heap id 0. -/
def dbW8 : DB := createTable ⟨[], [(0, .obj none [("c", .num 5)])], []⟩ "t" ["c"]

/-- The table value of `dbW8`. -/
def tblW8 : Table := ⟨[], [("c", [])], none⟩

/-- Witness for C8 at a concrete input. -/
theorem addRecord_spec_witness :
    ∃ db', addRecord dbW8 "t" ⟨0, 0⟩ true = .ok (db', wrapH ⟨0, 0⟩) ∧
      recUid db' 0 = some 1 ∧
      getRecord db' "t" 1 false = some ⟨0, 0⟩ ∧
      (db'.getTable "t").map Table.lastUID = some (some 1) ∧
      (tblW8.lastUID = none → getNextUID tblW8 = 1) ∧
      (∀ u, tblW8.lastUID = some u → u ≠ 0 → getNextUID tblW8 = u + 1) ∧
      (∀ cc, indexExists dbW8 "t" cc = true →
        wrapVal (recField dbW8 0 cc) ≠ .undef →
        wrapH ⟨0, 0⟩ ∈ bucketOf db' "t" cc (wrapVal (recField dbW8 0 cc))) :=
  (addRecord_spec dbW8 "t" ⟨0, 0⟩ tblW8 ⟨none, [("c", .num 5)], rfl⟩ rfl).2 rfl

/-- Claim C10: `addRecord` and `setRecord` store the caller-supplied record
object itself, not a copy: the assigned identifier is written onto the
passed object (readable back through its heap id) and the record map entry
for that identifier is the very same handle that was passed in. -/
theorem store_caller_object_spec (db : DB) (tn : String) (hh : Handle) (uid : Int)
    (tbl : Table) (htbl : db.getTable tn = some tbl) (hlvl : hh.level = 0)
    (hobj : ∃ u fs, alget db.heap hh.oid = some (.obj u fs)) :
    (∀ db' r, addRecord db tn hh true = .ok (db', r) →
       r = wrapH hh ∧ recUid db' hh.oid = some (getNextUID tbl) ∧
       getRecord db' tn (getNextUID tbl) false = some hh) ∧
    (∀ db' r, setRecord db tn hh uid true = .ok (db', r) →
       r = wrapH hh ∧ recUid db' hh.oid = some uid ∧
       getRecord db' tn uid false = some hh) := by
  constructor
  · intro db' r heq
    rw [addRecord_eq_of_some db tn hh true tbl htbl hlvl] at heq
    dsimp only at heq
    simp only [if_true, Except.ok.injEq, Prod.mk.injEq] at heq
    obtain ⟨hdb, hr⟩ := heq
    subst hdb
    refine ⟨hr.symm, ?_, ?_⟩
    · rw [recUid_eq_of_heap_eq (heap_after_added _ _ _ _)]
      exact recUid_rawWriteField_uidSym_bigint _ _ _ hobj
    · unfold getRecord
      rw [getTable_onUpdateRecord_added, getTable_setTable_self]
      simp [alget_alset_self]
  · intro db' r heq
    rw [setRecord_eq_of_some db tn hh uid true tbl htbl hlvl] at heq
    dsimp only at heq
    simp only [if_true, Except.ok.injEq, Prod.mk.injEq] at heq
    obtain ⟨hdb, hr⟩ := heq
    subst hdb
    refine ⟨hr.symm, ?_, ?_⟩
    · rw [recUid_eq_of_heap_eq (heap_after_added _ _ _ _)]
      exact recUid_rawWriteField_uidSym_bigint _ _ _ hobj
    · unfold getRecord
      rw [getTable_onUpdateRecord_added, getTable_setTable_self]
      simp [alget_alset_self]

/-- Witness for C10 at a concrete input (fresh table, record object 0,
explicit identifier 7 for the `setRecord` half). -/
theorem store_caller_object_spec_witness :
    (∀ db' r, addRecord (createTable ⟨[], [(0, .obj none [])], []⟩ "t" []) "t" ⟨0, 0⟩ true
        = .ok (db', r) →
       r = wrapH ⟨0, 0⟩ ∧ recUid db' 0 = some 1 ∧
       getRecord db' "t" 1 false = some ⟨0, 0⟩) ∧
    (∀ db' r, setRecord (createTable ⟨[], [(0, .obj none [])], []⟩ "t" []) "t" ⟨0, 0⟩ 7 true
        = .ok (db', r) →
       r = wrapH ⟨0, 0⟩ ∧ recUid db' 0 = some 7 ∧
       getRecord db' "t" 7 false = some ⟨0, 0⟩) :=
  store_caller_object_spec (createTable ⟨[], [(0, .obj none [])], []⟩ "t" []) "t" ⟨0, 0⟩ 7
    ⟨[], [], none⟩ rfl rfl ⟨none, [], rfl⟩

/-! ## Transaction-stack length preservation through replay -/

theorem transactions_rawDeleteField (db : DB) (oid : Nat) (k : FieldKey) :
    (rawDeleteField db oid k).transactions = db.transactions := by
  unfold rawDeleteField
  repeat' split
  all_goals rfl

theorem transactions_length_trapSetField (db : DB) (tn : String) (ro : Nat)
    (col : Option String) (t : Handle) (p : FieldKey) (v : JSVal) :
    (trapSetField db tn ro col t p v).transactions.length = db.transactions.length := by
  unfold trapSetField
  rw [transactions_length_onUpdateRecord, transactions_rawWriteField]

theorem transactions_length_trapDeleteField (db : DB) (tn : String) (ro : Nat)
    (col : Option String) (t : Handle) (p : FieldKey) :
    (trapDeleteField db tn ro col t p).transactions.length = db.transactions.length := by
  unfold trapDeleteField
  rw [transactions_length_onUpdateRecord, transactions_rawDeleteField]

theorem transactions_length_trapMapSet (db : DB) (tn : String) (ro : Nat)
    (col : Option String) (t : Handle) (k v : JSVal) :
    (trapMapSet db tn ro col t k v).transactions.length = db.transactions.length := by
  unfold trapMapSet
  dsimp only
  repeat' split
  all_goals simp [heapSet, transactions_length_onUpdateRecord]

theorem transactions_length_trapMapDelete (db : DB) (tn : String) (ro : Nat)
    (col : Option String) (t : Handle) (k : JSVal) :
    (trapMapDelete db tn ro col t k).transactions.length = db.transactions.length := by
  unfold trapMapDelete
  dsimp only
  repeat' split
  all_goals simp [heapSet, transactions_length_onUpdateRecord]

theorem transactions_length_trapSetAdd (db : DB) (tn : String) (ro : Nat)
    (col : Option String) (t : Handle) (v : JSVal) :
    (trapSetAdd db tn ro col t v).transactions.length = db.transactions.length := by
  unfold trapSetAdd
  dsimp only
  repeat' split
  all_goals simp [heapSet, transactions_length_onUpdateRecord]

theorem transactions_length_trapSetDelete (db : DB) (tn : String) (ro : Nat)
    (col : Option String) (t : Handle) (v : JSVal) :
    (trapSetDelete db tn ro col t v).transactions.length = db.transactions.length := by
  unfold trapSetDelete
  dsimp only
  repeat' split
  all_goals simp [heapSet, transactions_length_onUpdateRecord]

theorem transactions_length_trapClear (db : DB) (tn : String) (ro : Nat)
    (col : Option String) (t : Handle) :
    (trapClear db tn ro col t).transactions.length = db.transactions.length := by
  unfold trapClear
  dsimp only
  repeat' split
  all_goals simp [heapSet, transactions_length_onUpdateRecord]

theorem transactions_length_trapPush (db : DB) (tn : String) (ro : Nat)
    (col : Option String) (t : Handle) (args : List JSVal) :
    (trapPush db tn ro col t args).transactions.length = db.transactions.length := by
  unfold trapPush
  dsimp only
  repeat' split
  all_goals simp [heapSet, transactions_length_onUpdateRecord]

theorem transactions_length_trapUnshift (db : DB) (tn : String) (ro : Nat)
    (col : Option String) (t : Handle) (args : List JSVal) :
    (trapUnshift db tn ro col t args).transactions.length = db.transactions.length := by
  unfold trapUnshift
  dsimp only
  repeat' split
  all_goals simp [heapSet, transactions_length_onUpdateRecord]

theorem transactions_length_trapPop (db : DB) (tn : String) (ro : Nat)
    (col : Option String) (t : Handle) :
    (trapPop db tn ro col t).transactions.length = db.transactions.length := by
  unfold trapPop
  dsimp only
  repeat' split
  all_goals simp [heapSet, transactions_length_onUpdateRecord]

theorem transactions_length_trapShift (db : DB) (tn : String) (ro : Nat)
    (col : Option String) (t : Handle) :
    (trapShift db tn ro col t).transactions.length = db.transactions.length := by
  unfold trapShift
  dsimp only
  repeat' split
  all_goals simp [heapSet, transactions_length_onUpdateRecord]

theorem transactions_length_trapSplice (db : DB) (tn : String) (ro : Nat)
    (col : Option String) (t : Handle) (args : List JSVal) :
    (trapSplice db tn ro col t args).transactions.length = db.transactions.length := by
  unfold trapSplice
  dsimp only
  repeat' split
  all_goals simp [heapSet, transactions_length_onUpdateRecord]

theorem transactions_length_removeRecord (db : DB) (tn : String) (h : Handle) :
    (removeRecord db tn h).transactions.length = db.transactions.length := by
  unfold removeRecord
  dsimp only
  repeat' split
  all_goals simp [DB.setTable, transactions_length_onUpdateRecord]

theorem transactions_length_addRecord (db : DB) (tn : String) (h : Handle) (w : Bool)
    (db' : DB) (r : Handle) (heq : addRecord db tn h w = .ok (db', r)) :
    db'.transactions.length = db.transactions.length := by
  unfold addRecord at heq
  split at heq
  · exact Except.noConfusion heq
  · dsimp only at heq
    split at heq
    · exact Except.noConfusion heq
    · simp only [Except.ok.injEq, Prod.mk.injEq] at heq
      obtain ⟨hdb, -⟩ := heq
      subst hdb
      rw [transactions_length_onUpdateRecord]
      rw [show ∀ (dbX : DB) tnX tblX, (DB.setTable dbX tnX tblX).transactions
        = dbX.transactions from fun _ _ _ => rfl]
      split
      · rw [transactions_rawWriteField]
        rfl
      · rw [transactions_length_trapSetField]
        rfl

theorem transactions_length_replayChange (db : DB) (ch : ChangeEvent) :
    (replayChange db ch).2.transactions.length = db.transactions.length := by
  cases ch with
  | added tn record => exact transactions_length_removeRecord _ _ _
  | removed tn record =>
    unfold replayChange
    dsimp only
    cases haddr : addRecord db tn record false with
    | error e => rfl
    | ok r => exact transactions_length_addRecord _ _ _ _ r.1 r.2 haddr
  | evSet tn record col object key old new => exact transactions_length_trapSetField _ _ _ _ _ _ _
  | evDelete tn record col object key old => exact transactions_length_trapSetField _ _ _ _ _ _ _
  | mAdd tn record col object arg => exact transactions_length_trapSetDelete _ _ _ _ _ _
  | mDelete tn record col object old arg =>
    unfold replayChange
    dsimp only
    repeat' split
    · exact transactions_length_trapMapSet _ _ _ _ _ _ _
    · exact transactions_length_trapSetAdd _ _ _ _ _ _
    · rfl
  | mSet tn record col object old k v =>
    unfold replayChange
    dsimp only
    repeat' split
    · exact transactions_length_trapMapSet _ _ _ _ _ _ _
    · exact transactions_length_trapMapDelete _ _ _ _ _ _
    · rfl
  | mClear tn record col object => rfl
  | mPop tn record col object deleted =>
    unfold replayChange
    dsimp only
    repeat' split
    · exact transactions_length_trapPush _ _ _ _ _ _
    · rfl
  | mShift tn record col object deleted =>
    unfold replayChange
    dsimp only
    repeat' split
    · exact transactions_length_trapUnshift _ _ _ _ _ _
    · rfl
  | mPush tn record col object args =>
    unfold replayChange
    dsimp only
    repeat' split
    · exact transactions_length_trapPop _ _ _ _ _
    · rfl
    · rfl
  | mUnshift tn record col object args =>
    unfold replayChange
    dsimp only
    repeat' split
    · exact transactions_length_trapShift _ _ _ _ _
    · rfl
    · rfl
  | mSplice tn record col object removed args =>
    unfold replayChange
    dsimp only
    repeat' split
    · dsimp only
      rw [transactions_length_trapSplice, transactions_length_trapSplice]
    · rfl

theorem transactions_length_replayAll (db : DB) (cs : List ChangeEvent) :
    (replayAll db cs).2.transactions.length = db.transactions.length := by
  induction cs generalizing db with
  | nil => rfl
  | cons c cs ih =>
    unfold replayAll
    cases hr : replayChange db c with
    | mk e db2 =>
      cases e with
      | none =>
        dsimp only
        rw [ih db2]
        have := transactions_length_replayChange db c
        rw [hr] at this
        exact this
      | some err =>
        dsimp only
        have := transactions_length_replayChange db c
        rw [hr] at this
        exact this

/-- Claim C9: `commitTransaction` and `rollbackTransaction` throw
`NoActiveTransaction` (state unchanged) when no frame is open; with frames
open they pop exactly the innermost frame — after a commit the remaining
stack is the outer frames unchanged, and after a rollback the replay only
appends compensating events to open outer frames, so the number of open
outer frames is preserved and they all remain open. -/
theorem transaction_control_spec (db : DB) :
    (db.transactions = [] →
      commitTransaction db = (some (.noActiveTransaction "No transaction to commit."), db) ∧
      rollbackTransaction db = (some (.noActiveTransaction "No transaction to rollback."), db)) ∧
    (∀ fr rest, db.transactions = fr :: rest →
      commitTransaction db = (none, { db with transactions := rest }) ∧
      (rollbackTransaction db).2.transactions.length = rest.length) := by
  constructor
  · intro hnil
    constructor
    · unfold commitTransaction
      rw [hnil]
    · unfold rollbackTransaction
      rw [hnil]
  · intro fr rest hcons
    constructor
    · unfold commitTransaction
      rw [hcons]
    · unfold rollbackTransaction
      rw [hcons]
      dsimp only
      exact transactions_length_replayAll _ _

/-- Witness for C9 at concrete inputs: a store with no open frame, and one
with two nested frames. -/
theorem transaction_control_spec_witness :
    (commitTransaction emptyDB
        = (some (.noActiveTransaction "No transaction to commit."), emptyDB) ∧
      rollbackTransaction emptyDB
        = (some (.noActiveTransaction "No transaction to rollback."), emptyDB)) ∧
    (commitTransaction (beginTransaction (beginTransaction emptyDB))
        = (none, { beginTransaction (beginTransaction emptyDB) with transactions := [[]] }) ∧
      (rollbackTransaction (beginTransaction (beginTransaction emptyDB))).2.transactions.length
        = 1) :=
  ⟨(transaction_control_spec emptyDB).1 rfl,
   (transaction_control_spec (beginTransaction (beginTransaction emptyDB))).2 [] [[]] rfl⟩

/-! ## The index invariant (claims C2 and C3) -/

theorem mem_alset_cases {α β : Type} [DecidableEq α] {l : List (α × β)} {k : α} {v : β}
    {x : α × β} (hx : x ∈ alset l k v) : x = (k, v) ∨ x ∈ l := by
  induction l with
  | nil => simpa [alset] using hx
  | cons p ps ih =>
    by_cases hp : p.1 = k
    · simp only [alset, if_pos hp] at hx
      rcases List.mem_cons.mp hx with h | h
      · exact Or.inl h
      · exact Or.inr (List.mem_cons_of_mem _ h)
    · simp only [alset, if_neg hp] at hx
      rcases List.mem_cons.mp hx with h | h
      · exact Or.inr (by simp [h])
      · rcases ih h with h2 | h2
        · exact Or.inl h2
        · exact Or.inr (List.mem_cons_of_mem _ h2)

theorem alget_of_mem_nodup {α β : Type} [DecidableEq α] {l : List (α × β)} {k : α} {b : β}
    (hmem : (k, b) ∈ l) (hnd : (l.map Prod.fst).Nodup) : alget l k = some b := by
  induction l with
  | nil => simp at hmem
  | cons p ps ih =>
    simp only [List.map_cons, List.nodup_cons] at hnd
    rcases List.mem_cons.mp hmem with h | h
    · subst h
      simp [alget]
    · have hk : p.1 ≠ k := by
        intro hpk
        exact hnd.1 (by simpa [hpk] using List.mem_map_of_mem Prod.fst h)
      simp [alget, hk, ih h hnd.2]

theorem nodup_keys_alset {α β : Type} [DecidableEq α] {l : List (α × β)} (k : α) (v : β)
    (hnd : (l.map Prod.fst).Nodup) : ((alset l k v).map Prod.fst).Nodup := by
  rw [keys_alset]
  by_cases hk : k ∈ l.map Prod.fst
  · rw [if_pos hk]
    exact hnd
  · rw [if_neg hk]
    refine hnd.append (List.nodup_singleton _) ?_
    intro a ha hb
    simp only [List.mem_singleton] at hb
    subst hb
    exact hk ha

theorem aldel_sublist {α β : Type} [DecidableEq α] (l : List (α × β)) (k : α) :
    (aldel l k).Sublist l := by
  induction l with
  | nil => simp [aldel]
  | cons p ps ih =>
    by_cases hp : p.1 = k
    · simp only [aldel, if_pos hp]
      exact List.sublist_cons_self _ _
    · simp only [aldel, if_neg hp]
      exact List.Sublist.cons₂ _ ih

theorem mem_aldel {α β : Type} [DecidableEq α] {l : List (α × β)} {k : α} {x : α × β}
    (hx : x ∈ aldel l k) : x ∈ l := (aldel_sublist l k).mem hx

theorem mem_bucketAdd_iff {b : List Handle} {h x : Handle} :
    x ∈ bucketAdd b h ↔ x ∈ b ∨ x = h := by
  unfold bucketAdd
  by_cases hm : h ∈ b
  · rw [if_pos hm]
    constructor
    · exact Or.inl
    · rintro (hx | rfl)
      · exact hx
      · exact hm
  · rw [if_neg hm]
    simp

theorem nodup_bucketAdd {b : List Handle} (h : Handle) (hnd : b.Nodup) :
    (bucketAdd b h).Nodup := by
  unfold bucketAdd
  by_cases hm : h ∈ b
  · rw [if_pos hm]
    exact hnd
  · rw [if_neg hm]
    refine hnd.append (List.nodup_singleton _) ?_
    intro a ha hb
    simp only [List.mem_singleton] at hb
    subst hb
    exact hm ha

/-- Well-formedness of a stored object: JavaScript objects cannot carry a
property key twice. -/
def RecWF (db : DB) (oid : Nat) : Prop :=
  match alget db.heap oid with
  | some (.obj _ fs) => (fs.map Prod.fst).Nodup
  | _ => True

/-- Does a value carry an object reference?  (Indexed columns are required to
hold primitives for the index to behave, because the observer wraps values on
each read and store, changing reference identity.) -/
def isRefVal : JSVal → Bool
  | .ref _ => true
  | _ => false

theorem wrapVal_of_not_ref {v : JSVal} (h : isRefVal v = false) : wrapVal v = v := by
  cases v <;> simp_all [isRefVal, wrapVal]


/-- Well-formedness of one column index of one table: distinct bucket keys,
duplicate-free buckets of first-level observer handles, every member of a
defined-value bucket is a current record whose raw column value equals the
bucket key (soundness), every record with a defined column value is in that
value's bucket (completeness), and indexed columns hold primitives. -/
def IdxColInv (db : DB) (records : List (Int × Handle)) (c : String)
    (idx : List (JSVal × List Handle)) : Prop :=
  (idx.map Prod.fst).Nodup ∧
  (∀ bp ∈ idx, bp.2.Nodup ∧ ∀ hb ∈ bp.2, hb.level = 1) ∧
  (∀ bp ∈ idx, bp.1 ≠ .undef → ∀ hb ∈ bp.2,
     (∃ rp ∈ records, rp.2.oid = hb.oid) ∧ recField db hb.oid c = bp.1) ∧
  (∀ rp ∈ records, recField db rp.2.oid c ≠ .undef →
     (⟨1, rp.2.oid⟩ : Handle) ∈ (alget idx (recField db rp.2.oid c)).getD []) ∧
  (∀ rp ∈ records, isRefVal (recField db rp.2.oid c) = false)

/-- Well-formedness of one table: stored records are raw handles carrying
their map key as id (a nonzero `BigInt`), map keys and index names are
duplicate-free, the counter is positive, and every index satisfies
`IdxColInv`. -/
def TblInv (db : DB) (tbl : Table) : Prop :=
  (∀ rp ∈ tbl.records, rp.2.level = 0 ∧ recUid db rp.2.oid = some rp.1 ∧ rp.1 ≠ 0 ∧
     RecWF db rp.2.oid) ∧
  (tbl.records.map Prod.fst).Nodup ∧
  (tbl.indices.map Prod.fst).Nodup ∧
  (match tbl.lastUID with | none => True | some l => 0 < l) ∧
  (∀ ip ∈ tbl.indices, IdxColInv db tbl.records ip.1 ip.2)

/-- Separation: table names are distinct and no record object is stored
twice, within one table or across tables. -/
def StoreSep (db : DB) : Prop :=
  (db.tables.map Prod.fst).Nodup ∧
  (∀ tp1 ∈ db.tables, ∀ tp2 ∈ db.tables, ∀ rp1 ∈ tp1.2.records, ∀ rp2 ∈ tp2.2.records,
     rp1.2.oid = rp2.2.oid → tp1.1 = tp2.1 ∧ rp1 = rp2)

/-- The inductive well-formedness invariant of the whole store. -/
def IdxInv (db : DB) : Prop :=
  StoreSep db ∧ ∀ tp ∈ db.tables, TblInv db tp.2

instance RecWF.decidable (db : DB) (oid : Nat) : Decidable (RecWF db oid) := by
  unfold RecWF
  rcases alget db.heap oid with _ | o
  · exact inferInstance
  · cases o <;> exact inferInstance

instance IdxColInv.decidable (db : DB) (records : List (Int × Handle)) (c : String)
    (idx : List (JSVal × List Handle)) : Decidable (IdxColInv db records c idx) := by
  unfold IdxColInv
  exact inferInstance

instance TblInv.decidable (db : DB) (tbl : Table) : Decidable (TblInv db tbl) := by
  unfold TblInv
  have hl : Decidable (match tbl.lastUID with | none => True | some l => 0 < l) := by
    rcases tbl.lastUID with _ | l
    · exact inferInstance
    · exact inferInstance
  exact inferInstance

instance StoreSep.decidable (db : DB) : Decidable (StoreSep db) := by
  unfold StoreSep
  exact inferInstance

instance IdxInv.decidable (db : DB) : Decidable (IdxInv db) := by
  unfold IdxInv
  exact inferInstance

theorem eq_of_mem_mem_nodup_keys {α β : Type} [DecidableEq α] {l : List (α × β)}
    (hnd : (l.map Prod.fst).Nodup) {k : α} {a b : β}
    (ha : (k, a) ∈ l) (hb : (k, b) ∈ l) : a = b := by
  have h1 := alget_of_mem_nodup ha hnd
  have h2 := alget_of_mem_nodup hb hnd
  rw [h1] at h2
  exact Option.some_injective _ h2

theorem mem_alset_cases_nodup {α β : Type} [DecidableEq α] {l : List (α × β)}
    (hnd : (l.map Prod.fst).Nodup) {k : α} {v : β} {x : α × β}
    (hx : x ∈ alset l k v) : x = (k, v) ∨ (x ∈ l ∧ x.1 ≠ k) := by
  induction l with
  | nil => simpa [alset] using hx
  | cons p ps ih =>
    simp only [List.map_cons, List.nodup_cons] at hnd
    by_cases hp : p.1 = k
    · simp only [alset, if_pos hp] at hx
      rcases List.mem_cons.mp hx with h | h
      · exact Or.inl h
      · refine Or.inr ⟨List.mem_cons_of_mem _ h, ?_⟩
        intro hxk
        subst hp
        exact hnd.1 (by simpa [← hxk] using List.mem_map_of_mem Prod.fst h)
    · simp only [alset, if_neg hp] at hx
      rcases List.mem_cons.mp hx with h | h
      · subst h
        exact Or.inr ⟨by simp, hp⟩
      · rcases ih hnd.2 h with h2 | h2
        · exact Or.inl h2
        · exact Or.inr ⟨List.mem_cons_of_mem _ h2.1, h2.2⟩

theorem recUid_some_obj {db : DB} {oid : Nat} {n : Int} (h : recUid db oid = some n) :
    ∃ fs, alget db.heap oid = some (.obj (some n) fs) := by
  unfold recUid at h
  cases halget : alget db.heap oid with
  | none => rw [halget] at h; exact absurd h (by simp)
  | some o =>
    rw [halget] at h
    cases o with
    | obj u fs =>
      refine ⟨fs, ?_⟩
      simp only at h
      subst h
      rfl
    | arr es => exact absurd h (by simp)
    | hmap es => exact absurd h (by simp)
    | hset es => exact absurd h (by simp)
    | date iso => exact absurd h (by simp)

/-- Congruence for `IdxColInv`: it only reads the heap through `recField`
at the stored records' heap ids (bucket members of defined-value buckets are
records by soundness). -/
theorem IdxColInv_congr {db db2 : DB} {records : List (Int × Handle)} {c : String}
    {idx : List (JSVal × List Handle)} (hcol : IdxColInv db records c idx)
    (hc : ∀ rp ∈ records, recField db2 rp.2.oid c = recField db rp.2.oid c) :
    IdxColInv db2 records c idx := by
  obtain ⟨h1, h2, h3, h4, h5⟩ := hcol
  refine ⟨h1, h2, ?_, ?_, ?_⟩
  · intro bp hbp hne hb hhb
    obtain ⟨⟨rp, hrp, hoid⟩, hfield⟩ := h3 bp hbp hne hb hhb
    refine ⟨⟨rp, hrp, hoid⟩, ?_⟩
    rw [← hoid]
    rw [hc rp hrp]
    rw [hoid]
    exact hfield
  · intro rp hrp
    rw [hc rp hrp]
    exact h4 rp hrp
  · intro rp hrp
    rw [hc rp hrp]
    exact h5 rp hrp

/-- Congruence for `TblInv`. -/
theorem RecWF_of_heap_eq {db db2 : DB} (hheap : db2.heap = db.heap) (oid : Nat)
    (h : RecWF db oid) : RecWF db2 oid := by
  unfold RecWF at h ⊢
  rw [hheap]
  exact h

theorem TblInv_congr {db db2 : DB} {tbl : Table} (hinv : TblInv db tbl)
    (hu : ∀ rp ∈ tbl.records, recUid db2 rp.2.oid = recUid db rp.2.oid)
    (hw : ∀ rp ∈ tbl.records, RecWF db2 rp.2.oid)
    (hf : ∀ ip ∈ tbl.indices, ∀ rp ∈ tbl.records,
      recField db2 rp.2.oid ip.1 = recField db rp.2.oid ip.1) :
    TblInv db2 tbl := by
  obtain ⟨h1, h2, h3, h4, h5⟩ := hinv
  refine ⟨?_, h2, h3, h4, ?_⟩
  · intro rp hrp
    obtain ⟨ha, hb, hc, _⟩ := h1 rp hrp
    exact ⟨ha, by rw [hu rp hrp]; exact hb, hc, hw rp hrp⟩
  · intro ip hip
    exact IdxColInv_congr (h5 ip hip) (hf ip hip)

/-- `TblInv` ignores everything but the heap and the table value. -/
theorem TblInv_of_heap_eq {db db2 : DB} {tbl : Table} (hheap : db2.heap = db.heap)
    (hinv : TblInv db tbl) : TblInv db2 tbl :=
  TblInv_congr hinv (fun rp _ => recUid_eq_of_heap_eq hheap _)
    (fun rp hrp => RecWF_of_heap_eq hheap _ ((hinv.1 rp hrp).2.2.2))
    (fun ip _ rp _ => recField_eq_of_heap_eq hheap _ _)

theorem StoreSep_of_tables_eq {db db2 : DB} (h : db2.tables = db.tables)
    (hsep : StoreSep db) : StoreSep db2 := by
  unfold StoreSep at hsep ⊢
  rw [h]
  exact hsep

/-- Replacing a table with one holding the same record map preserves
separation. -/
theorem StoreSep_setTable_same_records {db : DB} {tn : String} {tbl tbl2 : Table}
    (hsep : StoreSep db) (htbl : db.getTable tn = some tbl)
    (hrec : tbl2.records = tbl.records) : StoreSep (db.setTable tn tbl2) := by
  obtain ⟨hkeys, hdisj⟩ := hsep
  have htblmem : (tn, tbl) ∈ db.tables := mem_of_alget htbl
  constructor
  · unfold DB.setTable
    exact nodup_keys_alset tn tbl2 hkeys
  · intro tp1 htp1 tp2 htp2 rp1 hrp1 rp2 hrp2 heq
    have hcase1 := mem_alset_cases htp1
    have hcase2 := mem_alset_cases htp2
    have norm : ∀ tp : String × Table, tp = (tn, tbl2) ∨ tp ∈ db.tables →
        ∃ tp' ∈ db.tables, tp'.1 = tp.1 ∧ tp'.2.records = tp.2.records := by
      rintro tp (rfl | htp)
      · exact ⟨(tn, tbl), htblmem, rfl, hrec.symm⟩
      · exact ⟨tp, htp, rfl, rfl⟩
    obtain ⟨tq1, htq1, hname1, hrecs1⟩ := norm tp1 hcase1
    obtain ⟨tq2, htq2, hname2, hrecs2⟩ := norm tp2 hcase2
    rw [← hrecs1] at hrp1
    rw [← hrecs2] at hrp2
    obtain ⟨hn, hr⟩ := hdisj tq1 htq1 tq2 htq2 rp1 hrp1 rp2 hrp2 heq
    exact ⟨by rw [← hname1, ← hname2]; exact hn, hr⟩

/-! ## Effect of raw field writes on `recField`, `recUid`, `RecWF` -/

theorem heap_lookup_rawWriteField_ne (db : DB) (oid oid' : Nat) (k : FieldKey) (v : JSVal)
    (hne : oid' ≠ oid) :
    alget (rawWriteField db oid k v).heap oid' = alget db.heap oid' := by
  unfold rawWriteField
  repeat' split
  all_goals simp [heapSet, alget_alset_ne _ _ _ _ hne]

theorem recField_rawWriteField_ne (db : DB) (oid oid' : Nat) (k : FieldKey) (v : JSVal)
    (c : String) (hne : oid' ≠ oid) :
    recField (rawWriteField db oid k v) oid' c = recField db oid' c := by
  unfold recField
  rw [heap_lookup_rawWriteField_ne db oid oid' k v hne]

theorem recUid_rawWriteField_ne (db : DB) (oid oid' : Nat) (k : FieldKey) (v : JSVal)
    (hne : oid' ≠ oid) :
    recUid (rawWriteField db oid k v) oid' = recUid db oid' := by
  unfold recUid
  rw [heap_lookup_rawWriteField_ne db oid oid' k v hne]

theorem RecWF_rawWriteField_ne (db : DB) (oid oid' : Nat) (k : FieldKey) (v : JSVal)
    (hne : oid' ≠ oid) (h : RecWF db oid') : RecWF (rawWriteField db oid k v) oid' := by
  unfold RecWF at h ⊢
  rw [heap_lookup_rawWriteField_ne db oid oid' k v hne]
  exact h

theorem heap_lookup_rawDeleteField_ne (db : DB) (oid oid' : Nat) (k : FieldKey)
    (hne : oid' ≠ oid) :
    alget (rawDeleteField db oid k).heap oid' = alget db.heap oid' := by
  unfold rawDeleteField
  repeat' split
  all_goals simp [heapSet, alget_alset_ne _ _ _ _ hne]

theorem recField_rawDeleteField_ne (db : DB) (oid oid' : Nat) (k : FieldKey)
    (c : String) (hne : oid' ≠ oid) :
    recField (rawDeleteField db oid k) oid' c = recField db oid' c := by
  unfold recField
  rw [heap_lookup_rawDeleteField_ne db oid oid' k hne]

theorem recUid_rawDeleteField_ne (db : DB) (oid oid' : Nat) (k : FieldKey)
    (hne : oid' ≠ oid) :
    recUid (rawDeleteField db oid k) oid' = recUid db oid' := by
  unfold recUid
  rw [heap_lookup_rawDeleteField_ne db oid oid' k hne]

theorem RecWF_rawDeleteField_ne (db : DB) (oid oid' : Nat) (k : FieldKey)
    (hne : oid' ≠ oid) (h : RecWF db oid') : RecWF (rawDeleteField db oid k) oid' := by
  unfold RecWF at h ⊢
  rw [heap_lookup_rawDeleteField_ne db oid oid' k hne]
  exact h

theorem heap_lookup_rawWriteField_s_obj {db : DB} {oid : Nat} {u : Option Int}
    {fs : List (String × JSVal)} (halget : alget db.heap oid = some (.obj u fs))
    (k : String) (v : JSVal) :
    alget (rawWriteField db oid (.s k) v).heap oid = some (.obj u (alset fs k v)) := by
  unfold rawWriteField
  rw [halget]
  simp [heapSet, alget_alset_self]

theorem recField_rawWriteField_s_self {db : DB} {oid : Nat} {u : Option Int}
    {fs : List (String × JSVal)} (halget : alget db.heap oid = some (.obj u fs))
    (k : String) (v : JSVal) (c : String) :
    recField (rawWriteField db oid (.s k) v) oid c
      = if c = k then v else recField db oid c := by
  unfold recField
  rw [heap_lookup_rawWriteField_s_obj halget k v, halget]
  by_cases hc : c = k
  · subst hc
    simp [alget_alset_self]
  · simp [alget_alset_ne _ _ _ _ hc, hc]

theorem recUid_rawWriteField_s_self {db : DB} {oid : Nat} {u : Option Int}
    {fs : List (String × JSVal)} (halget : alget db.heap oid = some (.obj u fs))
    (k : String) (v : JSVal) :
    recUid (rawWriteField db oid (.s k) v) oid = recUid db oid := by
  unfold recUid
  rw [heap_lookup_rawWriteField_s_obj halget k v, halget]

theorem RecWF_rawWriteField_s_self {db : DB} {oid : Nat} {u : Option Int}
    {fs : List (String × JSVal)} (halget : alget db.heap oid = some (.obj u fs))
    (k : String) (v : JSVal) (h : RecWF db oid) :
    RecWF (rawWriteField db oid (.s k) v) oid := by
  unfold RecWF at h ⊢
  rw [heap_lookup_rawWriteField_s_obj halget k v]
  rw [halget] at h
  simpa using nodup_keys_alset k v h

theorem heap_lookup_rawDeleteField_s_obj {db : DB} {oid : Nat} {u : Option Int}
    {fs : List (String × JSVal)} (halget : alget db.heap oid = some (.obj u fs))
    (k : String) :
    alget (rawDeleteField db oid (.s k)).heap oid = some (.obj u (aldel fs k)) := by
  unfold rawDeleteField
  rw [halget]
  simp [heapSet, alget_alset_self]

theorem recField_rawDeleteField_s_self {db : DB} {oid : Nat} {u : Option Int}
    {fs : List (String × JSVal)} (halget : alget db.heap oid = some (.obj u fs))
    (k : String) (c : String) (hwf : (fs.map Prod.fst).Nodup) :
    recField (rawDeleteField db oid (.s k)) oid c
      = if c = k then .undef else recField db oid c := by
  unfold recField
  rw [heap_lookup_rawDeleteField_s_obj halget k, halget]
  by_cases hc : c = k
  · subst hc
    simp [alget_aldel_self _ _ hwf]
  · simp [alget_aldel_ne _ _ _ hc, hc]

theorem recUid_rawDeleteField_s_self {db : DB} {oid : Nat} {u : Option Int}
    {fs : List (String × JSVal)} (halget : alget db.heap oid = some (.obj u fs))
    (k : String) :
    recUid (rawDeleteField db oid (.s k)) oid = recUid db oid := by
  unfold recUid
  rw [heap_lookup_rawDeleteField_s_obj halget k, halget]

theorem RecWF_rawDeleteField_s_self {db : DB} {oid : Nat} {u : Option Int}
    {fs : List (String × JSVal)} (halget : alget db.heap oid = some (.obj u fs))
    (k : String) (h : RecWF db oid) : RecWF (rawDeleteField db oid (.s k)) oid := by
  unfold RecWF at h ⊢
  rw [heap_lookup_rawDeleteField_s_obj halget k]
  rw [halget] at h
  exact ((aldel_sublist fs k).map Prod.fst).nodup h

theorem handle_eq_one {hb : Handle} {ro : Nat} (hl : hb.level = 1) (ho : hb.oid = ro) :
    hb = ⟨1, ro⟩ := by
  cases hb
  simp_all

/-- The index maintenance of `onUpdateRecord` for a top-level `set` or
`delete` on record object `ro` at column `k`: the record handle is erased
from the bucket of the old value and added to the bucket of the new value
(the `undefined` bucket for a deletion).  This preserves the per-column
invariant when the heap now reads `newv` at `(ro, k)` and is unchanged at
the other records. -/
theorem IdxColInv_move {db db2 : DB} {records : List (Int × Handle)} {k : String}
    {ro : Nat} {rp0 : Int × Handle} (hrp0 : rp0 ∈ records) (hro : rp0.2 = ⟨0, ro⟩)
    {idx : List (JSVal × List Handle)} (hcol : IdxColInv db records k idx)
    (hsep : ∀ rp1 ∈ records, ∀ rp2 ∈ records, rp1.2.oid = rp2.2.oid → rp1 = rp2)
    {old newv : JSVal} (hold : recField db ro k = old)
    (hnew2 : recField db2 ro k = newv)
    (hother : ∀ rp ∈ records, rp.2.oid ≠ ro → recField db2 rp.2.oid k = recField db rp.2.oid k)
    (hnewref : isRefVal newv = false) :
    IdxColInv db2 records k
      (alset (match alget idx old with
              | some oldSet => alset idx old (oldSet.erase (⟨1, ro⟩ : Handle))
              | none => idx)
        newv (bucketAdd ((alget (match alget idx old with
              | some oldSet => alset idx old (oldSet.erase (⟨1, ro⟩ : Handle))
              | none => idx) newv).getD []) ⟨1, ro⟩)) := by
  obtain ⟨hkeys0, h2pre, h3pre, h4pre, h5pre⟩ := hcol
  set idx1 := (match alget idx old with
    | some oldSet => alset idx old (oldSet.erase (⟨1, ro⟩ : Handle))
    | none => idx) with hidx1def
  have hkeys1 : (idx1.map Prod.fst).Nodup := by
    rw [hidx1def]
    cases alget idx old with
    | none => exact hkeys0
    | some oldSet => exact nodup_keys_alset _ _ hkeys0
  have halget1 : ∀ w, alget idx1 w =
      if w = old then (alget idx old).map (fun b => b.erase (⟨1, ro⟩ : Handle))
      else alget idx w := by
    intro w
    rw [hidx1def]
    cases halget0 : alget idx old with
    | none =>
      by_cases hw : w = old
      · subst hw
        simp [halget0]
      · simp [hw]
    | some oldSet =>
      by_cases hw : w = old
      · subst hw
        simp [alget_alset_self, halget0]
      · simp [hw, alget_alset_ne _ _ _ _ hw]
  have hshape1 : ∀ bp ∈ idx1, ∃ b0, alget idx bp.1 = some b0 ∧
      (bp.2 = b0 ∨ bp.2 = b0.erase (⟨1, ro⟩ : Handle)) := by
    intro bp hbp
    rw [hidx1def] at hbp
    cases halget0 : alget idx old with
    | none =>
      rw [halget0] at hbp
      exact ⟨bp.2, alget_of_mem_nodup hbp hkeys0, Or.inl rfl⟩
    | some oldSet =>
      rw [halget0] at hbp
      rcases mem_alset_cases_nodup hkeys0 hbp with h | ⟨hmem, hne⟩
      · subst h
        exact ⟨oldSet, halget0, Or.inr rfl⟩
      · exact ⟨bp.2, alget_of_mem_nodup hmem hkeys0, Or.inl rfl⟩
  -- contents of idx1 buckets are well-formed
  have h2mid : ∀ bp ∈ idx1, bp.2.Nodup ∧ ∀ hb ∈ bp.2, hb.level = 1 := by
    intro bp hbp
    obtain ⟨b0, hb0, hcases⟩ := hshape1 bp hbp
    have hb0props := h2pre (bp.1, b0) (mem_of_alget hb0)
    rcases hcases with h | h
    · rw [h]
      exact hb0props
    · rw [h]
      exact ⟨hb0props.1.erase _, fun hb hhb => hb0props.2 hb (List.mem_of_mem_erase hhb)⟩
  -- a bucket member of a defined idx1 bucket cannot be the moved record
  have hno_ro : ∀ bp ∈ idx1, bp.1 ≠ JSVal.undef → bp.1 ≠ newv →
      ∀ hb ∈ bp.2, hb.oid ≠ ro ∨ (old = bp.1 ∧ False) := by
    intro bp hbp hneundef hnenew hb hhb
    by_cases hoid : hb.oid = ro
    · obtain ⟨b0, hb0, hcases⟩ := hshape1 bp hbp
      have hb0props := h2pre (bp.1, b0) (mem_of_alget hb0)
      have hbmem0 : hb ∈ b0 := by
        rcases hcases with h | h
        · rw [h] at hhb
          exact hhb
        · rw [h] at hhb
          exact List.mem_of_mem_erase hhb
      have hsound := h3pre (bp.1, b0) (mem_of_alget hb0) hneundef hb hbmem0
      have hfield : recField db hb.oid k = bp.1 := hsound.2
      rw [hoid, hold] at hfield
      -- bp.1 = old, so bp.2 is the erased bucket and hb is the erased handle
      have hbeq : hb = (⟨1, ro⟩ : Handle) :=
        handle_eq_one (hb0props.2 hb hbmem0) hoid
      have : bp.2 = b0.erase (⟨1, ro⟩ : Handle) := by
        rcases hcases with h | h
        · exfalso
          have halget_bp : alget idx1 bp.1 = some bp.2 := alget_of_mem_nodup hbp hkeys1
          rw [halget1 bp.1, if_pos hfield.symm, hfield, hb0] at halget_bp
          simp only [Option.map_some', Option.some.injEq] at halget_bp
          rw [← halget_bp] at hhb
          rw [hbeq] at hhb
          exact (hb0props.1.mem_erase_iff.mp hhb).1 rfl
        · exact h
      exfalso
      rw [this, hbeq] at hhb
      exact (hb0props.1.mem_erase_iff.mp hhb).1 rfl
    · exact Or.inl hoid
  refine ⟨nodup_keys_alset _ _ hkeys1, ?_, ?_, ?_, ?_⟩
  · -- bucket well-form}edness
    intro bp hbp
    rcases mem_alset_cases_nodup hkeys1 hbp with h | ⟨hmem, _⟩
    · subst h
      dsimp only
      have hb1 : ((alget idx1 newv).getD []).Nodup ∧
          ∀ hb ∈ (alget idx1 newv).getD [], hb.level = 1 := by
        cases halget1n : alget idx1 newv with
        | none => simp
        | some b =>
          have := h2mid (newv, b) (mem_of_alget halget1n)
          simpa using this
      refine ⟨nodup_bucketAdd _ hb1.1, ?_⟩
      intro hb hhb
      rcases mem_bucketAdd_iff.mp hhb with h | h
      · exact hb1.2 hb h
      · rw [h]
    · exact h2mid bp hmem
  · -- soundness
    intro bp hbp hneundef hb hhb
    rcases mem_alset_cases_nodup hkeys1 hbp with h | ⟨hmem, hne⟩
    · subst h
      dsimp only at hhb ⊢
      rcases mem_bucketAdd_iff.mp hhb with hmem1 | heq1
      · -- old bucket member for value newv
        cases halget1n : alget idx1 newv with
        | none => rw [halget1n] at hmem1; simp at hmem1
        | some b =>
          rw [halget1n] at hmem1
          simp only [Option.getD_some] at hmem1
          obtain ⟨b0, hb0, hcases⟩ := hshape1 (newv, b) (mem_of_alget halget1n)
          have hb0props := h2pre (newv, b0) (mem_of_alget hb0)
          have hbmem0 : hb ∈ b0 := by
            rcases hcases with h | h
            · rw [show b = b0 from h] at hmem1; exact hmem1
            · rw [show b = b0.erase (⟨1, ro⟩ : Handle) from h] at hmem1
              exact List.mem_of_mem_erase hmem1
          have hsound := h3pre (newv, b0) (mem_of_alget hb0) hneundef hb hbmem0
          refine ⟨hsound.1, ?_⟩
          by_cases hoid : hb.oid = ro
          · -- then newv = old and the handle was erased: contradiction
            exfalso
            have hfield : recField db hb.oid k = newv := hsound.2
            rw [hoid, hold] at hfield
            have hbeq : hb = (⟨1, ro⟩ : Handle) :=
              handle_eq_one (hb0props.2 hb hbmem0) hoid
            have hbis : b = b0.erase (⟨1, ro⟩ : Handle) := by
              have h1 := halget1 newv
              rw [if_pos hfield.symm, hfield, hb0] at h1
              rw [halget1n] at h1
              simp only [Option.map_some', Option.some.injEq] at h1
              exact h1
            rw [hbis, hbeq] at hmem1
            exact (hb0props.1.mem_erase_iff.mp hmem1).1 rfl
          · obtain ⟨rp, hrp, hrpoid⟩ := hsound.1
            have := hother rp hrp (by rw [hrpoid]; exact hoid)
            rw [← hrpoid] at hsound ⊢
            rw [this]
            exact hsound.2
      · -- the moved record itself
        subst heq1
        refine ⟨⟨rp0, hrp0, by rw [hro]⟩, ?_⟩
        simpa using hnew2
    · -- untouched or erased buckets
      obtain ⟨b0, hb0, hcases⟩ := hshape1 bp hmem
      have hb0props := h2pre (bp.1, b0) (mem_of_alget hb0)
      have hbmem0 : hb ∈ bp.2 := hhb
      have hbmem00 : hb ∈ b0 := by
        rcases hcases with h | h
        · rw [h] at hhb; exact hhb
        · rw [h] at hhb; exact List.mem_of_mem_erase hhb
      have hsound := h3pre (bp.1, b0) (mem_of_alget hb0) hneundef hb hbmem00
      refine ⟨hsound.1, ?_⟩
      rcases hno_ro bp hmem hneundef hne hb hhb with hoid | ⟨_, hfalse⟩
      · obtain ⟨rp, hrp, hrpoid⟩ := hsound.1
        have := hother rp hrp (by rw [hrpoid]; exact hoid)
        rw [← hrpoid] at hsound ⊢
        rw [this]
        exact hsound.2
      · exact absurd hfalse id
  · -- completeness
    intro rp hrp hne
    by_cases hoid : rp.2.oid = ro
    · rw [hoid, hnew2]
      rw [hoid, hnew2] at hne
      rw [alget_alset_self]
      simp only [Option.getD_some]
      exact mem_bucketAdd_iff.mpr (Or.inr rfl)
    · have hfeq : recField db2 rp.2.oid k = recField db rp.2.oid k := hother rp hrp hoid
      rw [hfeq]
      rw [hfeq] at hne
      have hcomp := h4pre rp hrp hne
      set w := recField db rp.2.oid k with hwdef
      have hbase : ∃ b0, alget idx w = some b0 ∧ (⟨1, rp.2.oid⟩ : Handle) ∈ b0 := by
        cases halgetw : alget idx w with
        | none => rw [halgetw] at hcomp; simp at hcomp
        | some b0 =>
          rw [halgetw] at hcomp
          exact ⟨b0, rfl, by simpa using hcomp⟩
      obtain ⟨b0, hb0, hmem0⟩ := hbase
      have hhandlene : (⟨1, rp.2.oid⟩ : Handle) ≠ (⟨1, ro⟩ : Handle) := by
        intro hcontr
        apply hoid
        simpa using congrArg Handle.oid hcontr
      have hmem1 : (⟨1, rp.2.oid⟩ : Handle) ∈ (alget idx1 w).getD [] := by
        rw [halget1 w]
        by_cases hwold : w = old
        · rw [if_pos hwold, ← hwold, hb0]
          simp only [Option.map_some', Option.getD_some]
          exact (List.mem_erase_of_ne hhandlene).mpr hmem0
        · rw [if_neg hwold, hb0]
          simpa using hmem0
      by_cases hwnew : w = newv
      · rw [hwnew, alget_alset_self]
        simp only [Option.getD_some]
        rw [← hwnew]
        exact mem_bucketAdd_iff.mpr (Or.inl hmem1)
      · rw [alget_alset_ne _ _ _ _ hwnew]
        exact hmem1
  · -- indexed values stay primitive
    intro rp hrp
    by_cases hoid : rp.2.oid = ro
    · rw [hoid, hnew2]
      exact hnewref
    · rw [hother rp hrp hoid]
      exact h5pre rp hrp

/-! ## Helper lemmas for the index preservation proofs -/

theorem alset_of_alget_none {α β : Type} [DecidableEq α] {l : List (α × β)} {k : α}
    (h : alget l k = none) (v : β) : alset l k v = l ++ [(k, v)] := by
  induction l with
  | nil => rfl
  | cons p ps ih =>
    by_cases hp : p.1 = k
    · rw [alget, if_pos hp] at h
      exact absurd h (by simp)
    · rw [alget, if_neg hp] at h
      simp [alset, if_neg hp, ih h]

theorem alset_alset_self {α β : Type} [DecidableEq α] (l : List (α × β)) (k : α) (a b : β) :
    alset (alset l k a) k b = alset l k b := by
  induction l with
  | nil => simp [alset]
  | cons p ps ih =>
    by_cases hp : p.1 = k
    · simp [alset, hp]
    · simp [alset, hp, ih]

theorem map_fst_map_of_fst_eq {α β : Type} (l : List (α × β)) (f : α × β → α × β)
    (hf : ∀ p, (f p).1 = p.1) : (l.map f).map Prod.fst = l.map Prod.fst := by
  rw [List.map_map]
  exact List.map_congr_left (fun p _ => hf p)

theorem wrapValN_one_of_not_ref {v : JSVal} (h : isRefVal v = false) :
    wrapValN 1 v = v := by
  show wrapVal (wrapValN 0 v) = v
  rw [show wrapValN 0 v = v from rfl, wrapVal_of_not_ref h]

theorem getTable_pushEvent (db : DB) (ev : ChangeEvent) (tn : String) :
    (pushEvent db ev).getTable tn = db.getTable tn := by
  unfold DB.getTable
  rw [tables_pushEvent]

theorem getNextUID_pos (tbl : Table)
    (hpos : match tbl.lastUID with | none => True | some l => 0 < l) :
    0 < getNextUID tbl := by
  unfold getNextUID
  cases h : tbl.lastUID with
  | none => simp
  | some l =>
    rw [h] at hpos
    by_cases hl : l = 0
    · simp [hl]
    · simp only [if_neg hl]
      omega

theorem heap_lookup_rawWriteField_uidSym_obj {db : DB} {oid : Nat} {u : Option Int}
    {fs : List (String × JSVal)} (halget : alget db.heap oid = some (.obj u fs))
    (n : Int) :
    alget (rawWriteField db oid .uidSym (.bigint n)).heap oid
      = some (.obj (some n) fs) := by
  unfold rawWriteField
  rw [halget]
  simp [heapSet, alget_alset_self]

theorem RecWF_rawWriteField_uidSym {db : DB} {oid : Nat} {u : Option Int}
    {fs : List (String × JSVal)} (halget : alget db.heap oid = some (.obj u fs))
    (n : Int) (h : (fs.map Prod.fst).Nodup) :
    RecWF (rawWriteField db oid .uidSym (.bigint n)) oid := by
  unfold RecWF
  rw [heap_lookup_rawWriteField_uidSym_obj halget n]
  exact h

theorem rawReadField_s_obj {db : DB} {oid : Nat} {u : Option Int}
    {fs : List (String × JSVal)} (halget : alget db.heap oid = some (.obj u fs))
    (k : String) : rawReadField db oid (.s k) = recField db oid k := by
  unfold rawReadField recField
  rw [halget]

theorem mem_aldel_of_mem_ne {α β : Type} [DecidableEq α] {l : List (α × β)} {k : α}
    {x : α × β} (hx : x ∈ l) (hne : x.1 ≠ k) : x ∈ aldel l k := by
  induction l with
  | nil => simp at hx
  | cons p ps ih =>
    rcases List.mem_cons.mp hx with h | h
    · subst h
      rw [aldel, if_neg hne]
      exact List.mem_cons_self _ _
    · by_cases hp : p.1 = k
      · rw [aldel, if_pos hp]
        exact h
      · rw [aldel, if_neg hp]
        exact List.mem_cons_of_mem _ (ih h)

/-- Replacing a table with one whose record map is a member-subset of the
original preserves separation. -/
theorem StoreSep_setTable_records_sub {db : DB} {tn : String} {tbl tbl2 : Table}
    (hsep : StoreSep db) (htbl : db.getTable tn = some tbl)
    (hrec : ∀ rp ∈ tbl2.records, rp ∈ tbl.records) : StoreSep (db.setTable tn tbl2) := by
  obtain ⟨hkeys, hdisj⟩ := hsep
  have htblmem : (tn, tbl) ∈ db.tables := mem_of_alget htbl
  constructor
  · unfold DB.setTable
    exact nodup_keys_alset tn tbl2 hkeys
  · intro tp1 htp1 tp2 htp2 rp1 hrp1 rp2 hrp2 heq
    have hcase1 := mem_alset_cases htp1
    have hcase2 := mem_alset_cases htp2
    have norm : ∀ tp : String × Table, ∀ rp : Int × Handle,
        tp = (tn, tbl2) ∨ tp ∈ db.tables → rp ∈ tp.2.records →
        ∃ tp' ∈ db.tables, tp'.1 = tp.1 ∧ rp ∈ tp'.2.records := by
      rintro tp rp (rfl | htp) hrp
      · exact ⟨(tn, tbl), htblmem, rfl, hrec rp hrp⟩
      · exact ⟨tp, htp, rfl, hrp⟩
    obtain ⟨tq1, htq1, hname1, hq1⟩ := norm tp1 rp1 hcase1 hrp1
    obtain ⟨tq2, htq2, hname2, hq2⟩ := norm tp2 rp2 hcase2 hrp2
    obtain ⟨hn, hr⟩ := hdisj tq1 htq1 tq2 htq2 rp1 hq1 rp2 hq2 heq
    exact ⟨by rw [← hname1, ← hname2]; exact hn, hr⟩

/-- Inserting a record with a heap id fresh across the whole store preserves
separation. -/
theorem StoreSep_insert {db : DB} {tn : String} {tbl tbl2 : Table}
    (hsep : StoreSep db) (htbl : db.getTable tn = some tbl) {uid : Int} {ro : Nat}
    (hrec2 : tbl2.records = tbl.records ++ [(uid, (⟨0, ro⟩ : Handle))])
    (hfresh : ∀ tp ∈ db.tables, ∀ rp ∈ tp.2.records, rp.2.oid ≠ ro) :
    StoreSep (db.setTable tn tbl2) := by
  obtain ⟨hkeys, hdisj⟩ := hsep
  have htblmem : (tn, tbl) ∈ db.tables := mem_of_alget htbl
  constructor
  · unfold DB.setTable
    exact nodup_keys_alset tn tbl2 hkeys
  · intro tp1 htp1 tp2 htp2 rp1 hrp1 rp2 hrp2 heq
    have hcase1 := mem_alset_cases htp1
    have hcase2 := mem_alset_cases htp2
    have norm : ∀ tp : String × Table, ∀ rp : Int × Handle,
        tp = (tn, tbl2) ∨ tp ∈ db.tables → rp ∈ tp.2.records →
        (∃ tp' ∈ db.tables, tp'.1 = tp.1 ∧ rp ∈ tp'.2.records) ∨
        (tp.1 = tn ∧ rp = (uid, (⟨0, ro⟩ : Handle))) := by
      rintro tp rp (rfl | htp) hrp
      · rw [hrec2] at hrp
        rcases List.mem_append.mp hrp with h | h
        · exact Or.inl ⟨(tn, tbl), htblmem, rfl, h⟩
        · exact Or.inr ⟨rfl, List.mem_singleton.mp h⟩
      · exact Or.inl ⟨tp, htp, rfl, hrp⟩
    rcases norm tp1 rp1 hcase1 hrp1 with ⟨tq1, htq1, hname1, hq1⟩ | ⟨hn1, hrp1'⟩
    · rcases norm tp2 rp2 hcase2 hrp2 with ⟨tq2, htq2, hname2, hq2⟩ | ⟨hn2, hrp2'⟩
      · obtain ⟨hn, hr⟩ := hdisj tq1 htq1 tq2 htq2 rp1 hq1 rp2 hq2 heq
        exact ⟨by rw [← hname1, ← hname2]; exact hn, hr⟩
      · exfalso
        apply hfresh tq1 htq1 rp1 hq1
        rw [heq, hrp2']
    · rcases norm tp2 rp2 hcase2 hrp2 with ⟨tq2, htq2, hname2, hq2⟩ | ⟨hn2, hrp2'⟩
      · exfalso
        apply hfresh tq2 htq2 rp2 hq2
        rw [← heq, hrp1']
      · exact ⟨by rw [hn1, hn2], by rw [hrp1', hrp2']⟩

/-- Inserting a fresh record under a fresh id: the `addRecord`/`setRecord`
index-population step (add the level-1 handle to the bucket of the record's
column value, skipping `undefined`) preserves the per-column invariant. -/
theorem IdxColInv_insert {db db2 : DB} {records : List (Int × Handle)} {c : String}
    {idx : List (JSVal × List Handle)} (hcol : IdxColInv db records c idx)
    {ro : Nat} (hfresh : ∀ rp ∈ records, rp.2.oid ≠ ro)
    (hother : ∀ rp ∈ records, recField db2 rp.2.oid c = recField db rp.2.oid c)
    {v : JSVal} (hv : recField db2 ro c = v) (hvref : isRefVal v = false)
    {uid : Int} (huid : alget records uid = none) :
    IdxColInv db2 (alset records uid (⟨0, ro⟩ : Handle)) c
      (if v = .undef then idx
       else alset idx v (bucketAdd ((alget idx v).getD []) (⟨1, ro⟩ : Handle))) := by
  obtain ⟨h1, h2, h3, h4, h5⟩ := hcol
  have hrecs : alset records uid (⟨0, ro⟩ : Handle)
      = records ++ [(uid, (⟨0, ro⟩ : Handle))] := alset_of_alget_none huid _
  have hmemr : ∀ rp : Int × Handle, rp ∈ alset records uid (⟨0, ro⟩ : Handle) ↔
      rp ∈ records ∨ rp = (uid, (⟨0, ro⟩ : Handle)) := by
    intro rp
    rw [hrecs]
    simp
  by_cases hvu : v = .undef
  · rw [if_pos hvu]
    refine ⟨h1, h2, ?_, ?_, ?_⟩
    · intro bp hbp hne hb hhb
      obtain ⟨⟨rp, hrp, hoid⟩, hfield⟩ := h3 bp hbp hne hb hhb
      refine ⟨⟨rp, (hmemr rp).mpr (Or.inl hrp), hoid⟩, ?_⟩
      rw [← hoid, hother rp hrp, hoid]
      exact hfield
    · intro rp hrp hne
      rcases (hmemr rp).mp hrp with h | h
      · rw [hother rp h] at hne ⊢
        exact h4 rp h hne
      · exfalso
        apply hne
        rw [h]
        show recField db2 ro c = JSVal.undef
        rw [hv, hvu]
    · intro rp hrp
      rcases (hmemr rp).mp hrp with h | h
      · rw [hother rp h]
        exact h5 rp h
      · rw [h]
        show isRefVal (recField db2 ro c) = false
        rw [hv]
        exact hvref
  · rw [if_neg hvu]
    have hbprops : ((alget idx v).getD []).Nodup ∧
        ∀ hb ∈ (alget idx v).getD [], hb.level = 1 := by
      cases hbv : alget idx v with
      | none => simp
      | some b0 =>
        have := h2 (v, b0) (mem_of_alget hbv)
        simpa using this
    refine ⟨nodup_keys_alset _ _ h1, ?_, ?_, ?_, ?_⟩
    · intro bp hbp
      rcases mem_alset_cases_nodup h1 hbp with h | ⟨hmem, _⟩
      · subst h
        dsimp only
        refine ⟨nodup_bucketAdd _ hbprops.1, ?_⟩
        intro hb hhb
        rcases mem_bucketAdd_iff.mp hhb with h | h
        · exact hbprops.2 hb h
        · rw [h]
      · exact h2 bp hmem
    · intro bp hbp hne hb hhb
      rcases mem_alset_cases_nodup h1 hbp with h | ⟨hmem, hnev⟩
      · subst h
        dsimp only at hhb ⊢
        rcases mem_bucketAdd_iff.mp hhb with hmemb | heqb
        · cases hbv : alget idx v with
          | none => rw [hbv] at hmemb; simp at hmemb
          | some b0 =>
            rw [hbv] at hmemb
            simp only [Option.getD_some] at hmemb
            obtain ⟨⟨rp, hrp, hoid⟩, hfield⟩ :=
              h3 (v, b0) (mem_of_alget hbv) hne hb hmemb
            refine ⟨⟨rp, (hmemr rp).mpr (Or.inl hrp), hoid⟩, ?_⟩
            rw [← hoid, hother rp hrp, hoid]
            exact hfield
        · subst heqb
          refine ⟨⟨(uid, (⟨0, ro⟩ : Handle)), (hmemr _).mpr (Or.inr rfl), rfl⟩, ?_⟩
          exact hv
      · obtain ⟨⟨rp, hrp, hoid⟩, hfield⟩ := h3 bp hmem hne hb hhb
        refine ⟨⟨rp, (hmemr rp).mpr (Or.inl hrp), hoid⟩, ?_⟩
        rw [← hoid, hother rp hrp, hoid]
        exact hfield
    · intro rp hrp hne
      rcases (hmemr rp).mp hrp with h | h
      · rw [hother rp h] at hne ⊢
        have hpre := h4 rp h hne
        by_cases hw : recField db rp.2.oid c = v
        · rw [hw, alget_alset_self]
          simp only [Option.getD_some]
          apply mem_bucketAdd_iff.mpr
          left
          rw [← hw]
          exact hpre
        · rw [alget_alset_ne _ _ _ _ hw]
          exact hpre
      · rw [h]
        show (⟨1, ro⟩ : Handle) ∈
          (alget (alset idx v (bucketAdd ((alget idx v).getD []) (⟨1, ro⟩ : Handle)))
            (recField db2 ro c)).getD []
        rw [hv, alget_alset_self]
        simp only [Option.getD_some]
        exact mem_bucketAdd_iff.mpr (Or.inr rfl)
    · intro rp hrp
      rcases (hmemr rp).mp hrp with h | h
      · rw [hother rp h]
        exact h5 rp h
      · rw [h]
        show isRefVal (recField db2 ro c) = false
        rw [hv]
        exact hvref

/-- Evaluation of `onUpdateRecord` for a top-level `set` on a record
(`event.record === event.object`) of an indexed column. -/
theorem onUpdateRecord_evSet_some (db : DB) (tn : String) (r : Handle) (cc : FieldKey)
    (k : String) (old nv : JSVal) (tbl : Table) (htbl : db.getTable tn = some tbl)
    (idx : List (JSVal × List Handle)) (hidx : alget tbl.indices k = some idx) :
    onUpdateRecord db (.evSet tn r cc r (.s k) old nv) =
      (pushEvent db (.evSet tn r cc r (.s k) old nv)).setTable tn
        ⟨tbl.records,
         alset tbl.indices k
            (alset (match alget idx old with
                    | some oldSet => alset idx old (oldSet.erase r)
                    | none => idx) nv
              (bucketAdd ((alget (match alget idx old with
                    | some oldSet => alset idx old (oldSet.erase r)
                    | none => idx) nv).getD []) r)),
         tbl.lastUID⟩ := by
  have hpt : (pushEvent db (.evSet tn r cc r (.s k) old nv)).getTable tn = some tbl := by
    rw [getTable_pushEvent]
    exact htbl
  unfold onUpdateRecord
  dsimp only
  rw [if_pos rfl, hpt]
  dsimp only
  rw [hidx]

/-- Evaluation of `onUpdateRecord` for a top-level `set` on a record of a
non-indexed column: only the event is logged. -/
theorem onUpdateRecord_evSet_none (db : DB) (tn : String) (r : Handle) (cc : FieldKey)
    (k : String) (old nv : JSVal) (tbl : Table) (htbl : db.getTable tn = some tbl)
    (hidx : alget tbl.indices k = none) :
    onUpdateRecord db (.evSet tn r cc r (.s k) old nv) =
      pushEvent db (.evSet tn r cc r (.s k) old nv) := by
  have hpt : (pushEvent db (.evSet tn r cc r (.s k) old nv)).getTable tn = some tbl := by
    rw [getTable_pushEvent]
    exact htbl
  unfold onUpdateRecord
  dsimp only
  rw [if_pos rfl, hpt]
  dsimp only
  rw [hidx]

/-- Evaluation of `onUpdateRecord` for a top-level `delete` on a record of an
indexed column: the record moves to the `undefined` bucket. -/
theorem onUpdateRecord_evDelete_some (db : DB) (tn : String) (r : Handle) (cc : FieldKey)
    (k : String) (old : JSVal) (tbl : Table) (htbl : db.getTable tn = some tbl)
    (idx : List (JSVal × List Handle)) (hidx : alget tbl.indices k = some idx) :
    onUpdateRecord db (.evDelete tn r cc r (.s k) old) =
      (pushEvent db (.evDelete tn r cc r (.s k) old)).setTable tn
        ⟨tbl.records,
         alset tbl.indices k
            (alset (match alget idx old with
                    | some oldSet => alset idx old (oldSet.erase r)
                    | none => idx) .undef
              (bucketAdd ((alget (match alget idx old with
                    | some oldSet => alset idx old (oldSet.erase r)
                    | none => idx) .undef).getD []) r)),
         tbl.lastUID⟩ := by
  have hpt : (pushEvent db (.evDelete tn r cc r (.s k) old)).getTable tn = some tbl := by
    rw [getTable_pushEvent]
    exact htbl
  unfold onUpdateRecord
  dsimp only
  rw [if_pos rfl, hpt]
  dsimp only
  rw [hidx]

/-- Evaluation of `onUpdateRecord` for a top-level `delete` on a record of a
non-indexed column. -/
theorem onUpdateRecord_evDelete_none (db : DB) (tn : String) (r : Handle) (cc : FieldKey)
    (k : String) (old : JSVal) (tbl : Table) (htbl : db.getTable tn = some tbl)
    (hidx : alget tbl.indices k = none) :
    onUpdateRecord db (.evDelete tn r cc r (.s k) old) =
      pushEvent db (.evDelete tn r cc r (.s k) old) := by
  have hpt : (pushEvent db (.evDelete tn r cc r (.s k) old)).getTable tn = some tbl := by
    rw [getTable_pushEvent]
    exact htbl
  unfold onUpdateRecord
  dsimp only
  rw [if_pos rfl, hpt]
  dsimp only
  rw [hidx]


theorem getTable_rawDeleteField (db : DB) (oid : Nat) (k : FieldKey) (tn : String) :
    (rawDeleteField db oid k).getTable tn = db.getTable tn := by
  unfold DB.getTable
  rw [tables_rawDeleteField]

theorem recField_of_lookup_eq {db db2 : DB} {oid : Nat}
    (h : alget db2.heap oid = alget db.heap oid) (c : String) :
    recField db2 oid c = recField db oid c := by
  unfold recField
  rw [h]

theorem recUid_of_lookup_eq {db db2 : DB} {oid : Nat}
    (h : alget db2.heap oid = alget db.heap oid) :
    recUid db2 oid = recUid db oid := by
  unfold recUid
  rw [h]

theorem RecWF_of_lookup_eq {db db2 : DB} {oid : Nat}
    (h : alget db2.heap oid = alget db.heap oid) (hwf : RecWF db oid) :
    RecWF db2 oid := by
  unfold RecWF at hwf ⊢
  rw [h]
  exact hwf

/-- A table whose records all live away from the touched heap id keeps its
invariant under any heap change local to that id. -/
theorem TblInv_heap_local {db db2 : DB} {tbl : Table} (hinv : TblInv db tbl) {ro : Nat}
    (hnr : ∀ rp ∈ tbl.records, rp.2.oid ≠ ro)
    (hl : ∀ oid : Nat, oid ≠ ro → alget db2.heap oid = alget db.heap oid) :
    TblInv db2 tbl :=
  TblInv_congr hinv (fun rp hrp => recUid_of_lookup_eq (hl _ (hnr rp hrp)))
    (fun rp hrp => RecWF_of_lookup_eq (hl _ (hnr rp hrp)) ((hinv.1 rp hrp).2.2.2))
    (fun ip _ rp hrp => recField_of_lookup_eq (hl _ (hnr rp hrp)) _)

/-- Separation pins a record object's heap id to one table and one map
entry. -/
theorem sep_oid_unique {db : DB} {tn : String} {tbl : Table} (hsep : StoreSep db)
    (htbl : db.getTable tn = some tbl) {u0 : Int} {ro : Nat}
    (hrec : (u0, (⟨0, ro⟩ : Handle)) ∈ tbl.records) :
    (∀ tp ∈ db.tables, tp.1 ≠ tn → ∀ rp ∈ tp.2.records, rp.2.oid ≠ ro) ∧
    (∀ rp ∈ tbl.records, rp.2.oid = ro → rp = (u0, (⟨0, ro⟩ : Handle))) := by
  have htm : (tn, tbl) ∈ db.tables := mem_of_alget htbl
  constructor
  · intro tp htp hne rp hrp hoid
    exact hne (hsep.2 tp htp (tn, tbl) htm rp hrp (u0, (⟨0, ro⟩ : Handle)) hrec hoid).1
  · intro rp hrp hoid
    exact (hsep.2 (tn, tbl) htm (tn, tbl) htm rp hrp (u0, (⟨0, ro⟩ : Handle)) hrec hoid).2

/-- A top-level field assignment through the observer (the `set` trap on the
record proxy, writing a primitive) preserves the store invariant. -/
theorem IdxInv_trapSetField {db : DB} {tn : String} {ro : Nat} {k : String}
    {value : JSVal} (hinv : IdxInv db) {tbl : Table} (htbl : db.getTable tn = some tbl)
    {u0 : Int} (hrec : (u0, (⟨0, ro⟩ : Handle)) ∈ tbl.records)
    (hvref : isRefVal value = false) :
    IdxInv (trapSetField db tn ro none (⟨0, ro⟩ : Handle) (.s k) value) := by
  obtain ⟨hsep, htinv⟩ := hinv
  have htm : (tn, tbl) ∈ db.tables := mem_of_alget htbl
  obtain ⟨hA, hknd, hind, hlast, hidxinv⟩ := htinv (tn, tbl) htm
  have hArec := hA _ hrec
  have huid : recUid db ro = some u0 := hArec.2.1
  obtain ⟨fs, halget⟩ := recUid_some_obj huid
  have hwfro : RecWF db ro := hArec.2.2.2
  obtain ⟨hsep_other, hsep_self⟩ := sep_oid_unique hsep htbl hrec
  have hwval : wrapVal value = value := wrapVal_of_not_ref hvref
  have hold : rawReadField db ro (.s k) = recField db ro k := rawReadField_s_obj halget k
  have hw0 : wrapH (⟨0, ro⟩ : Handle) = (⟨1, ro⟩ : Handle) := rfl
  unfold trapSetField
  dsimp only
  rw [hwval, hold, hw0]
  have htbl1 : (rawWriteField db ro (.s k) value).getTable tn = some tbl := by
    rw [getTable_rawWriteField]
    exact htbl
  have hlook1 : ∀ oid : Nat, oid ≠ ro →
      alget (rawWriteField db ro (.s k) value).heap oid = alget db.heap oid :=
    fun oid hne => heap_lookup_rawWriteField_ne db ro oid _ _ hne
  cases hidxc : alget tbl.indices k with
  | none =>
    rw [onUpdateRecord_evSet_none _ tn _ _ k _ _ tbl htbl1 hidxc]
    set dbF := pushEvent (rawWriteField db ro (.s k) value)
      (.evSet tn ⟨1, ro⟩ (.s k) ⟨1, ro⟩ (.s k) (wrapVal (recField db ro k)) value)
      with hdbF
    have htabF : dbF.tables = db.tables := by
      rw [hdbF, tables_pushEvent, tables_rawWriteField]
    have hheapF : dbF.heap = (rawWriteField db ro (.s k) value).heap := by
      rw [hdbF, heap_pushEvent]
    have hlookF : ∀ oid : Nat, oid ≠ ro → alget dbF.heap oid = alget db.heap oid := by
      intro oid hne
      rw [hheapF]
      exact hlook1 oid hne
    have hlookro : alget dbF.heap ro = some (.obj (some u0) (alset fs k value)) := by
      rw [hheapF]
      exact heap_lookup_rawWriteField_s_obj halget k value
    refine ⟨StoreSep_of_tables_eq htabF hsep, ?_⟩
    intro tp htp
    rw [htabF] at htp
    by_cases hnt : tp.1 = tn
    · have htpeq : tp.2 = tbl := by
        have h1 : db.getTable tn = some tp.2 := by
          show alget db.tables tn = some tp.2
          have h0 := alget_of_mem_nodup htp hsep.1
          rw [hnt] at h0
          exact h0
        rw [htbl] at h1
        exact (Option.some_injective _ h1).symm
      rw [htpeq]
      refine TblInv_congr ⟨hA, hknd, hind, hlast, hidxinv⟩ ?_ ?_ ?_
      · intro rp hrp
        by_cases hro : rp.2.oid = ro
        · rw [hro]
          unfold recUid
          rw [hlookro, halget]
        · exact recUid_of_lookup_eq (hlookF _ hro)
      · intro rp hrp
        by_cases hro : rp.2.oid = ro
        · rw [hro]
          unfold RecWF
          rw [hlookro]
          unfold RecWF at hwfro
          rw [halget] at hwfro
          simpa using nodup_keys_alset k value hwfro
        · exact RecWF_of_lookup_eq (hlookF _ hro) (hA rp hrp).2.2.2
      · intro ip hip rp hrp
        by_cases hro : rp.2.oid = ro
        · rw [hro]
          have hnk : ip.1 ≠ k := by
            intro hk
            have := alget_of_mem_nodup hip hind
            rw [hk, hidxc] at this
            exact absurd this (by simp)
          unfold recField
          rw [hlookro, halget]
          dsimp only
          rw [alget_alset_ne _ _ _ _ hnk]
        · exact recField_of_lookup_eq (hlookF _ hro) _
    · exact TblInv_heap_local (htinv tp htp) (hsep_other tp htp hnt) hlookF
  | some idx =>
    have hkmem : (k, idx) ∈ tbl.indices := mem_of_alget hidxc
    have holdref : isRefVal (recField db ro k) = false :=
      (hidxinv (k, idx) hkmem).2.2.2.2 _ hrec
    rw [wrapVal_of_not_ref holdref]
    rw [onUpdateRecord_evSet_some _ tn _ _ k _ _ tbl htbl1 idx hidxc]
    set db1 := rawWriteField db ro (.s k) value with hdb1
    set db2 := pushEvent db1
      (.evSet tn ⟨1, ro⟩ (.s k) ⟨1, ro⟩ (.s k) (recField db ro k) value) with hdb2
    set idx2 := alset (match alget idx (recField db ro k) with
        | some oldSet => alset idx (recField db ro k) (oldSet.erase (⟨1, ro⟩ : Handle))
        | none => idx) value
      (bucketAdd ((alget (match alget idx (recField db ro k) with
        | some oldSet => alset idx (recField db ro k) (oldSet.erase (⟨1, ro⟩ : Handle))
        | none => idx) value).getD []) (⟨1, ro⟩ : Handle)) with hidx2
    have htab2 : db2.tables = db.tables := by
      rw [hdb2, tables_pushEvent, hdb1, tables_rawWriteField]
    have hheap2 : db2.heap = db1.heap := by
      rw [hdb2, heap_pushEvent]
    have hgt2 : db2.getTable tn = some tbl := by
      unfold DB.getTable
      rw [htab2]
      exact htbl
    set tblN : Table := ⟨tbl.records, alset tbl.indices k idx2, tbl.lastUID⟩ with htblN
    set dbF := db2.setTable tn tblN with hdbF
    have hheapF : dbF.heap = db1.heap := by
      rw [hdbF]
      exact hheap2
    have hlookF : ∀ oid : Nat, oid ≠ ro → alget dbF.heap oid = alget db.heap oid := by
      intro oid hne
      rw [hheapF]
      exact hlook1 oid hne
    have hlookro : alget dbF.heap ro = some (.obj (some u0) (alset fs k value)) := by
      rw [hheapF]
      exact heap_lookup_rawWriteField_s_obj halget k value
    have hfieldro : recField dbF ro k = value := by
      unfold recField
      rw [hlookro]
      dsimp only
      rw [alget_alset_self]
      rfl
    have hfieldro_other : ∀ c : String, c ≠ k → recField dbF ro c = recField db ro c := by
      intro c hc
      unfold recField
      rw [hlookro, halget]
      dsimp only
      rw [alget_alset_ne _ _ _ _ hc]
    refine ⟨StoreSep_setTable_same_records (StoreSep_of_tables_eq htab2 hsep) hgt2 rfl, ?_⟩
    intro tp htp
    rw [hdbF] at htp
    unfold DB.setTable at htp
    dsimp only at htp
    rw [htab2] at htp
    rcases mem_alset_cases_nodup hsep.1 htp with htpN | ⟨htpold, htpne⟩
    · rw [htpN]
      refine ⟨?_, hknd, nodup_keys_alset _ _ hind, hlast, ?_⟩
      · intro rp hrp
        obtain ⟨hl0, hu, hne0, hwf⟩ := hA rp hrp
        refine ⟨hl0, ?_, hne0, ?_⟩
        · by_cases hro : rp.2.oid = ro
          · rw [hro]
            have h2 : recUid dbF ro = some u0 := by
              unfold recUid
              rw [hlookro]
            rw [h2]
            rw [hro] at hu
            rw [huid] at hu
            exact hu
          · rw [recUid_of_lookup_eq (hlookF _ hro)]
            exact hu
        · by_cases hro : rp.2.oid = ro
          · rw [hro]
            unfold RecWF
            rw [hlookro]
            unfold RecWF at hwfro
            rw [halget] at hwfro
            simpa using nodup_keys_alset k value hwfro
          · exact RecWF_of_lookup_eq (hlookF _ hro) hwf
      · intro ip hip
        rcases mem_alset_cases_nodup hind hip with hipN | ⟨hipold, hipne⟩
        · rw [hipN]
          dsimp only
          rw [hidx2]
          refine IdxColInv_move hrec rfl (hidxinv (k, idx) hkmem) ?_ rfl hfieldro ?_ hvref
          · intro rp1 h1 rp2 h2 he
            exact (hsep.2 (tn, tbl) htm (tn, tbl) htm rp1 h1 rp2 h2 he).2
          · intro rp hrp hro
            rw [recField_of_lookup_eq (hlookF _ hro)]
        · refine IdxColInv_congr (hidxinv ip hipold) ?_
          intro rp hrp
          by_cases hro : rp.2.oid = ro
          · rw [hro]
            exact hfieldro_other ip.1 hipne
          · exact recField_of_lookup_eq (hlookF _ hro) _
    · exact TblInv_heap_local (htinv tp htpold) (hsep_other tp htpold htpne) hlookF

/-- A top-level field deletion through the observer (the `deleteProperty`
trap on the record proxy) preserves the store invariant; the record moves to
the `undefined` bucket of each index on the deleted column. -/
theorem IdxInv_trapDeleteField {db : DB} {tn : String} {ro : Nat} {k : String}
    (hinv : IdxInv db) {tbl : Table} (htbl : db.getTable tn = some tbl)
    {u0 : Int} (hrec : (u0, (⟨0, ro⟩ : Handle)) ∈ tbl.records) :
    IdxInv (trapDeleteField db tn ro none (⟨0, ro⟩ : Handle) (.s k)) := by
  obtain ⟨hsep, htinv⟩ := hinv
  have htm : (tn, tbl) ∈ db.tables := mem_of_alget htbl
  obtain ⟨hA, hknd, hind, hlast, hidxinv⟩ := htinv (tn, tbl) htm
  have hArec := hA _ hrec
  have huid : recUid db ro = some u0 := hArec.2.1
  obtain ⟨fs, halget⟩ := recUid_some_obj huid
  have hwfro : RecWF db ro := hArec.2.2.2
  have hfsnd : (fs.map Prod.fst).Nodup := by
    unfold RecWF at hwfro
    rw [halget] at hwfro
    exact hwfro
  obtain ⟨hsep_other, hsep_self⟩ := sep_oid_unique hsep htbl hrec
  have hold : rawReadField db ro (.s k) = recField db ro k := rawReadField_s_obj halget k
  have hw0 : wrapH (⟨0, ro⟩ : Handle) = (⟨1, ro⟩ : Handle) := rfl
  unfold trapDeleteField
  dsimp only
  rw [hold, hw0]
  have htbl1 : (rawDeleteField db ro (.s k)).getTable tn = some tbl := by
    rw [getTable_rawDeleteField]
    exact htbl
  have hlook1 : ∀ oid : Nat, oid ≠ ro →
      alget (rawDeleteField db ro (.s k)).heap oid = alget db.heap oid :=
    fun oid hne => heap_lookup_rawDeleteField_ne db ro oid _ hne
  cases hidxc : alget tbl.indices k with
  | none =>
    rw [onUpdateRecord_evDelete_none _ tn _ _ k _ tbl htbl1 hidxc]
    set dbF := pushEvent (rawDeleteField db ro (.s k))
      (.evDelete tn ⟨1, ro⟩ (.s k) ⟨1, ro⟩ (.s k) (wrapVal (recField db ro k)))
      with hdbF
    have htabF : dbF.tables = db.tables := by
      rw [hdbF, tables_pushEvent, tables_rawDeleteField]
    have hheapF : dbF.heap = (rawDeleteField db ro (.s k)).heap := by
      rw [hdbF, heap_pushEvent]
    have hlookF : ∀ oid : Nat, oid ≠ ro → alget dbF.heap oid = alget db.heap oid := by
      intro oid hne
      rw [hheapF]
      exact hlook1 oid hne
    have hlookro : alget dbF.heap ro = some (.obj (some u0) (aldel fs k)) := by
      rw [hheapF]
      exact heap_lookup_rawDeleteField_s_obj halget k
    refine ⟨StoreSep_of_tables_eq htabF hsep, ?_⟩
    intro tp htp
    rw [htabF] at htp
    by_cases hnt : tp.1 = tn
    · have htpeq : tp.2 = tbl := by
        have h1 : db.getTable tn = some tp.2 := by
          show alget db.tables tn = some tp.2
          have h0 := alget_of_mem_nodup htp hsep.1
          rw [hnt] at h0
          exact h0
        rw [htbl] at h1
        exact (Option.some_injective _ h1).symm
      rw [htpeq]
      refine TblInv_congr ⟨hA, hknd, hind, hlast, hidxinv⟩ ?_ ?_ ?_
      · intro rp hrp
        by_cases hro : rp.2.oid = ro
        · rw [hro]
          unfold recUid
          rw [hlookro, halget]
        · exact recUid_of_lookup_eq (hlookF _ hro)
      · intro rp hrp
        by_cases hro : rp.2.oid = ro
        · rw [hro]
          unfold RecWF
          rw [hlookro]
          exact ((aldel_sublist fs k).map Prod.fst).nodup hfsnd
        · exact RecWF_of_lookup_eq (hlookF _ hro) (hA rp hrp).2.2.2
      · intro ip hip rp hrp
        by_cases hro : rp.2.oid = ro
        · rw [hro]
          have hnk : ip.1 ≠ k := by
            intro hk
            have := alget_of_mem_nodup hip hind
            rw [hk, hidxc] at this
            exact absurd this (by simp)
          unfold recField
          rw [hlookro, halget]
          dsimp only
          rw [alget_aldel_ne _ _ _ hnk]
        · exact recField_of_lookup_eq (hlookF _ hro) _
    · exact TblInv_heap_local (htinv tp htp) (hsep_other tp htp hnt) hlookF
  | some idx =>
    have hkmem : (k, idx) ∈ tbl.indices := mem_of_alget hidxc
    have holdref : isRefVal (recField db ro k) = false :=
      (hidxinv (k, idx) hkmem).2.2.2.2 _ hrec
    rw [wrapVal_of_not_ref holdref]
    rw [onUpdateRecord_evDelete_some _ tn _ _ k _ tbl htbl1 idx hidxc]
    set db1 := rawDeleteField db ro (.s k) with hdb1
    set db2 := pushEvent db1
      (.evDelete tn ⟨1, ro⟩ (.s k) ⟨1, ro⟩ (.s k) (recField db ro k)) with hdb2
    set idx2 := alset (match alget idx (recField db ro k) with
        | some oldSet => alset idx (recField db ro k) (oldSet.erase (⟨1, ro⟩ : Handle))
        | none => idx) JSVal.undef
      (bucketAdd ((alget (match alget idx (recField db ro k) with
        | some oldSet => alset idx (recField db ro k) (oldSet.erase (⟨1, ro⟩ : Handle))
        | none => idx) JSVal.undef).getD []) (⟨1, ro⟩ : Handle)) with hidx2
    have htab2 : db2.tables = db.tables := by
      rw [hdb2, tables_pushEvent, hdb1, tables_rawDeleteField]
    have hheap2 : db2.heap = db1.heap := by
      rw [hdb2, heap_pushEvent]
    have hgt2 : db2.getTable tn = some tbl := by
      unfold DB.getTable
      rw [htab2]
      exact htbl
    set tblN : Table := ⟨tbl.records, alset tbl.indices k idx2, tbl.lastUID⟩ with htblN
    set dbF := db2.setTable tn tblN with hdbF
    have hheapF : dbF.heap = db1.heap := by
      rw [hdbF]
      exact hheap2
    have hlookF : ∀ oid : Nat, oid ≠ ro → alget dbF.heap oid = alget db.heap oid := by
      intro oid hne
      rw [hheapF]
      exact hlook1 oid hne
    have hlookro : alget dbF.heap ro = some (.obj (some u0) (aldel fs k)) := by
      rw [hheapF]
      exact heap_lookup_rawDeleteField_s_obj halget k
    have hfieldro : recField dbF ro k = JSVal.undef := by
      unfold recField
      rw [hlookro]
      dsimp only
      rw [alget_aldel_self _ _ hfsnd]
      rfl
    have hfieldro_other : ∀ c : String, c ≠ k → recField dbF ro c = recField db ro c := by
      intro c hc
      unfold recField
      rw [hlookro, halget]
      dsimp only
      rw [alget_aldel_ne _ _ _ hc]
    refine ⟨StoreSep_setTable_same_records (StoreSep_of_tables_eq htab2 hsep) hgt2 rfl, ?_⟩
    intro tp htp
    rw [hdbF] at htp
    unfold DB.setTable at htp
    dsimp only at htp
    rw [htab2] at htp
    rcases mem_alset_cases_nodup hsep.1 htp with htpN | ⟨htpold, htpne⟩
    · rw [htpN]
      refine ⟨?_, hknd, nodup_keys_alset _ _ hind, hlast, ?_⟩
      · intro rp hrp
        obtain ⟨hl0, hu, hne0, hwf⟩ := hA rp hrp
        refine ⟨hl0, ?_, hne0, ?_⟩
        · by_cases hro : rp.2.oid = ro
          · rw [hro]
            have h2 : recUid dbF ro = some u0 := by
              unfold recUid
              rw [hlookro]
            rw [h2]
            rw [hro] at hu
            rw [huid] at hu
            exact hu
          · rw [recUid_of_lookup_eq (hlookF _ hro)]
            exact hu
        · by_cases hro : rp.2.oid = ro
          · rw [hro]
            unfold RecWF
            rw [hlookro]
            exact ((aldel_sublist fs k).map Prod.fst).nodup hfsnd
          · exact RecWF_of_lookup_eq (hlookF _ hro) hwf
      · intro ip hip
        rcases mem_alset_cases_nodup hind hip with hipN | ⟨hipold, hipne⟩
        · rw [hipN]
          dsimp only
          rw [hidx2]
          refine IdxColInv_move hrec rfl (hidxinv (k, idx) hkmem) ?_ rfl hfieldro ?_ rfl
          · intro rp1 h1 rp2 h2 he
            exact (hsep.2 (tn, tbl) htm (tn, tbl) htm rp1 h1 rp2 h2 he).2
          · intro rp hrp hro
            rw [recField_of_lookup_eq (hlookF _ hro)]
        · refine IdxColInv_congr (hidxinv ip hipold) ?_
          intro rp hrp
          by_cases hro : rp.2.oid = ro
          · rw [hro]
            exact hfieldro_other ip.1 hipne
          · exact recField_of_lookup_eq (hlookF _ hro) _
    · exact TblInv_heap_local (htinv tp htpold) (hsep_other tp htpold htpne) hlookF


/-- The common tail of `addRecord` and `setRecord` after a successful table
lookup: reserve the id, write it onto the fresh raw record object, insert it
into the record map and populate each index with the level-1 handle.  Stated
over the post-state term both operations produce. -/
theorem IdxInv_insert_state {db : DB} {tn : String} {ro : Nat} {uid : Int}
    (newLast : Option Int)
    (hinv : IdxInv db) {tbl : Table} (htbl : db.getTable tn = some tbl)
    {u : Option Int} {fs : List (String × JSVal)}
    (hobj : alget db.heap ro = some (.obj u fs))
    (hwf : (fs.map Prod.fst).Nodup)
    (hfresh : ∀ tp ∈ db.tables, ∀ rp ∈ tp.2.records, rp.2.oid ≠ ro)
    (hnoref : ∀ c : String, isRefVal (recField db ro c) = false)
    (huidpos : 0 < uid)
    (hufree : alget tbl.records uid = none)
    (hlastN : match newLast with | none => True | some l => 0 < l) :
    IdxInv (onUpdateRecord
      ((rawWriteField (db.setTable tn { tbl with lastUID := newLast }) ro .uidSym
          (.bigint uid)).setTable tn
        ⟨alset tbl.records uid (⟨0, ro⟩ : Handle),
         tbl.indices.map (fun ip =>
           let v := readThrough (rawWriteField (db.setTable tn
             { tbl with lastUID := newLast }) ro .uidSym (.bigint uid))
             (⟨1, ro⟩ : Handle) ip.1
           if v = .undef then ip
           else (ip.1, alset ip.2 v (bucketAdd ((alget ip.2 v).getD [])
             (⟨1, ro⟩ : Handle)))),
         newLast⟩)
      (.added tn (⟨1, ro⟩ : Handle))) := by
  obtain ⟨hsep, htinv⟩ := hinv
  have htm : (tn, tbl) ∈ db.tables := mem_of_alget htbl
  obtain ⟨hA, hknd, hind, hlast, hidxinv⟩ := htinv (tn, tbl) htm
  set tblA : Table := { tbl with lastUID := newLast } with htblAdef
  set db1 := rawWriteField (db.setTable tn tblA) ro .uidSym (.bigint uid) with hdb1def
  have hobj1 : alget (db.setTable tn tblA).heap ro = some (.obj u fs) := hobj
  have hlook1ro : alget db1.heap ro = some (.obj (some uid) fs) := by
    rw [hdb1def]
    exact heap_lookup_rawWriteField_uidSym_obj hobj1 uid
  have hlook1 : ∀ oid : Nat, oid ≠ ro → alget db1.heap oid = alget db.heap oid := by
    intro oid hne
    rw [hdb1def]
    exact heap_lookup_rawWriteField_ne _ ro oid _ _ hne
  have hfield1 : ∀ c : String, recField db1 ro c = recField db ro c := by
    intro c
    unfold recField
    rw [hlook1ro, hobj]
  have hreadc : ∀ c : String, readThrough db1 (⟨1, ro⟩ : Handle) c = recField db ro c := by
    intro c
    unfold readThrough
    dsimp only
    rw [hfield1 c]
    exact wrapValN_one_of_not_ref (hnoref c)
  set newIdx := tbl.indices.map (fun ip =>
      let v := readThrough db1 (⟨1, ro⟩ : Handle) ip.1
      if v = .undef then ip
      else (ip.1, alset ip.2 v (bucketAdd ((alget ip.2 v).getD []) (⟨1, ro⟩ : Handle))))
    with hnewIdxdef
  set tbl2 : Table := ⟨alset tbl.records uid (⟨0, ro⟩ : Handle), newIdx, newLast⟩
    with htbl2def
  set dbF := onUpdateRecord (db1.setTable tn tbl2) (.added tn ⟨1, ro⟩) with hdbFdef
  have hrec2 : tbl2.records = tbl.records ++ [(uid, (⟨0, ro⟩ : Handle))] := by
    rw [htbl2def]
    exact alset_of_alget_none hufree _
  have htabF : dbF.tables = alset db.tables tn tbl2 := by
    rw [hdbFdef, tables_onUpdateRecord_added]
    show alset db1.tables tn tbl2 = _
    rw [hdb1def, tables_rawWriteField]
    show alset (alset db.tables tn tblA) tn tbl2 = _
    exact alset_alset_self _ _ _ _
  have hheapF : dbF.heap = db1.heap := by
    rw [hdbFdef, heap_onUpdateRecord]
    rfl
  have hlookF : ∀ oid : Nat, oid ≠ ro → alget dbF.heap oid = alget db.heap oid := by
    intro oid hne
    rw [hheapF]
    exact hlook1 oid hne
  have hlookroF : alget dbF.heap ro = some (.obj (some uid) fs) := by
    rw [hheapF]
    exact hlook1ro
  have hfieldF : ∀ c : String, recField dbF ro c = recField db ro c := by
    intro c
    unfold recField
    rw [hlookroF, hobj]
  have hsepF : StoreSep dbF := by
    have h1 : StoreSep (db.setTable tn tbl2) := StoreSep_insert hsep htbl hrec2 hfresh
    refine StoreSep_of_tables_eq ?_ h1
    rw [htabF]
    rfl
  refine ⟨hsepF, ?_⟩
  intro tp htp
  rw [htabF] at htp
  rcases mem_alset_cases_nodup hsep.1 htp with htpN | ⟨htpold, htpne⟩
  · rw [htpN]
    refine ⟨?_, ?_, ?_, ?_, ?_⟩
    · intro rp hrp
      rw [hrec2] at hrp
      rcases List.mem_append.mp hrp with h | h
      · obtain ⟨hl0, hu, hne0, hwfr⟩ := hA rp h
        have hro : rp.2.oid ≠ ro := hfresh (tn, tbl) htm rp h
        exact ⟨hl0, by rw [recUid_of_lookup_eq (hlookF _ hro)]; exact hu, hne0,
          RecWF_of_lookup_eq (hlookF _ hro) hwfr⟩
      · rw [List.mem_singleton.mp h]
        refine ⟨rfl, ?_, by omega, ?_⟩
        · show recUid dbF ro = some uid
          unfold recUid
          rw [hlookroF]
        · show RecWF dbF ro
          unfold RecWF
          rw [hlookroF]
          exact hwf
    · show ((alset tbl.records uid (⟨0, ro⟩ : Handle)).map Prod.fst).Nodup
      exact nodup_keys_alset _ _ hknd
    · show (newIdx.map Prod.fst).Nodup
      rw [hnewIdxdef]
      rw [map_fst_map_of_fst_eq]
      · exact hind
      · intro p
        dsimp only
        split <;> rfl
    · exact hlastN
    · intro ip hip
      rw [htbl2def] at hip
      dsimp only at hip
      rw [hnewIdxdef] at hip
      obtain ⟨ip0, hip0, hfeq⟩ := List.mem_map.mp hip
      show IdxColInv dbF (alset tbl.records uid (⟨0, ro⟩ : Handle)) ip.1 ip.2
      rw [← hfeq]
      dsimp only
      rw [hreadc ip0.1]
      have hins := IdxColInv_insert (hidxinv ip0 hip0)
        (hfresh (tn, tbl) htm)
        (fun rp hrp => recField_of_lookup_eq (hlookF _ (hfresh (tn, tbl) htm rp hrp)) _)
        (hfieldF ip0.1) (hnoref ip0.1) hufree
      by_cases hv : recField db ro ip0.1 = .undef
      · rw [if_pos hv]
        rw [if_pos hv] at hins
        exact hins
      · rw [if_neg hv]
        rw [if_neg hv] at hins
        exact hins
  · exact TblInv_heap_local (htinv tp htpold) (hfresh tp htpold) hlookF

/-- `addRecord` of a fresh raw record object (fresh heap id, fresh reserved
id, primitive column values) preserves the store invariant, and returns the
level-1 observer handle. -/
theorem IdxInv_addRecord {db : DB} {tn : String} {ro : Nat} (hinv : IdxInv db)
    {tbl : Table} (htbl : db.getTable tn = some tbl)
    {u : Option Int} {fs : List (String × JSVal)}
    (hobj : alget db.heap ro = some (.obj u fs))
    (hwf : (fs.map Prod.fst).Nodup)
    (hfresh : ∀ tp ∈ db.tables, ∀ rp ∈ tp.2.records, rp.2.oid ≠ ro)
    (hnoref : ∀ c : String, isRefVal (recField db ro c) = false)
    (hufree : alget tbl.records (getNextUID tbl) = none)
    {db2 : DB} {r : Handle}
    (hok : addRecord db tn ⟨0, ro⟩ true = .ok (db2, r)) :
    IdxInv db2 ∧ r = ⟨1, ro⟩ := by
  have hlast : match tbl.lastUID with | none => True | some l => 0 < l :=
    ((hinv.2 (tn, tbl) (mem_of_alget htbl)).2.2.2.1)
  have huidpos : 0 < getNextUID tbl := getNextUID_pos tbl hlast
  rw [addRecord_eq_of_some db tn ⟨0, ro⟩ true tbl htbl rfl] at hok
  dsimp only at hok
  simp only [if_true, Except.ok.injEq, Prod.mk.injEq] at hok
  obtain ⟨hdb, hr⟩ := hok
  subst hdb
  subst hr
  refine ⟨?_, rfl⟩
  rw [show wrapH (⟨0, ro⟩ : Handle) = (⟨1, ro⟩ : Handle) from rfl]
  exact IdxInv_insert_state (some (getNextUID tbl)) hinv htbl hobj hwf hfresh hnoref
    huidpos hufree huidpos

/-- `setRecord` of a fresh raw record object at a fresh positive identifier
preserves the store invariant, and returns the level-1 observer handle. -/
theorem IdxInv_setRecord {db : DB} {tn : String} {ro : Nat} {uid : Int} (hinv : IdxInv db)
    {tbl : Table} (htbl : db.getTable tn = some tbl)
    {u : Option Int} {fs : List (String × JSVal)}
    (hobj : alget db.heap ro = some (.obj u fs))
    (hwf : (fs.map Prod.fst).Nodup)
    (hfresh : ∀ tp ∈ db.tables, ∀ rp ∈ tp.2.records, rp.2.oid ≠ ro)
    (hnoref : ∀ c : String, isRefVal (recField db ro c) = false)
    (huidpos : 0 < uid)
    (hufree : alget tbl.records uid = none)
    {db2 : DB} {r : Handle}
    (hok : setRecord db tn ⟨0, ro⟩ uid true = .ok (db2, r)) :
    IdxInv db2 ∧ r = ⟨1, ro⟩ := by
  have hlast : match tbl.lastUID with | none => True | some l => 0 < l :=
    ((hinv.2 (tn, tbl) (mem_of_alget htbl)).2.2.2.1)
  rw [setRecord_eq_of_some db tn ⟨0, ro⟩ uid true tbl htbl rfl] at hok
  dsimp only at hok
  simp only [if_true, Except.ok.injEq, Prod.mk.injEq] at hok
  obtain ⟨hdb, hr⟩ := hok
  subst hdb
  subst hr
  refine ⟨?_, rfl⟩
  rw [show wrapH (⟨0, ro⟩ : Handle) = (⟨1, ro⟩ : Handle) from rfl]
  refine IdxInv_insert_state _ hinv htbl hobj hwf hfresh hnoref huidpos hufree ?_
  by_cases h : (match tbl.lastUID with
      | none => true
      | some l => decide (l = 0 ∨ l < uid)) = true
  · rw [if_pos h]
    exact huidpos
  · rw [if_neg h]
    exact hlast

theorem alget_isSome_of_mem_keys {α β : Type} [DecidableEq α] {l : List (α × β)} {k : α}
    (h : k ∈ l.map Prod.fst) : (alget l k).isSome = true := by
  induction l with
  | nil => simp at h
  | cons p ps ih =>
    by_cases hp : p.1 = k
    · simp [alget, hp]
    · rw [List.map_cons] at h
      rcases List.mem_cons.mp h with h1 | h1
      · exact absurd h1.symm hp
      · rw [alget, if_neg hp]
        exact ih h1

/-- The `removeRecord` index cleanup for one column: the removed record's
level-1 handle is erased from the bucket of its current value when that value
is defined and the bucket exists; the per-column invariant carries over to
the shrunk record map. -/
theorem IdxColInv_remove {db : DB} {records : List (Int × Handle)} {c : String}
    {idx : List (JSVal × List Handle)} (hcol : IdxColInv db records c idx)
    (hkeys : (records.map Prod.fst).Nodup)
    (hsep1 : ∀ rp1 ∈ records, ∀ rp2 ∈ records, rp1.2.oid = rp2.2.oid → rp1 = rp2)
    {u0 : Int} {ro : Nat} (hrec : (u0, (⟨0, ro⟩ : Handle)) ∈ records) :
    IdxColInv db (aldel records u0) c
      (if recField db ro c ≠ .undef ∧ (alget idx (recField db ro c)).isSome then
         alset idx (recField db ro c)
           (((alget idx (recField db ro c)).getD []).erase (⟨1, ro⟩ : Handle))
       else idx) := by
  obtain ⟨h1, h2, h3, h4, h5⟩ := hcol
  have halgetrec : alget records u0 = some (⟨0, ro⟩ : Handle) :=
    alget_of_mem_nodup hrec hkeys
  have hrem : ∀ rp ∈ aldel records u0, rp ∈ records ∧ rp.2.oid ≠ ro := by
    intro rp hrp
    have hmem := mem_aldel hrp
    refine ⟨hmem, ?_⟩
    intro ho
    have hrpe : rp = (u0, (⟨0, ro⟩ : Handle)) := hsep1 rp hmem _ hrec ho
    have hkey : (u0 : Int) ∈ (aldel records u0).map Prod.fst := by
      rw [hrpe] at hrp
      exact List.mem_map_of_mem Prod.fst hrp
    have hnone := alget_aldel_self records u0 hkeys
    have := alget_isSome_of_mem_keys hkey
    rw [hnone] at this
    simp at this
  have hmem_of_ne : ∀ rp ∈ records, rp.2.oid ≠ ro → rp ∈ aldel records u0 := by
    intro rp hmem hro
    apply mem_aldel_of_mem_ne hmem
    intro hk
    apply hro
    have h1' : alget records rp.1 = some rp.2 := alget_of_mem_nodup hmem hkeys
    rw [hk, halgetrec] at h1'
    have h2' : (⟨0, ro⟩ : Handle) = rp.2 := Option.some_injective _ h1'
    rw [← h2']
  by_cases hcond : recField db ro c ≠ .undef ∧ (alget idx (recField db ro c)).isSome
  · rw [if_pos hcond]
    obtain ⟨hvne, hvsome⟩ := hcond
    cases hb : alget idx (recField db ro c) with
    | none => rw [hb] at hvsome; simp at hvsome
    | some b0 =>
      simp only [Option.getD_some]
      have hb0props := h2 (recField db ro c, b0) (mem_of_alget hb)
      refine ⟨nodup_keys_alset _ _ h1, ?_, ?_, ?_, ?_⟩
      · intro bp hbp
        rcases mem_alset_cases_nodup h1 hbp with h | ⟨hmem, _⟩
        · subst h
          dsimp only
          exact ⟨hb0props.1.erase _,
            fun hb' hhb' => hb0props.2 hb' (List.mem_of_mem_erase hhb')⟩
        · exact h2 bp hmem
      · intro bp hbp hne hb' hhb'
        rcases mem_alset_cases_nodup h1 hbp with h | ⟨hmem, hnev⟩
        · subst h
          dsimp only at hhb' ⊢
          have hmemb0 : hb' ∈ b0 := List.mem_of_mem_erase hhb'
          obtain ⟨⟨rp', hrp', hoid⟩, hfield⟩ :=
            h3 (recField db ro c, b0) (mem_of_alget hb) hne hb' hmemb0
          have hro : hb'.oid ≠ ro := by
            intro ho
            have hbeq : hb' = (⟨1, ro⟩ : Handle) :=
              handle_eq_one (hb0props.2 hb' hmemb0) ho
            rw [hbeq] at hhb'
            exact (hb0props.1.mem_erase_iff.mp hhb').1 rfl
          refine ⟨⟨rp', hmem_of_ne rp' hrp' (by rw [hoid]; exact hro), hoid⟩, hfield⟩
        · obtain ⟨⟨rp', hrp', hoid⟩, hfield⟩ := h3 bp hmem hne hb' hhb'
          have hro : hb'.oid ≠ ro := by
            intro ho
            apply hnev
            rw [← hfield, ho]
          refine ⟨⟨rp', hmem_of_ne rp' hrp' (by rw [hoid]; exact hro), hoid⟩, hfield⟩
      · intro rp hrp hne
        obtain ⟨hmem, hro⟩ := hrem rp hrp
        have hpre := h4 rp hmem hne
        by_cases hw : recField db rp.2.oid c = recField db ro c
        · rw [hw, alget_alset_self]
          simp only [Option.getD_some]
          rw [hw, hb] at hpre
          simp only [Option.getD_some] at hpre
          apply (List.mem_erase_of_ne ?_).mpr hpre
          intro hcontr
          apply hro
          simpa using congrArg Handle.oid hcontr
        · rw [alget_alset_ne _ _ _ _ hw]
          exact hpre
      · intro rp hrp
        exact h5 rp (hrem rp hrp).1
  · rw [if_neg hcond]
    by_cases hv0u : recField db ro c = .undef
    · refine ⟨h1, h2, ?_, ?_, ?_⟩
      · intro bp hbp hne hb' hhb'
        obtain ⟨⟨rp', hrp', hoid⟩, hfield⟩ := h3 bp hbp hne hb' hhb'
        have hro : hb'.oid ≠ ro := by
          intro ho
          apply hne
          rw [← hfield, ho, hv0u]
        refine ⟨⟨rp', hmem_of_ne rp' hrp' (by rw [hoid]; exact hro), hoid⟩, hfield⟩
      · intro rp hrp hne
        exact h4 rp (hrem rp hrp).1 hne
      · intro rp hrp
        exact h5 rp (hrem rp hrp).1
    · exfalso
      have hnone : alget idx (recField db ro c) = none := by
        cases hq : alget idx (recField db ro c) with
        | none => rfl
        | some b =>
          exfalso
          apply hcond
          exact ⟨hv0u, by rw [hq]; rfl⟩
      have := h4 (u0, (⟨0, ro⟩ : Handle)) hrec (by exact hv0u)
      rw [hnone] at this
      simp at this

/-- `removeRecord` called with the level-1 observer handle of a stored
record preserves the store invariant. -/
theorem IdxInv_removeRecord {db : DB} {tn : String} {ro : Nat} (hinv : IdxInv db)
    {tbl : Table} (htbl : db.getTable tn = some tbl)
    {u0 : Int} (hrec : (u0, (⟨0, ro⟩ : Handle)) ∈ tbl.records) :
    IdxInv (removeRecord db tn ⟨1, ro⟩) := by
  obtain ⟨hsep, htinv⟩ := hinv
  have htm : (tn, tbl) ∈ db.tables := mem_of_alget htbl
  obtain ⟨hA, hknd, hind, hlast, hidxinv⟩ := htinv (tn, tbl) htm
  have hArec := hA _ hrec
  have huid : recUid db ro = some u0 := hArec.2.1
  have hne0 : u0 ≠ 0 := hArec.2.2.1
  have halgetrec : alget tbl.records u0 = some (⟨0, ro⟩ : Handle) :=
    alget_of_mem_nodup hrec hknd
  have hsep1 : ∀ rp1 ∈ tbl.records, ∀ rp2 ∈ tbl.records,
      rp1.2.oid = rp2.2.oid → rp1 = rp2 := by
    intro rp1 h1 rp2 h2 he
    exact (hsep.2 (tn, tbl) htm (tn, tbl) htm rp1 h1 rp2 h2 he).2
  unfold removeRecord
  rw [htbl]
  dsimp only
  rw [show readUidThrough db (⟨1, ro⟩ : Handle) = some u0 from huid]
  dsimp only
  rw [if_neg hne0]
  rw [if_neg (show ¬((alget tbl.records u0).isNone = true) from by rw [halgetrec]; simp)]
  set newIdx := tbl.indices.map (fun ip =>
      let v := readThrough db (⟨1, ro⟩ : Handle) ip.1
      if v ≠ JSVal.undef ∧ (alget ip.2 v).isSome then
        (ip.1, alset ip.2 v (((alget ip.2 v).getD []).erase (⟨1, ro⟩ : Handle)))
      else ip) with hnewIdxdef
  set tblR : Table := { tbl with records := aldel tbl.records u0, indices := newIdx }
    with htblRdef
  set dbF := onUpdateRecord (db.setTable tn tblR) (.removed tn ⟨1, ro⟩) with hdbFdef
  have hheapF : dbF.heap = db.heap := by
    rw [hdbFdef, heap_onUpdateRecord]
    rfl
  have htabF : dbF.tables = alset db.tables tn tblR := by
    rw [hdbFdef, tables_onUpdateRecord_removed]
    rfl
  have hsub : ∀ rp ∈ tblR.records, rp ∈ tbl.records := by
    intro rp hrp
    rw [htblRdef] at hrp
    exact mem_aldel hrp
  have hsepF : StoreSep dbF := by
    have h1 : StoreSep (db.setTable tn tblR) :=
      StoreSep_setTable_records_sub hsep htbl hsub
    refine StoreSep_of_tables_eq ?_ h1
    rw [htabF]
    rfl
  refine ⟨hsepF, ?_⟩
  intro tp htp
  rw [htabF] at htp
  rcases mem_alset_cases_nodup hsep.1 htp with htpN | ⟨htpold, _⟩
  · rw [htpN]
    refine TblInv_of_heap_eq hheapF ?_
    refine ⟨?_, ?_, ?_, ?_, ?_⟩
    · intro rp hrp
      exact hA rp (hsub rp hrp)
    · show ((aldel tbl.records u0).map Prod.fst).Nodup
      exact ((aldel_sublist tbl.records u0).map Prod.fst).nodup hknd
    · show (newIdx.map Prod.fst).Nodup
      rw [hnewIdxdef]
      rw [map_fst_map_of_fst_eq]
      · exact hind
      · intro p
        dsimp only
        split <;> rfl
    · exact hlast
    · intro ip hip
      rw [htblRdef] at hip
      dsimp only at hip
      rw [hnewIdxdef] at hip
      obtain ⟨ip0, hip0, hfeq⟩ := List.mem_map.mp hip
      show IdxColInv db (aldel tbl.records u0) ip.1 ip.2
      rw [← hfeq]
      dsimp only
      have hread : readThrough db (⟨1, ro⟩ : Handle) ip0.1 = recField db ro ip0.1 := by
        unfold readThrough
        dsimp only
        exact wrapValN_one_of_not_ref ((hidxinv ip0 hip0).2.2.2.2 _ hrec)
      rw [hread]
      have hcr := IdxColInv_remove (hidxinv ip0 hip0) hknd hsep1 hrec
      by_cases hc : recField db ro ip0.1 ≠ JSVal.undef ∧
          (alget ip0.2 (recField db ro ip0.1)).isSome
      · rw [if_pos hc]
        rw [if_pos hc] at hcr
        exact hcr
      · rw [if_neg hc]
        rw [if_neg hc] at hcr
        exact hcr
  · exact TblInv_of_heap_eq hheapF (htinv tp htpold)

/-- `addIndex` on a table that holds no records yet preserves the store
invariant (the new index starts with no buckets). -/
theorem IdxInv_addIndex {db : DB} {tn c : String} (hinv : IdxInv db)
    {tbl : Table} (htbl : db.getTable tn = some tbl) (hempty : tbl.records = []) :
    IdxInv (addIndex db tn c) := by
  unfold addIndex
  rw [htbl]
  dsimp only
  by_cases hs : (alget tbl.indices c).isSome
  · rw [if_pos hs]
    exact hinv
  · rw [if_neg hs]
    rw [hempty]
    dsimp only [List.foldl]
    obtain ⟨hsep, htinv⟩ := hinv
    have htm : (tn, tbl) ∈ db.tables := mem_of_alget htbl
    obtain ⟨hA, hknd, hind, hlast, hidxinv⟩ := htinv (tn, tbl) htm
    refine ⟨StoreSep_setTable_same_records hsep htbl hempty.symm, ?_⟩
    intro tp htp
    unfold DB.setTable at htp
    dsimp only at htp
    rcases mem_alset_cases_nodup hsep.1 htp with htpN | ⟨htpold, _⟩
    · rw [htpN]
      refine TblInv_of_heap_eq (by rfl) ?_
      refine ⟨by simp, by simp, ?_, hlast, ?_⟩
      · show ((alset tbl.indices c []).map Prod.fst).Nodup
        exact nodup_keys_alset _ _ hind
      · intro ip hip
        rcases mem_alset_cases_nodup hind hip with hipN | ⟨hipold, _⟩
        · rw [hipN]
          exact ⟨by simp, by simp, by simp, by simp, by simp⟩
        · have hcol := hidxinv ip hipold
          rw [hempty] at hcol
          exact hcol
    · exact TblInv_of_heap_eq (by rfl) (htinv tp htpold)

/-- Claim C3 (corrected): `addRecord` and `setRecord` of a fresh raw record
object at a fresh identifier, `removeRecord` of a stored record's observer
handle, top-level field assignment and deletion through the observer, and
`addIndex` on a still-empty table each preserve the store invariant `IdxInv`;
under it, a record with a defined value at an indexed column is a member of
exactly that value's bucket and of no other defined-value bucket.  The
claim's final clause fails as stated: a record whose value at the column is
`undefined` can sit in the index's `undefined` value-bucket (field deletion
files it there), so it is not "a member of no value-bucket". -/
theorem index_invariant_spec :
    (∀ (db : DB) (tn : String) (ro : Nat) (tbl : Table) (u : Option Int)
        (fs : List (String × JSVal)) (db2 : DB) (r : Handle),
      IdxInv db → db.getTable tn = some tbl →
      alget db.heap ro = some (.obj u fs) → (fs.map Prod.fst).Nodup →
      (∀ tp ∈ db.tables, ∀ rp ∈ tp.2.records, rp.2.oid ≠ ro) →
      (∀ c : String, isRefVal (recField db ro c) = false) →
      alget tbl.records (getNextUID tbl) = none →
      addRecord db tn ⟨0, ro⟩ true = .ok (db2, r) → IdxInv db2 ∧ r = ⟨1, ro⟩) ∧
    (∀ (db : DB) (tn : String) (ro : Nat) (uid : Int) (tbl : Table) (u : Option Int)
        (fs : List (String × JSVal)) (db2 : DB) (r : Handle),
      IdxInv db → db.getTable tn = some tbl →
      alget db.heap ro = some (.obj u fs) → (fs.map Prod.fst).Nodup →
      (∀ tp ∈ db.tables, ∀ rp ∈ tp.2.records, rp.2.oid ≠ ro) →
      (∀ c : String, isRefVal (recField db ro c) = false) →
      0 < uid → alget tbl.records uid = none →
      setRecord db tn ⟨0, ro⟩ uid true = .ok (db2, r) → IdxInv db2 ∧ r = ⟨1, ro⟩) ∧
    (∀ (db : DB) (tn : String) (ro : Nat) (tbl : Table) (u0 : Int),
      IdxInv db → db.getTable tn = some tbl → (u0, (⟨0, ro⟩ : Handle)) ∈ tbl.records →
      IdxInv (removeRecord db tn ⟨1, ro⟩)) ∧
    (∀ (db : DB) (tn : String) (ro : Nat) (k : String) (value : JSVal) (tbl : Table)
        (u0 : Int),
      IdxInv db → db.getTable tn = some tbl → (u0, (⟨0, ro⟩ : Handle)) ∈ tbl.records →
      isRefVal value = false →
      IdxInv (trapSetField db tn ro none ⟨0, ro⟩ (.s k) value)) ∧
    (∀ (db : DB) (tn : String) (ro : Nat) (k : String) (tbl : Table) (u0 : Int),
      IdxInv db → db.getTable tn = some tbl → (u0, (⟨0, ro⟩ : Handle)) ∈ tbl.records →
      IdxInv (trapDeleteField db tn ro none ⟨0, ro⟩ (.s k))) ∧
    (∀ (db : DB) (tn c : String) (tbl : Table),
      IdxInv db → db.getTable tn = some tbl → tbl.records = [] →
      IdxInv (addIndex db tn c)) ∧
    (∀ (db : DB) (tn : String) (tbl : Table) (ro : Nat) (u0 : Int) (c : String)
        (idx : List (JSVal × List Handle)),
      IdxInv db → db.getTable tn = some tbl → (u0, (⟨0, ro⟩ : Handle)) ∈ tbl.records →
      alget tbl.indices c = some idx →
      (recField db ro c ≠ .undef →
        (⟨1, ro⟩ : Handle) ∈ bucketOf db tn c (recField db ro c)) ∧
      (∀ w : JSVal, w ≠ .undef → w ≠ recField db ro c →
        (⟨1, ro⟩ : Handle) ∉ bucketOf db tn c w)) := by
  refine ⟨?_, ?_, ?_, ?_, ?_, ?_, ?_⟩
  · intro db tn ro tbl u fs db2 r hinv htbl hobj hwf hfresh hnoref hufree hok
    exact IdxInv_addRecord hinv htbl hobj hwf hfresh hnoref hufree hok
  · intro db tn ro uid tbl u fs db2 r hinv htbl hobj hwf hfresh hnoref hpos hufree hok
    exact IdxInv_setRecord hinv htbl hobj hwf hfresh hnoref hpos hufree hok
  · intro db tn ro tbl u0 hinv htbl hrec
    exact IdxInv_removeRecord hinv htbl hrec
  · intro db tn ro k value tbl u0 hinv htbl hrec hvref
    exact IdxInv_trapSetField hinv htbl hrec hvref
  · intro db tn ro k tbl u0 hinv htbl hrec
    exact IdxInv_trapDeleteField hinv htbl hrec
  · intro db tn c tbl hinv htbl hempty
    exact IdxInv_addIndex hinv htbl hempty
  · intro db tn tbl ro u0 c idx hinv htbl hrec hidx
    have hcol : IdxColInv db tbl.records c idx :=
      (hinv.2 (tn, tbl) (mem_of_alget htbl)).2.2.2.2 (c, idx) (mem_of_alget hidx)
    constructor
    · intro hne
      have hcomp := hcol.2.2.2.1 (u0, (⟨0, ro⟩ : Handle)) hrec hne
      unfold bucketOf
      rw [htbl]
      dsimp only
      rw [hidx]
      exact hcomp
    · intro w hwne hwro hmem
      unfold bucketOf at hmem
      rw [htbl] at hmem
      dsimp only at hmem
      rw [hidx] at hmem
      dsimp only at hmem
      cases hq : alget idx w with
      | none =>
        rw [hq] at hmem
        simp at hmem
      | some b =>
        rw [hq] at hmem
        simp only [Option.getD_some] at hmem
        have hf := (hcol.2.2.1 (w, b) (mem_of_alget hq) hwne _ hmem).2
        exact hwro hf.symm

/-- The store `c3db`: one table `t` holding one record `{c: 1}` (heap id 0,
identifier 1) and an index on `c` whose bucket for `1` holds the record's
level-1 observer handle. -/
def c3db : DB :=
  ⟨[("t", ⟨[(1, ⟨0, 0⟩)], [("c", [(.num 1, [⟨1, 0⟩])])], some 1⟩)],
   [(0, .obj (some 1) [("c", .num 1)])], []⟩

/-- Counterexample to claim C3 as stated: deleting the indexed field `c`
through the observer leaves the record's value at `c` undefined, yet the
record remains a member of a value-bucket of the index on `c` — the bucket
keyed by `undefined`. -/
theorem index_undefined_bucket_counterexample :
    recField (trapDeleteField c3db "t" 0 none ⟨0, 0⟩ (.s "c")) 0 "c" = .undef ∧
    (⟨1, 0⟩ : Handle) ∈
      bucketOf (trapDeleteField c3db "t" 0 none ⟨0, 0⟩ (.s "c")) "t" "c" .undef := by
  decide

/-- Witness for C3 at a concrete input: `c3db` satisfies the invariant, and
a field assignment through the observer preserves it. -/
theorem index_invariant_spec_witness :
    IdxInv c3db ∧
    IdxInv (trapSetField c3db "t" 0 none ⟨0, 0⟩ (.s "c") (.num 2)) :=
  ⟨by decide, index_invariant_spec.2.2.2.1 c3db "t" 0 "c" (.num 2)
    ⟨[(1, ⟨0, 0⟩)], [("c", [(.num 1, [⟨1, 0⟩])])], some 1⟩ 1
    (by decide) rfl (by decide) rfl⟩

/-- Modelled from the claim's words (not from the source): the full linear
scan — `getAllRecords` followed by a strict-equality filter on the raw
column value — that claim C2 asserts `getRecordsByColumn` is equivalent
to. -/
def specScanByColumn (db : DB) (tn c : String) (v : JSVal) (wrapped : Bool) :
    List Handle :=
  match getAllRecords db tn with
  | .error _ => []
  | .ok hs =>
    (hs.filter (fun h => recField db h.oid c = v)).map
      (fun h => if wrapped then wrapH h else h)

/-- Claim C2 (corrected): on a store satisfying the invariant, for every
defined lookup value the indexed bucket lookup and the linear scan of
`getRecordsByColumn` return the same set of records (equal heap-id sets,
both duplicate-free).  At `v = undefined` the two paths disagree — see the
counterexample — so the equivalence holds only for defined values. -/
theorem getRecordsByColumn_index_scan_agree (db : DB) (tn c : String) (v : JSVal)
    (w : Bool) (hinv : IdxInv db) (tbl : Table) (htbl : db.getTable tn = some tbl)
    (hv : v ≠ .undef) :
    ((getRecordsByColumn db tn c v w).map Handle.oid).Nodup ∧
    ((specScanByColumn db tn c v w).map Handle.oid).Nodup ∧
    (∀ o : Nat, o ∈ (getRecordsByColumn db tn c v w).map Handle.oid ↔
      o ∈ (specScanByColumn db tn c v w).map Handle.oid) := by
  obtain ⟨hsep, htinv⟩ := hinv
  have htm : (tn, tbl) ∈ db.tables := mem_of_alget htbl
  obtain ⟨hA, hknd, hind, hlast, hidxinv⟩ := htinv (tn, tbl) htm
  have hsep1 : ∀ rp1 ∈ tbl.records, ∀ rp2 ∈ tbl.records,
      rp1.2.oid = rp2.2.oid → rp1 = rp2 :=
    fun rp1 h1 rp2 h2 he => (hsep.2 (tn, tbl) htm (tn, tbl) htm rp1 h1 rp2 h2 he).2
  have hroid : ((tbl.records.map (fun rp => rp.2)).map Handle.oid).Nodup := by
    rw [List.map_map]
    apply List.Nodup.map_on
    · intro x hx y hy he
      exact hsep1 x hx y hy he
    · exact List.Nodup.of_map Prod.fst hknd
  have hwrapA : ∀ l : List Handle,
      (if w then l.map wrapH else l).map Handle.oid = l.map Handle.oid := by
    intro l
    cases w
    · rfl
    · rw [if_pos rfl, List.map_map]
      exact List.map_congr_left (fun h _ => rfl)
  have hwrapB : ∀ l : List Handle,
      (l.map (fun h => if w then wrapH h else h)).map Handle.oid
        = l.map Handle.oid := by
    intro l
    rw [List.map_map]
    apply List.map_congr_left
    intro h _
    cases w
    · rfl
    · rfl
  unfold getRecordsByColumn specScanByColumn getAllRecords
  rw [htbl]
  dsimp only
  rw [hwrapA, hwrapB]
  have hscan_nd : (((tbl.records.map (fun rp => rp.2)).filter
      (fun h => recField db h.oid c = v)).map Handle.oid).Nodup :=
    ((List.filter_sublist _).map Handle.oid).nodup hroid
  have hscan_mem : ∀ o : Nat,
      (o ∈ ((tbl.records.map (fun rp => rp.2)).filter
        (fun h => recField db h.oid c = v)).map Handle.oid) ↔
      ∃ rp ∈ tbl.records, recField db rp.2.oid c = v ∧ rp.2.oid = o := by
    intro o
    constructor
    · intro hmem
      obtain ⟨h, hh, ho⟩ := List.mem_map.mp hmem
      obtain ⟨hm, hp⟩ := List.mem_filter.mp hh
      obtain ⟨rp, hrp, hrpe⟩ := List.mem_map.mp hm
      refine ⟨rp, hrp, ?_, ?_⟩
      · rw [hrpe]
        exact of_decide_eq_true hp
      · rw [hrpe]
        exact ho
    · rintro ⟨rp, hrp, hf, ho⟩
      apply List.mem_map.mpr
      refine ⟨rp.2, ?_, ho⟩
      apply List.mem_filter.mpr
      exact ⟨List.mem_map_of_mem _ hrp, decide_eq_true hf⟩
  cases hq : alget tbl.indices c with
  | none =>
    exact ⟨hscan_nd, hscan_nd, fun o => Iff.rfl⟩
  | some idx =>
    dsimp only
    have hcol : IdxColInv db tbl.records c idx := hidxinv (c, idx) (mem_of_alget hq)
    cases hbv : alget idx v with
    | none =>
      refine ⟨by simp, hscan_nd, ?_⟩
      intro o
      rw [hscan_mem o]
      simp only [Option.getD_none, List.map_nil, List.not_mem_nil, false_iff]
      rintro ⟨rp, hrp, hf, ho⟩
      have hc := hcol.2.2.2.1 rp hrp (by rw [hf]; exact hv)
      rw [hf, hbv] at hc
      simp at hc
    | some b =>
      simp only [Option.getD_some]
      have hbp := hcol.2.1 (v, b) (mem_of_alget hbv)
      refine ⟨?_, hscan_nd, ?_⟩
      · apply List.Nodup.map_on
        · intro x hx y hy he
          rw [handle_eq_one (hbp.2 x hx) rfl, handle_eq_one (hbp.2 y hy) rfl, he]
        · exact hbp.1
      · intro o
        rw [hscan_mem o]
        constructor
        · intro hmem
          obtain ⟨hb, hhb, ho⟩ := List.mem_map.mp hmem
          obtain ⟨⟨rp, hrp, hoid⟩, hfield⟩ :=
            hcol.2.2.1 (v, b) (mem_of_alget hbv) hv hb hhb
          refine ⟨rp, hrp, ?_, ?_⟩
          · rw [hoid]
            exact hfield
          · rw [hoid]
            exact ho
        · rintro ⟨rp, hrp, hf, ho⟩
          have hc := hcol.2.2.2.1 rp hrp (by rw [hf]; exact hv)
          rw [hf, hbv] at hc
          simp only [Option.getD_some] at hc
          exact List.mem_map.mpr ⟨⟨1, rp.2.oid⟩, hc, ho⟩

/-- The store `c2db`: one table `t` with an index on `c` and one record
`{d: 1}` that has no value at `c`. -/
def c2db : DB :=
  ⟨[("t", ⟨[(1, ⟨0, 0⟩)], [("c", [])], some 1⟩)],
   [(0, .obj (some 1) [("d", .num 1)])], []⟩

/-- Counterexample to claim C2 as stated: at `v = undefined` the indexed
path returns the (empty) `undefined` bucket while the linear scan finds the
record whose column reads back `undefined`. -/
theorem getRecordsByColumn_undef_mismatch :
    getRecordsByColumn c2db "t" "c" .undef false = [] ∧
    specScanByColumn c2db "t" "c" .undef false = [⟨0, 0⟩] := by
  decide

/-- Witness for C2 at a concrete input. -/
theorem getRecordsByColumn_index_scan_agree_witness :
    IdxInv c2db ∧
    (((getRecordsByColumn c2db "t" "c" (.num 1) true).map Handle.oid).Nodup ∧
     ((specScanByColumn c2db "t" "c" (.num 1) true).map Handle.oid).Nodup ∧
     (∀ o : Nat, o ∈ (getRecordsByColumn c2db "t" "c" (.num 1) true).map Handle.oid ↔
       o ∈ (specScanByColumn c2db "t" "c" (.num 1) true).map Handle.oid)) :=
  ⟨by decide, getRecordsByColumn_index_scan_agree c2db "t" "c" (.num 1) true
    (by decide) ⟨[(1, ⟨0, 0⟩)], [("c", [])], some 1⟩ rfl (by decide)⟩

/-! ## Claim C5: the codec round trip -/

/-- Well-formed serializable values: no raw symbols, references are level-0
and live in the heap. -/
def ValWF (H : List (Nat × HObj)) : JSVal → Prop
  | .sym _ => False
  | .ref h => h.level = 0 ∧ (alget H h.oid).isSome
  | _ => True

/-- Well-formed serializable heap objects: plain data (no record ids),
duplicate-free object keys, Set elements and Map keys, and well-formed
contained values. -/
def ObjWF (H : List (Nat × HObj)) : HObj → Prop
  | .obj u fs => u = none ∧ (fs.map Prod.fst).Nodup ∧ ∀ p ∈ fs, ValWF H p.2
  | .arr es => ∀ v ∈ es, ValWF H v
  | .hset es => es.Nodup ∧ ∀ v ∈ es, ValWF H v
  | .hmap es => (es.map Prod.fst).Nodup ∧ ∀ p ∈ es, ValWF H p.1 ∧ ValWF H p.2
  | .date _ => True

/-- A well-formed serializable heap. -/
def HeapWF (H : List (Nat × HObj)) : Prop :=
  (H.map Prod.fst).Nodup ∧ ∀ p ∈ H, ObjWF H p.2

instance ValWF.decidable (H : List (Nat × HObj)) (v : JSVal) : Decidable (ValWF H v) := by
  unfold ValWF
  cases v <;> exact inferInstance

instance ObjWF.decidable (H : List (Nat × HObj)) (o : HObj) : Decidable (ObjWF H o) := by
  unfold ObjWF
  cases o <;> exact inferInstance

instance HeapWF.decidable (H : List (Nat × HObj)) : Decidable (HeapWF H) := by
  unfold HeapWF
  exact inferInstance

/-- The canonical heap-id translation of the round trip: the encoder
registers source ids in first-visit order and the decoder allocates ids
`0, 1, 2, …` in the same order, so the source id `s` corresponds to its
registration index. -/
def mapVal (R : List Nat) : JSVal → JSVal
  | .ref h => .ref ⟨0, R.indexOf h.oid⟩
  | v => v

/-- The decoded image of a stored object under the id translation. -/
def mapObj (R : List Nat) : HObj → HObj
  | .obj u fs => .obj u (fs.map (fun p => (p.1, mapVal R p.2)))
  | .arr es => .arr (es.map (mapVal R))
  | .hset es => .hset (es.map (mapVal R))
  | .hmap es => .hmap (es.map (fun p => (mapVal R p.1, mapVal R p.2)))
  | .date iso => .date iso

/-- The placeholder the decoder allocates before the contents arrive. -/
def phOf : HObj → HObj
  | .obj _ _ => .obj none []
  | .arr _ => .arr []
  | .hset _ => .hset []
  | .hmap _ => .hmap []
  | .date iso => .date iso

/-- The decoder's wire-reference map after `n` allocations. -/
def refsCanon (n : Nat) : List (Nat × JSVal) :=
  (List.range n).map (fun i => (i, .ref ⟨0, i⟩))

/-- A value whose reference (if any) is already registered. -/
def valReg (R : List Nat) : JSVal → Prop
  | .ref h => h.oid ∈ R
  | _ => True

/-- An object all of whose contained references are already registered. -/
def objReg (R : List Nat) : HObj → Prop
  | .obj _ fs => ∀ p ∈ fs, valReg R p.2
  | .arr es => ∀ v ∈ es, valReg R v
  | .hset es => ∀ v ∈ es, valReg R v
  | .hmap es => ∀ p ∈ es, valReg R p.1 ∧ valReg R p.2
  | .date _ => True

theorem alget_append {α β : Type} [DecidableEq α] (l1 l2 : List (α × β)) (k : α) :
    alget (l1 ++ l2) k =
      match alget l1 k with
      | some b => some b
      | none => alget l2 k := by
  induction l1 with
  | nil => rfl
  | cons p ps ih =>
    by_cases hp : p.1 = k
    · simp [alget, hp]
    · simp [alget, hp, ih]

theorem refsCanon_succ (n : Nat) :
    refsCanon (n + 1) = refsCanon n ++ [(n, .ref ⟨0, n⟩)] := by
  unfold refsCanon
  rw [List.range_succ, List.map_append]
  rfl

theorem keys_refsCanon (n : Nat) : (refsCanon n).map Prod.fst = List.range n := by
  unfold refsCanon
  rw [List.map_map]
  show (List.range n).map (fun i => i) = List.range n
  exact List.map_id _

theorem alget_refsCanon_lt {i n : Nat} (h : i < n) :
    alget (refsCanon n) i = some (.ref ⟨0, i⟩) := by
  induction n with
  | zero => omega
  | succ m ih =>
    rw [refsCanon_succ, alget_append]
    by_cases hm : i < m
    · rw [ih hm]
    · have : i = m := by omega
      subst this
      rw [alget_eq_none_of_not_mem (by rw [keys_refsCanon]; simp)]
      simp [alget]

theorem alget_refsCanon_ge {i n : Nat} (h : n ≤ i) : alget (refsCanon n) i = none := by
  apply alget_eq_none_of_not_mem
  rw [keys_refsCanon]
  simp
  omega

theorem mapVal_ext {R t : List Nat} {v : JSVal} (h : valReg R v) :
    mapVal (R ++ t) v = mapVal R v := by
  cases v <;> simp [mapVal]
  rename_i hh
  unfold valReg at h
  rw [List.indexOf_append_of_mem h]

theorem valReg_ext {R t : List Nat} {v : JSVal} (h : valReg R v) : valReg (R ++ t) v := by
  cases v <;> simp [valReg] at h ⊢
  exact Or.inl h

theorem mapObj_ext {R t : List Nat} {o : HObj} (h : objReg R o) :
    mapObj (R ++ t) o = mapObj R o := by
  cases o with
  | obj u fs =>
    simp only [mapObj, HObj.obj.injEq, true_and]
    exact List.map_congr_left (fun p hp => by rw [mapVal_ext (h p hp)])
  | arr es =>
    simp only [mapObj, HObj.arr.injEq]
    exact List.map_congr_left (fun v hv => mapVal_ext (h v hv))
  | hset es =>
    simp only [mapObj, HObj.hset.injEq]
    exact List.map_congr_left (fun v hv => mapVal_ext (h v hv))
  | hmap es =>
    simp only [mapObj, HObj.hmap.injEq]
    exact List.map_congr_left (fun p hp => by rw [mapVal_ext (h p hp).1, mapVal_ext (h p hp).2])
  | date iso => rfl

theorem objReg_ext {R t : List Nat} {o : HObj} (h : objReg R o) : objReg (R ++ t) o := by
  cases o with
  | obj u fs => exact fun p hp => valReg_ext (h p hp)
  | arr es => exact fun v hv => valReg_ext (h v hv)
  | hset es => exact fun v hv => valReg_ext (h v hv)
  | hmap es => exact fun p hp => ⟨valReg_ext (h p hp).1, valReg_ext (h p hp).2⟩
  | date iso => trivial

theorem mapVal_inj (H : List (Nat × HObj)) {R : List Nat} (hnd : R.Nodup) {a b : JSVal}
    (hwa : ValWF H a) (hwb : ValWF H b) (ha : valReg R a) (hb : valReg R b)
    (heq : mapVal R a = mapVal R b) : a = b := by
  cases a with
  | ref h1 =>
    cases b with
    | ref h2 =>
      simp only [mapVal, JSVal.ref.injEq] at heq
      have hio : R.indexOf h1.oid = R.indexOf h2.oid := by
        have := congrArg Handle.oid heq
        simpa using this
      unfold valReg at ha hb
      have h1m := List.indexOf_lt_length.mpr ha
      have hget1 := List.indexOf_get h1m
      have hget2 := List.indexOf_get (List.indexOf_lt_length.mpr hb)
      have hoid : h1.oid = h2.oid := by
        rw [← hget1, ← hget2]
        congr 1
        exact Fin.ext hio
      unfold ValWF at hwa hwb
      cases h1
      cases h2
      simp only at hwa hwb hoid
      rw [hwa.1, hwb.1, hoid]
    | undef => exact absurd heq (by simp [mapVal])
    | null => exact absurd heq (by simp [mapVal])
    | bool x => exact absurd heq (by simp [mapVal])
    | num x => exact absurd heq (by simp [mapVal])
    | str x => exact absurd heq (by simp [mapVal])
    | bigint x => exact absurd heq (by simp [mapVal])
    | sym x => exact absurd heq (by simp [mapVal])
  | undef => cases b <;> simp [mapVal] at heq ⊢ <;> simp [heq]
  | null => cases b <;> simp [mapVal] at heq ⊢ <;> simp [heq]
  | bool x => cases b <;> simp [mapVal] at heq ⊢ <;> simp [heq]
  | num x => cases b <;> simp [mapVal] at heq ⊢ <;> simp [heq]
  | str x => cases b <;> simp [mapVal] at heq ⊢ <;> simp [heq]
  | bigint x => cases b <;> simp [mapVal] at heq ⊢ <;> simp [heq]
  | sym x => cases b <;> simp [mapVal] at heq ⊢ <;> simp [heq]

theorem foldl_jsSetAdd {vs : List JSVal} {acc : List JSVal} (hnd : vs.Nodup)
    (hdisj : ∀ v ∈ vs, v ∉ acc) : vs.foldl jsSetAdd acc = acc ++ vs := by
  induction vs generalizing acc with
  | nil => simp
  | cons v vs ih =>
    rw [List.foldl_cons]
    rw [show jsSetAdd acc v = acc ++ [v] from by
      unfold jsSetAdd
      rw [if_neg (hdisj v (List.mem_cons_self _ _))]]
    rw [ih (List.nodup_cons.mp hnd).2]
    · simp
    · intro u hu
      simp only [List.mem_append, List.mem_singleton]
      rintro (h | h)
      · exact hdisj u (List.mem_cons_of_mem _ hu) h
      · subst h
        exact (List.nodup_cons.mp hnd).1 hu

theorem foldl_alset_pairs {ps : List (JSVal × JSVal)} {acc : List (JSVal × JSVal)}
    (hnd : (ps.map Prod.fst).Nodup)
    (hdisj : ∀ p ∈ ps, p.1 ∉ acc.map Prod.fst) :
    ps.foldl (fun es p => alset es p.1 p.2) acc = acc ++ ps := by
  induction ps generalizing acc with
  | nil => simp
  | cons p ps ih =>
    rw [List.foldl_cons]
    rw [show alset acc p.1 p.2 = acc ++ [p] from by
      rw [alset_of_alget_none (alget_eq_none_of_not_mem
        (hdisj p (List.mem_cons_self _ _)))]]
    rw [List.map_cons, List.nodup_cons] at hnd
    rw [ih hnd.2]
    · simp
    · intro q hq hmem
      rw [List.map_append] at hmem
      rcases List.mem_append.mp hmem with h | h
      · exact hdisj q (List.mem_cons_of_mem _ hq) h
      · have hq1 : q.1 = p.1 := by simpa using h
        exact hnd.1 (hq1 ▸ List.mem_map_of_mem Prod.fst hq)

theorem foldl_objAssign {fs : List (String × JSVal)} (g : JSVal → JSVal)
    {acc : List (String × JSVal)} {u : Option Int}
    (hnd : (fs.map Prod.fst).Nodup)
    (hdisj : ∀ p ∈ fs, p.1 ∉ acc.map Prod.fst) :
    (fs.map (fun p => ((.str p.1 : JSVal), g p.2))).foldl objAssign (u, acc)
      = (u, acc ++ fs.map (fun p => (p.1, g p.2))) := by
  induction fs generalizing acc with
  | nil => simp
  | cons p fs ih =>
    rw [List.map_cons, List.foldl_cons]
    rw [show objAssign (u, acc) ((.str p.1 : JSVal), g p.2)
        = (u, acc ++ [(p.1, g p.2)]) from by
      unfold objAssign
      dsimp only
      rw [alset_of_alget_none (alget_eq_none_of_not_mem
        (hdisj p (List.mem_cons_self _ _)))]]
    rw [List.map_cons, List.nodup_cons] at hnd
    rw [ih hnd.2]
    · simp
    · intro q hq hmem
      rw [List.map_append] at hmem
      rcases List.mem_append.mp hmem with h | h
      · exact hdisj q (List.mem_cons_of_mem _ hq) h
      · have hq1 : q.1 = p.1 := by simpa using h
        exact hnd.1 (hq1 ▸ List.mem_map_of_mem Prod.fst hq)

/-- The lockstep invariant between the encoder state and the decoder state:
the decoder has allocated exactly one object per registered source id, in
registration order; entries still being decoded (`Op`) hold placeholders,
finished entries hold the translated contents. -/
structure CodecInv (H : List (Nat × HObj)) (E : EncSt) (D : DecSt)
    (Op : List Nat) : Prop where
  esyms : E.syms = []
  dsyms : D.syms = []
  dnsym : D.nextSym = 0
  rnd : E.refs.Nodup
  rreg : ∀ s ∈ E.refs, (alget H s).isSome
  dlen : D.nextOid = E.refs.length
  drefs : D.refs = refsCanon E.refs.length
  dkeys : D.heap.map Prod.fst = List.range E.refs.length
  obound : ∀ q ∈ Op, q < E.refs.length
  content : ∀ i, i < E.refs.length →
    ∃ s o, E.refs.get? i = some s ∧ alget H s = some o ∧
      (if i ∈ Op then alget D.heap i = some (phOf o)
       else alget D.heap i = some (mapObj E.refs o) ∧ objReg E.refs o)

theorem alget_heap_of_keys_range {D : List (Nat × HObj)} {n : Nat}
    (hk : D.map Prod.fst = List.range n) {i : Nat} (hge : n ≤ i) : alget D i = none := by
  apply alget_eq_none_of_not_mem
  rw [hk]
  simp
  omega

/-- The registration step: the encoder appends a fresh source id, the decoder
allocates the matching placeholder. -/
theorem CodecInv_register {H : List (Nat × HObj)} {E : EncSt} {D : DecSt} {Op : List Nat}
    (inv : CodecInv H E D Op) {s : Nat} {o : HObj}
    (hs : s ∉ E.refs) (ho : alget H s = some o) :
    decAlloc D (phOf o) E.refs.length
      = (E.refs.length,
         ⟨D.heap ++ [(E.refs.length, phOf o)], E.refs.length + 1,
          refsCanon (E.refs.length + 1), D.syms, D.nextSym⟩) ∧
    CodecInv H ⟨E.refs ++ [s], E.syms⟩
      ⟨D.heap ++ [(E.refs.length, phOf o)], E.refs.length + 1,
       refsCanon (E.refs.length + 1), D.syms, D.nextSym⟩
      (E.refs.length :: Op) := by
  constructor
  · unfold decAlloc
    rw [inv.dlen, inv.drefs]
    dsimp only
    rw [alset_of_alget_none (alget_refsCanon_ge (le_refl E.refs.length))
      (JSVal.ref ⟨0, E.refs.length⟩)]
    rw [← refsCanon_succ]
  · refine ⟨inv.esyms, inv.dsyms, inv.dnsym, ?_, ?_,
      by show E.refs.length + 1 = _; rw [List.length_append]; rfl,
      by show refsCanon (E.refs.length + 1) = _; rw [List.length_append]; rfl,
      ?_, ?_, ?_⟩
    · refine List.Nodup.append inv.rnd (List.nodup_singleton _) ?_
      intro a ha hb
      rw [List.mem_singleton] at hb
      subst hb
      exact hs ha
    · intro x hx
      rcases List.mem_append.mp hx with h | h
      · exact inv.rreg x h
      · rw [List.mem_singleton] at h
        subst h
        rw [ho]
        rfl
    · show (D.heap ++ [(E.refs.length, phOf o)]).map Prod.fst
        = List.range (E.refs ++ [s]).length
      rw [List.map_append, inv.dkeys, List.length_append]
      simp [List.range_succ]
    · intro q hq
      rcases List.mem_cons.mp hq with h | h
      · subst h
        simp
      · have := inv.obound q h
        simp only [List.length_append, List.length_singleton]
        omega
    · intro i hi
      rw [List.length_append, List.length_singleton] at hi
      by_cases hieq : i = E.refs.length
      · subst hieq
        refine ⟨s, o, ?_, ho, ?_⟩
        · exact List.get?_concat_length _ _
        · rw [if_pos (List.mem_cons_self _ _)]
          rw [alget_append]
          rw [alget_heap_of_keys_range inv.dkeys (le_refl _)]
          simp [alget]
      · have hilt : i < E.refs.length := by omega
        obtain ⟨si, oi, hget, hoi, hcond⟩ := inv.content i hilt
        refine ⟨si, oi, ?_, hoi, ?_⟩
        · rw [List.get?_append hilt]
          exact hget
        · have hmemiff : (i ∈ E.refs.length :: Op) ↔ i ∈ Op := by
            constructor
            · intro h
              rcases List.mem_cons.mp h with h | h
              · exact absurd h hieq
              · exact h
            · exact List.mem_cons_of_mem _
          have halgget : ∀ x : HObj, alget D.heap i = some x →
              alget (D.heap ++ [(E.refs.length, phOf o)]) i = some x := by
            intro x hx
            rw [alget_append, hx]
          by_cases hio : i ∈ Op
          · rw [if_pos (hmemiff.mpr hio)]
            rw [if_pos hio] at hcond
            exact halgget _ hcond
          · rw [if_neg (fun h => hio (hmemiff.mp h))]
            rw [if_neg hio] at hcond
            refine ⟨?_, objReg_ext hcond.2⟩
            rw [halgget _ hcond.1]
            rw [mapObj_ext hcond.2]

/-- The finalization step: once the children are decoded, the placeholder is
overwritten with the translated contents. -/
theorem CodecInv_fill {H : List (Nat × HObj)} {E : EncSt} {D : DecSt} {Op : List Nat}
    {n : Nat} (inv : CodecInv H E D (n :: Op)) {s : Nat} {o : HObj}
    (hget : E.refs.get? n = some s) (ho : alget H s = some o)
    (hreg : objReg E.refs o) (hnop : n ∉ Op) :
    CodecInv H E (decHeapSet D n (mapObj E.refs o)) Op := by
  have hn : n < E.refs.length := inv.obound n (List.mem_cons_self _ _)
  have hnkeys : n ∈ D.heap.map Prod.fst := by
    rw [inv.dkeys]
    simp
    omega
  refine ⟨inv.esyms, inv.dsyms, inv.dnsym, inv.rnd, inv.rreg, inv.dlen, inv.drefs,
    ?_, ?_, ?_⟩
  · show (alset D.heap n (mapObj E.refs o)).map Prod.fst = _
    rw [keys_alset]
    rw [if_pos hnkeys]
    exact inv.dkeys
  · intro q hq
    exact inv.obound q (List.mem_cons_of_mem _ hq)
  · intro i hi
    obtain ⟨si, oi, hgeti, hoi, hcond⟩ := inv.content i hi
    refine ⟨si, oi, hgeti, hoi, ?_⟩
    by_cases hieq : i = n
    · subst hieq
      have hsi : si = s := by
        rw [hget] at hgeti
        exact (Option.some_injective _ hgeti).symm
      subst hsi
      have hoi2 : oi = o := by
        rw [ho] at hoi
        exact (Option.some_injective _ hoi).symm
      subst hoi2
      rw [if_neg hnop]
      show alget (alset D.heap i (mapObj E.refs oi)) i = _ ∧ _
      rw [alget_alset_self]
      exact ⟨rfl, hreg⟩
    · by_cases hio : i ∈ Op
      · rw [if_pos hio]
        rw [if_pos (List.mem_cons_of_mem _ hio)] at hcond
        show alget (alset D.heap n (mapObj E.refs o)) i = some (phOf oi)
        rw [alget_alset_ne _ _ _ _ hieq]
        exact hcond
      · rw [if_neg hio]
        rw [if_neg (show i ∉ n :: Op from by
          intro h
          rcases List.mem_cons.mp h with h | h
          · exact hieq h
          · exact hio h)] at hcond
        refine ⟨?_, hcond.2⟩
        show alget (alset D.heap n (mapObj E.refs o)) i = some (mapObj E.refs oi)
        rw [alget_alset_ne _ _ _ _ hieq]
        exact hcond.1

theorem alset_eq_of_alget {α β : Type} [DecidableEq α] {l : List (α × β)} {k : α} {v : β}
    (h : alget l k = some v) : alset l k v = l := by
  induction l with
  | nil => exact Option.noConfusion h
  | cons p ps ih =>
    by_cases hp : p.1 = k
    · rw [alget, if_pos hp] at h
      rw [alset, if_pos hp]
      have hv2 : p.2 = v := Option.some_injective _ h
      cases p
      simp only at hp hv2
      subst hp
      subst hv2
      rfl
    · rw [alget, if_neg hp] at h
      rw [alset, if_neg hp, ih h]

theorem indexOf_append_singleton {l : List Nat} {a : Nat} (h : a ∉ l) :
    (l ++ [a]).indexOf a = l.length := by
  induction l with
  | nil => simp
  | cons b bs ih =>
    have hab : a ≠ b := by
      intro hc
      exact h (hc ▸ List.mem_cons_self _ _)
    rw [List.cons_append, List.indexOf_cons_ne _ (Ne.symm hab)]
    rw [ih (fun hc => h (List.mem_cons_of_mem _ hc))]
    rfl

theorem refs_length_lt {H : List (Nat × HObj)} {E : EncSt}
    (rnd : E.refs.Nodup) (rreg : ∀ s ∈ E.refs, (alget H s).isSome)
    {s : Nat} (hs : s ∉ E.refs) (ho : (alget H s).isSome) :
    E.refs.length < H.length := by
  have hnd : (E.refs ++ [s]).Nodup := by
    refine rnd.append (List.nodup_singleton _) ?_
    intro a ha hb
    rw [List.mem_singleton] at hb
    subst hb
    exact hs ha
  have hsub : (E.refs ++ [s]) ⊆ H.map Prod.fst := by
    intro x hx
    rcases List.mem_append.mp hx with h | h
    · obtain ⟨o, hoo⟩ := Option.isSome_iff_exists.mp (rreg x h)
      exact mem_keys_of_alget hoo
    · rw [List.mem_singleton] at h
      subst h
      obtain ⟨o, hoo⟩ := Option.isSome_iff_exists.mp ho
      exact mem_keys_of_alget hoo
  have := (List.subperm_of_subset hnd hsub).length_le
  rw [List.length_append, List.length_map] at this
  simp at this
  omega

/-- Lockstep simulation at fuel `f`, single values. -/
def SimV (H : List (Nat × HObj)) (f : Nat) : Prop :=
  ∀ (v : JSVal) (E : EncSt) (D : DecSt) (Op : List Nat),
    HeapWF H → ValWF H v → CodecInv H E D Op → H.length - E.refs.length < f →
    ∃ w E' D', encodeV H [] f v E = some (w, E') ∧
      decodeV f w D = some (mapVal E'.refs v, D') ∧
      CodecInv H E' D' Op ∧ (∃ t, E'.refs = E.refs ++ t) ∧ valReg E'.refs v

/-- Lockstep simulation at fuel `f`, element lists. -/
def SimL (H : List (Nat × HObj)) (f : Nat) : Prop :=
  ∀ (es : List JSVal) (E : EncSt) (D : DecSt) (Op : List Nat),
    HeapWF H → (∀ v ∈ es, ValWF H v) → CodecInv H E D Op →
    H.length - E.refs.length < f →
    ∃ ws E' D', encodeL H [] f es E = some (ws, E') ∧
      decodeL f ws D = some (es.map (mapVal E'.refs), D') ∧
      CodecInv H E' D' Op ∧ (∃ t, E'.refs = E.refs ++ t) ∧ ∀ v ∈ es, valReg E'.refs v

/-- Lockstep simulation at fuel `f`, pair lists. -/
def SimP (H : List (Nat × HObj)) (f : Nat) : Prop :=
  ∀ (ps : List (JSVal × JSVal)) (E : EncSt) (D : DecSt) (Op : List Nat),
    HeapWF H → (∀ p ∈ ps, ValWF H p.1 ∧ ValWF H p.2) → CodecInv H E D Op →
    H.length - E.refs.length < f →
    ∃ ws E' D', encodeP H [] f ps E = some (ws, E') ∧
      decodeP f ws D =
        some (ps.map (fun p => (mapVal E'.refs p.1, mapVal E'.refs p.2)), D') ∧
      CodecInv H E' D' Op ∧ (∃ t, E'.refs = E.refs ++ t) ∧
      ∀ p ∈ ps, valReg E'.refs p.1 ∧ valReg E'.refs p.2

theorem sim_all (H : List (Nat × HObj)) (f : Nat) : SimV H f ∧ SimL H f ∧ SimP H f := by
  induction f using Nat.strong_induction_on with
  | _ f IH =>
  have hV : SimV H f := by
    intro v E D Op hH hv inv hfuel
    cases v with
    | undef =>
      refine ⟨.wundef, E, D, ?_, ?_, inv, ⟨[], by simp⟩, trivial⟩
      · simp [encodeV]
      · simp [decodeV, mapVal]
    | null =>
      refine ⟨.wnull, E, D, ?_, ?_, inv, ⟨[], by simp⟩, trivial⟩
      · simp [encodeV]
      · simp [decodeV, mapVal]
    | bool b =>
      refine ⟨.wbool b, E, D, ?_, ?_, inv, ⟨[], by simp⟩, trivial⟩
      · simp [encodeV]
      · simp [decodeV, mapVal]
    | num n =>
      refine ⟨.wnum n, E, D, ?_, ?_, inv, ⟨[], by simp⟩, trivial⟩
      · simp [encodeV]
      · simp [decodeV, mapVal]
    | str s =>
      refine ⟨.wstr s, E, D, ?_, ?_, inv, ⟨[], by simp⟩, trivial⟩
      · simp [encodeV]
      · simp [decodeV, mapVal]
    | bigint i =>
      refine ⟨.wbigint i, E, D, ?_, ?_, inv, ⟨[], by simp⟩, trivial⟩
      · simp [encodeV]
      · simp [decodeV, mapVal]
    | sym s => exact hv.elim
    | ref h =>
      obtain ⟨hlev, hsome⟩ := hv
      by_cases hmem : h.oid ∈ E.refs
      · have hidx : E.refs.indexOf h.oid < E.refs.length := List.indexOf_lt_length.mpr hmem
        refine ⟨.wref (E.refs.indexOf h.oid), E, D, ?_, ?_, inv, ⟨[], by simp⟩, hmem⟩
        · simp [encodeV, hmem]
        · simp only [decodeV]
          rw [inv.drefs, alget_refsCanon_lt hidx]
          rfl
      · obtain ⟨o, ho⟩ := Option.isSome_iff_exists.mp hsome
        have hobjwf : ObjWF H o := hH.2 (h.oid, o) (mem_of_alget ho)
        have hlenlt : E.refs.length < H.length := refs_length_lt inv.rnd inv.rreg hmem hsome
        cases f with
        | zero => omega
        | succ f' =>
          obtain ⟨halloc, hinv1⟩ := CodecInv_register inv hmem ho
          have hfuel1 : H.length - (E.refs ++ [h.oid]).length < f' := by
            rw [List.length_append]
            simp only [List.length_singleton]
            omega
          have hnop : E.refs.length ∉ Op := fun hc => absurd (inv.obound _ hc) (by omega)
          have hselfmem : h.oid ∈ E.refs ++ [h.oid] :=
            List.mem_append_right _ (List.mem_singleton.mpr rfl)
          have hidxE1 : ∀ t : List Nat,
              ((E.refs ++ [h.oid]) ++ t).indexOf h.oid = E.refs.length := by
            intro t
            rw [List.indexOf_append_of_mem hselfmem]
            exact indexOf_append_singleton hmem
          have hget1 : (E.refs ++ [h.oid]).get? E.refs.length = some h.oid :=
            List.get?_concat_length _ _
          cases o with
          | date iso =>
            have halloc' : decAlloc D (.date iso) E.refs.length
                = (E.refs.length,
                   ⟨D.heap ++ [(E.refs.length, .date iso)], E.refs.length + 1,
                    refsCanon (E.refs.length + 1), D.syms, D.nextSym⟩) := halloc
            have hD1n : alget (D.heap ++ [(E.refs.length, HObj.date iso)])
                (E.refs.length) = some (.date iso) := by
              rw [alget_append, alget_heap_of_keys_range inv.dkeys (le_refl _)]
              simp [alget]
            have hfill := CodecInv_fill hinv1 hget1 ho (by trivial) hnop
            have hD1eq : decHeapSet
                ⟨D.heap ++ [(E.refs.length, phOf (HObj.date iso))], E.refs.length + 1,
                 refsCanon (E.refs.length + 1), D.syms, D.nextSym⟩
                E.refs.length
                (mapObj ({ refs := E.refs ++ [h.oid], syms := E.syms } : EncSt).refs
                  (HObj.date iso))
                = ⟨D.heap ++ [(E.refs.length, phOf (HObj.date iso))], E.refs.length + 1,
                   refsCanon (E.refs.length + 1), D.syms, D.nextSym⟩ := by
              show decHeapSet
                  ⟨D.heap ++ [(E.refs.length, phOf (HObj.date iso))], E.refs.length + 1,
                   refsCanon (E.refs.length + 1), D.syms, D.nextSym⟩
                  E.refs.length (phOf (HObj.date iso)) = _
              unfold decHeapSet
              rw [alset_eq_of_alget (show alget (D.heap ++
                [(E.refs.length, phOf (HObj.date iso))]) E.refs.length
                = some (phOf (HObj.date iso)) from hD1n)]
            rw [hD1eq] at hfill
            refine ⟨.wdate iso E.refs.length, ⟨E.refs ++ [h.oid], E.syms⟩,
              ⟨D.heap ++ [(E.refs.length, .date iso)], E.refs.length + 1,
               refsCanon (E.refs.length + 1), D.syms, D.nextSym⟩,
              ?_, ?_, hfill, ⟨[h.oid], rfl⟩, hselfmem⟩
            · simp [encodeV, hmem, ho]
            · simp only [decodeV]
              rw [halloc']
              show some (JSVal.ref ⟨0, E.refs.length⟩, _) = _
              rw [show mapVal (E.refs ++ [h.oid]) (JSVal.ref h)
                  = .ref ⟨0, E.refs.length⟩ from by
                show JSVal.ref ⟨0, (E.refs ++ [h.oid]).indexOf h.oid⟩ = _
                rw [indexOf_append_singleton hmem]]
          | arr es =>
            have hSL := (IH f' (Nat.lt_succ_self f')).2.1
            have hwfes : ∀ v ∈ es, ValWF H v := hobjwf
            obtain ⟨ws, E2, D2, he2, hd2, inv2, ⟨t2, ht2⟩, hreg2⟩ :=
              hSL es ⟨E.refs ++ [h.oid], E.syms⟩
                ⟨D.heap ++ [(E.refs.length, phOf (HObj.arr es))], E.refs.length + 1,
                 refsCanon (E.refs.length + 1), D.syms, D.nextSym⟩
                (E.refs.length :: Op) hH hwfes hinv1 hfuel1
            have hget2 : E2.refs.get? E.refs.length = some h.oid := by
              rw [show E2.refs = (E.refs ++ [h.oid]) ++ t2 from ht2]
              rw [List.get?_append (by rw [List.length_append]; simp)]
              exact hget1
            have hmv2 : mapVal E2.refs (JSVal.ref h) = .ref ⟨0, E.refs.length⟩ := by
              show JSVal.ref ⟨0, E2.refs.indexOf h.oid⟩ = _
              rw [ht2, hidxE1 t2]
            have hfill := CodecInv_fill inv2 hget2 ho
              (show objReg E2.refs (HObj.arr es) from hreg2) hnop
            have halloc' : decAlloc D (.arr []) E.refs.length
                = (E.refs.length,
                   ⟨D.heap ++ [(E.refs.length, phOf (HObj.arr es))], E.refs.length + 1,
                    refsCanon (E.refs.length + 1), D.syms, D.nextSym⟩) := halloc
            have he2' : encodeL H [] f' es { refs := E.refs ++ [h.oid], syms := E.syms }
                = some (ws, E2) := he2
            refine ⟨.warr ws E.refs.length, E2,
              decHeapSet D2 E.refs.length (.arr (es.map (mapVal E2.refs))), ?_, ?_, ?_,
              ⟨[h.oid] ++ t2, by rw [ht2, List.append_assoc]⟩, ?_⟩
            · simp [encodeV, hmem, ho, he2']
            · simp only [decodeV]
              rw [halloc']
              dsimp only
              rw [hd2]
              dsimp only
              rw [hmv2]
            · exact hfill
            · rw [ht2]
              exact List.mem_append_left _ hselfmem
          | hset es =>
            have hSL := (IH f' (Nat.lt_succ_self f')).2.1
            have hwfes : ∀ v ∈ es, ValWF H v := hobjwf.2
            obtain ⟨ws, E2, D2, he2, hd2, inv2, ⟨t2, ht2⟩, hreg2⟩ :=
              hSL es ⟨E.refs ++ [h.oid], E.syms⟩
                ⟨D.heap ++ [(E.refs.length, phOf (HObj.hset es))], E.refs.length + 1,
                 refsCanon (E.refs.length + 1), D.syms, D.nextSym⟩
                (E.refs.length :: Op) hH hwfes hinv1 hfuel1
            have hget2 : E2.refs.get? E.refs.length = some h.oid := by
              rw [show E2.refs = (E.refs ++ [h.oid]) ++ t2 from ht2]
              rw [List.get?_append (by rw [List.length_append]; simp)]
              exact hget1
            have hmv2 : mapVal E2.refs (JSVal.ref h) = .ref ⟨0, E.refs.length⟩ := by
              show JSVal.ref ⟨0, E2.refs.indexOf h.oid⟩ = _
              rw [ht2, hidxE1 t2]
            have hfill := CodecInv_fill inv2 hget2 ho
              (show objReg E2.refs (HObj.hset es) from hreg2) hnop
            have halloc' : decAlloc D (.hset []) E.refs.length
                = (E.refs.length,
                   ⟨D.heap ++ [(E.refs.length, phOf (HObj.hset es))], E.refs.length + 1,
                    refsCanon (E.refs.length + 1), D.syms, D.nextSym⟩) := halloc
            have he2' : encodeL H [] f' es { refs := E.refs ++ [h.oid], syms := E.syms }
                = some (ws, E2) := he2
            have hvsnd : (es.map (mapVal E2.refs)).Nodup :=
              List.Nodup.map_on (fun x hx y hy hxy => mapVal_inj H inv2.rnd
                (hwfes x hx) (hwfes y hy) (hreg2 x hx) (hreg2 y hy) hxy) hobjwf.1
            have hfold : (es.map (mapVal E2.refs)).foldl jsSetAdd []
                = es.map (mapVal E2.refs) := by
              simpa using foldl_jsSetAdd hvsnd (fun v _ => List.not_mem_nil v)
            refine ⟨.wset ws E.refs.length, E2,
              decHeapSet D2 E.refs.length (.hset (es.map (mapVal E2.refs))), ?_, ?_, ?_,
              ⟨[h.oid] ++ t2, by rw [ht2, List.append_assoc]⟩, ?_⟩
            · simp [encodeV, hmem, ho, he2']
            · simp only [decodeV]
              rw [halloc']
              dsimp only
              rw [hd2]
              dsimp only
              rw [hmv2, hfold]
            · exact hfill
            · rw [ht2]
              exact List.mem_append_left _ hselfmem
          | hmap es =>
            have hSP := (IH f' (Nat.lt_succ_self f')).2.2
            have hwfps : ∀ p ∈ es, ValWF H p.1 ∧ ValWF H p.2 := hobjwf.2
            obtain ⟨ws, E2, D2, he2, hd2, inv2, ⟨t2, ht2⟩, hreg2⟩ :=
              hSP es ⟨E.refs ++ [h.oid], E.syms⟩
                ⟨D.heap ++ [(E.refs.length, phOf (HObj.hmap es))], E.refs.length + 1,
                 refsCanon (E.refs.length + 1), D.syms, D.nextSym⟩
                (E.refs.length :: Op) hH hwfps hinv1 hfuel1
            have hget2 : E2.refs.get? E.refs.length = some h.oid := by
              rw [show E2.refs = (E.refs ++ [h.oid]) ++ t2 from ht2]
              rw [List.get?_append (by rw [List.length_append]; simp)]
              exact hget1
            have hmv2 : mapVal E2.refs (JSVal.ref h) = .ref ⟨0, E.refs.length⟩ := by
              show JSVal.ref ⟨0, E2.refs.indexOf h.oid⟩ = _
              rw [ht2, hidxE1 t2]
            have hfill := CodecInv_fill inv2 hget2 ho
              (show objReg E2.refs (HObj.hmap es) from hreg2) hnop
            have halloc' : decAlloc D (.hmap []) E.refs.length
                = (E.refs.length,
                   ⟨D.heap ++ [(E.refs.length, phOf (HObj.hmap es))], E.refs.length + 1,
                    refsCanon (E.refs.length + 1), D.syms, D.nextSym⟩) := halloc
            have he2' : encodeP H [] f' es { refs := E.refs ++ [h.oid], syms := E.syms }
                = some (ws, E2) := he2
            have hkeyseq : (es.map (fun p =>
                (mapVal E2.refs p.1, mapVal E2.refs p.2))).map Prod.fst
                = (es.map Prod.fst).map (mapVal E2.refs) := by
              rw [List.map_map, List.map_map]
              exact List.map_congr_left (fun p _ => rfl)
            have hkeysnd : ((es.map (fun p =>
                (mapVal E2.refs p.1, mapVal E2.refs p.2))).map Prod.fst).Nodup := by
              rw [hkeyseq]
              refine List.Nodup.map_on ?_ hobjwf.1
              intro x hx y hy hxy
              obtain ⟨p, hp, rfl⟩ := List.mem_map.mp hx
              obtain ⟨q, hq, rfl⟩ := List.mem_map.mp hy
              exact mapVal_inj H inv2.rnd (hwfps p hp).1 (hwfps q hq).1
                (hreg2 p hp).1 (hreg2 q hq).1 hxy
            have hfold : (es.map (fun p =>
                (mapVal E2.refs p.1, mapVal E2.refs p.2))).foldl
                  (fun es p => alset es p.1 p.2) []
                = es.map (fun p => (mapVal E2.refs p.1, mapVal E2.refs p.2)) := by
              simpa using foldl_alset_pairs hkeysnd (fun p _ h => by simp at h)
            refine ⟨.wmap ws E.refs.length, E2,
              decHeapSet D2 E.refs.length
                (.hmap (es.map (fun p => (mapVal E2.refs p.1, mapVal E2.refs p.2)))),
              ?_, ?_, ?_, ⟨[h.oid] ++ t2, by rw [ht2, List.append_assoc]⟩, ?_⟩
            · simp [encodeV, hmem, ho, he2']
            · simp only [decodeV]
              rw [halloc']
              dsimp only
              rw [hd2]
              dsimp only
              rw [hmv2, hfold]
            · exact hfill
            · rw [ht2]
              exact List.mem_append_left _ hselfmem
          | obj u fs =>
            obtain ⟨hu, hfsnd, hfswf⟩ := hobjwf
            subst hu
            have hSP := (IH f' (Nat.lt_succ_self f')).2.2
            have hwfps : ∀ p ∈ fs.map (fun p => ((JSVal.str p.1), p.2)),
                ValWF H p.1 ∧ ValWF H p.2 := by
              intro p hp
              obtain ⟨q, hq, rfl⟩ := List.mem_map.mp hp
              exact ⟨trivial, hfswf q hq⟩
            obtain ⟨ws, E2, D2, he2, hd2, inv2, ⟨t2, ht2⟩, hreg2⟩ :=
              hSP (fs.map (fun p => ((JSVal.str p.1), p.2))) ⟨E.refs ++ [h.oid], E.syms⟩
                ⟨D.heap ++ [(E.refs.length, phOf (HObj.obj none fs))], E.refs.length + 1,
                 refsCanon (E.refs.length + 1), D.syms, D.nextSym⟩
                (E.refs.length :: Op) hH hwfps hinv1 hfuel1
            have hget2 : E2.refs.get? E.refs.length = some h.oid := by
              rw [show E2.refs = (E.refs ++ [h.oid]) ++ t2 from ht2]
              rw [List.get?_append (by rw [List.length_append]; simp)]
              exact hget1
            have hmv2 : mapVal E2.refs (JSVal.ref h) = .ref ⟨0, E.refs.length⟩ := by
              show JSVal.ref ⟨0, E2.refs.indexOf h.oid⟩ = _
              rw [ht2, hidxE1 t2]
            have hreg2' : objReg E2.refs (HObj.obj none fs) := by
              intro p hp
              exact (hreg2 ((JSVal.str p.1), p.2) (List.mem_map_of_mem _ hp)).2
            have hfill := CodecInv_fill inv2 hget2 ho hreg2' hnop
            have halloc' : decAlloc D (.obj none []) E.refs.length
                = (E.refs.length,
                   ⟨D.heap ++ [(E.refs.length, phOf (HObj.obj none fs))],
                    E.refs.length + 1,
                    refsCanon (E.refs.length + 1), D.syms, D.nextSym⟩) := halloc
            have he2' : encodeP H [] f' (fs.map (fun p => ((JSVal.str p.1), p.2)))
                { refs := E.refs ++ [h.oid], syms := E.syms } = some (ws, E2) := he2
            have hvseq : (fs.map (fun p => ((JSVal.str p.1), p.2))).map
                (fun p => (mapVal E2.refs p.1, mapVal E2.refs p.2))
                = fs.map (fun p => ((JSVal.str p.1), mapVal E2.refs p.2)) := by
              rw [List.map_map]
              rfl
            have hfold : (fs.map (fun p => ((JSVal.str p.1), mapVal E2.refs p.2))).foldl
                objAssign (none, [])
                = (none, fs.map (fun p => (p.1, mapVal E2.refs p.2))) := by
              simpa using foldl_objAssign (mapVal E2.refs) hfsnd (fun p _ h => by simp at h)
            refine ⟨.wobj ws E.refs.length, E2,
              decHeapSet D2 E.refs.length
                (.obj none (fs.map (fun p => (p.1, mapVal E2.refs p.2)))),
              ?_, ?_, ?_, ⟨[h.oid] ++ t2, by rw [ht2, List.append_assoc]⟩, ?_⟩
            · simp [encodeV, hmem, ho, he2']
            · simp only [decodeV]
              rw [halloc']
              dsimp only
              rw [hd2]
              dsimp only
              rw [hmv2, hvseq, hfold]
            · exact hfill
            · rw [ht2]
              exact List.mem_append_left _ hselfmem
  have hL : SimL H f := by
    intro es
    induction es with
    | nil =>
      intro E D Op hH hwf inv hfuel
      refine ⟨[], E, D, ?_, ?_, inv, ⟨[], by simp⟩, by simp⟩
      · simp [encodeL]
      · simp [decodeL]
    | cons v vs ihl =>
      intro E D Op hH hwf inv hfuel
      obtain ⟨w, E1, D1, he1, hd1, inv1, ⟨t1, ht1⟩, hreg1⟩ :=
        hV v E D Op hH (hwf v (List.mem_cons_self _ _)) inv hfuel
      have hfuel1 : H.length - E1.refs.length < f := by
        rw [ht1, List.length_append]
        omega
      obtain ⟨ws, E2, D2, he2, hd2, inv2, ⟨t2, ht2⟩, hreg2⟩ :=
        ihl E1 D1 Op hH (fun u hu => hwf u (List.mem_cons_of_mem _ hu)) inv1 hfuel1
      refine ⟨w :: ws, E2, D2, ?_, ?_, inv2, ⟨t1 ++ t2, by rw [ht2, ht1, List.append_assoc]⟩, ?_⟩
      · simp only [encodeL]
        rw [he1]
        dsimp only
        rw [he2]
      · simp only [decodeL]
        rw [hd1]
        dsimp only
        rw [hd2]
        dsimp only
        rw [List.map_cons]
        rw [show mapVal E2.refs v = mapVal E1.refs v from by rw [ht2]; exact mapVal_ext hreg1]
      · intro u hu
        rcases List.mem_cons.mp hu with h | h
        · subst h
          rw [ht2]
          exact valReg_ext hreg1
        · exact hreg2 u h
  have hP : SimP H f := by
    intro ps
    induction ps with
    | nil =>
      intro E D Op hH hwf inv hfuel
      refine ⟨[], E, D, ?_, ?_, inv, ⟨[], by simp⟩, by simp⟩
      · simp [encodeP]
      · simp [decodeP]
    | cons p ps ihp =>
      intro E D Op hH hwf inv hfuel
      obtain ⟨wk, E1, D1, he1, hd1, inv1, ⟨t1, ht1⟩, hreg1⟩ :=
        hV p.1 E D Op hH (hwf p (List.mem_cons_self _ _)).1 inv hfuel
      have hfuel1 : H.length - E1.refs.length < f := by
        rw [ht1, List.length_append]
        omega
      obtain ⟨wv, E2, D2, he2, hd2, inv2, ⟨t2, ht2⟩, hreg2⟩ :=
        hV p.2 E1 D1 Op hH (hwf p (List.mem_cons_self _ _)).2 inv1 hfuel1
      have hfuel2 : H.length - E2.refs.length < f := by
        rw [ht2, List.length_append]
        omega
      obtain ⟨ws, E3, D3, he3, hd3, inv3, ⟨t3, ht3⟩, hreg3⟩ :=
        ihp E2 D2 Op hH (fun q hq => hwf q (List.mem_cons_of_mem _ hq)) inv2 hfuel2
      refine ⟨(wk, wv) :: ws, E3, D3, ?_, ?_, inv3,
        ⟨t1 ++ (t2 ++ t3), by rw [ht3, ht2, ht1, List.append_assoc, List.append_assoc]⟩, ?_⟩
      · simp only [encodeP]
        rw [he1]
        dsimp only
        rw [he2]
        dsimp only
        rw [he3]
      · simp only [decodeP]
        rw [hd1]
        dsimp only
        rw [hd2]
        dsimp only
        rw [hd3]
        dsimp only
        rw [List.map_cons]
        have hk : mapVal E3.refs p.1 = mapVal E1.refs p.1 := by
          rw [ht3, ht2, List.append_assoc]
          exact mapVal_ext hreg1
        have hvv : mapVal E3.refs p.2 = mapVal E2.refs p.2 := by
          rw [ht3]
          exact mapVal_ext hreg2
        rw [hk, hvv]
      · intro q hq
        rcases List.mem_cons.mp hq with h | h
        · subst h
          constructor
          · rw [ht3, ht2, List.append_assoc]
            exact valReg_ext hreg1
          · rw [ht3]
            exact valReg_ext hreg2
        · exact hreg3 q h
  exact ⟨hV, hL, hP⟩

/-- Claim C5: on a well-formed serializable heap, `Decode (Encode v)`
terminates with fuel one more than the heap size (no infinite recursion on
cycles), and rebuilds the value graph up to the canonical heap-id
translation `mapVal`: the root value maps across, every object the encoder
registered is decoded to its translated contents (structural equality of the
whole graph), and distinct source objects stay distinct (sharing and
self-reference are preserved by identity — the translation is a function of
the source id, and injective on registered ids). -/
theorem codec_roundtrip_spec (H : List (Nat × HObj)) (v : JSVal)
    (hH : HeapWF H) (hv : ValWF H v) :
    ∃ w E', encodeV H [] (H.length + 1) v ⟨[], []⟩ = some (w, E') ∧
      ∃ D', decodeV (H.length + 1) w initDecSt = some (mapVal E'.refs v, D') ∧
        E'.refs.Nodup ∧
        D'.heap.map Prod.fst = List.range E'.refs.length ∧
        (∀ i, i < E'.refs.length → ∃ s o, E'.refs.get? i = some s ∧
          alget H s = some o ∧ alget D'.heap i = some (mapObj E'.refs o)) ∧
        (∀ h1 h2 : Handle, h1.oid ∈ E'.refs → h2.oid ∈ E'.refs →
          mapVal E'.refs (.ref h1) = mapVal E'.refs (.ref h2) → h1.oid = h2.oid) := by
  have hinit : CodecInv H ⟨[], []⟩ initDecSt [] := by
    refine ⟨rfl, rfl, rfl, List.nodup_nil, ?_, rfl, rfl, rfl, ?_, ?_⟩
    · intro s hs
      simp at hs
    · intro q hq
      simp at hq
    · intro i hi
      simp at hi
  obtain ⟨w, E', D', he, hd, invF, hext, hreg⟩ :=
    (sim_all H (H.length + 1)).1 v ⟨[], []⟩ initDecSt [] hH hv hinit
      (by show H.length - ([] : List Nat).length < H.length + 1; simp)
  refine ⟨w, E', he, D', hd, invF.rnd, invF.dkeys, ?_, ?_⟩
  · intro i hi
    obtain ⟨s, o, hget, ho, hcond⟩ := invF.content i hi
    rw [if_neg (List.not_mem_nil i)] at hcond
    exact ⟨s, o, hget, ho, hcond.1⟩
  · intro h1 h2 hm1 hm2 heq
    have hio : E'.refs.indexOf h1.oid = E'.refs.indexOf h2.oid := by
      have := congrArg Handle.oid (by
        simpa only [mapVal, JSVal.ref.injEq] using heq)
      simpa using this
    have hget1 := List.indexOf_get (List.indexOf_lt_length.mpr hm1)
    have hget2 := List.indexOf_get (List.indexOf_lt_length.mpr hm2)
    rw [← hget1, ← hget2]
    congr 1
    exact Fin.ext hio

/-- The C5 witness heap: a single self-referential object
`x = {self: x, n: 3}`. -/
def c5heap : List (Nat × HObj) :=
  [(0, .obj none [("self", .ref ⟨0, 0⟩), ("n", .num 3)])]

/-- Witness for C5 at a concrete input: the self-referential object
round-trips. -/
theorem codec_roundtrip_spec_witness :
    (HeapWF c5heap ∧ ValWF c5heap (.ref ⟨0, 0⟩)) ∧
    (∃ w E', encodeV c5heap [] (c5heap.length + 1) (.ref ⟨0, 0⟩) ⟨[], []⟩
        = some (w, E') ∧
      ∃ D', decodeV (c5heap.length + 1) w initDecSt
          = some (mapVal E'.refs (.ref ⟨0, 0⟩), D') ∧
        E'.refs.Nodup ∧
        D'.heap.map Prod.fst = List.range E'.refs.length ∧
        (∀ i, i < E'.refs.length → ∃ s o, E'.refs.get? i = some s ∧
          alget c5heap s = some o ∧ alget D'.heap i = some (mapObj E'.refs o)) ∧
        (∀ h1 h2 : Handle, h1.oid ∈ E'.refs → h2.oid ∈ E'.refs →
          mapVal E'.refs (.ref h1) = mapVal E'.refs (.ref h2) → h1.oid = h2.oid)) :=
  ⟨⟨by decide, by decide⟩,
   codec_roundtrip_spec c5heap (.ref ⟨0, 0⟩) (by decide) (by decide)⟩
